import Mathlib

/-!
Merkle Patricia Trie: node model, Get / Put, proofs and their verification.

A shallow embedding of `trie/trie.go`, `trie/proof.go` and `nodes/*.go`.

* A Go `[]byte` that may be `nil` is an `Option (List Byte)`; `none` is the nil slice.
  Keys are only ever read through `utils.FromBytes`, which sees a nil and an empty key alike,
  so a key is a `List Byte`.
* The interface value `nodes.Node` is the inductive `Node`; the nil interface is `Node.Empty`.
* `Put` mutates through a pointer into the parent slot; here each step hands back the rewritten
  subtree and the caller stores it in the slot it came from.
* The hash function (Keccak256) and the canonical encoding (RLP) are library code and are
  parameters of every definition that uses them (`Lib`); `sampleLib` is a concrete instance on
  which the definitions can be run.
* `VerifyProof` hands over to go-ethereum's `trie.VerifyProof`; the verifier is modelled from the
  description the specification gives of it.
* `Node.putT`, `Node.rawT` and the lemmas about them are the proof side: `Node.put` and
  `Node.Raw` are shown to return what these total functions return.
-/

namespace MPT

/-- A nibble, `utils.Nibble`: an integer in `[0, 15]`. -/
abbrev Nibble := Fin 16

/-- A byte. -/
abbrev Byte := Fin 256

/-- A Go byte slice used as a value: `none` is the nil slice. -/
abbrev Value := Option (List Byte)

/-- The errors built with `fmt.Errorf` in `trie.go` and `proof.go`, plus the nil dereference
that `ExtensionNode.Raw` runs into when `Next` is the nil interface and the failure of the
verification of a proof. -/
inductive Err
  | emptyNode
  | keyNotFound
  | nodeHasNoValue
  | tooManyMatched
  | unknownType
  | notFound
  | nilDereference
  | proofVerificationFailure
  deriving DecidableEq, Repr

/-- Modelled from the spec: `utils.FromBytes` is not among the sources. "A key's byte sequence
maps 1:1 to a nibble sequence of length 2x the byte count (high nibble first per byte)." -/
def FromBytes : List Byte → List Nibble
  | [] => []
  | b :: bs =>
    ⟨b.val / 16, by have := b.isLt; omega⟩ :: ⟨b.val % 16, Nat.mod_lt _ (by decide)⟩
      :: FromBytes bs

/-- Modelled from the spec: `utils.PrefixMatchedLen` is not among the sources. It is the
"shared-prefix length" of two nibble sequences. -/
def PrefixMatchedLen : List Nibble → List Nibble → Nat
  | a :: as, b :: bs => if a = b then PrefixMatchedLen as bs + 1 else 0
  | _, _ => 0

/-- Modelled from the spec: `utils.ToPrefixed` is not among the sources. Hex-prefix framing:
`flagNibble = 2*isLeaf + (L mod 2)`; an odd path gives `[flagNibble] ++ P`, an even one
`[flagNibble, 0] ++ P`. -/
def ToPrefixed (ns : List Nibble) (isLeaf : Bool) : List Nibble :=
  let flag : Nat := 2 * (if isLeaf then 1 else 0) + ns.length % 2
  if ns.length % 2 = 1 then
    (⟨flag % 16, Nat.mod_lt _ (by decide)⟩ : Nibble) :: ns
  else
    (⟨flag % 16, Nat.mod_lt _ (by decide)⟩ : Nibble) :: 0 :: ns

/-- Modelled from the spec: `utils.ToBytes` is not among the sources. "Pack the resulting
(always even-length) nibble sequence two-per-byte, high nibble first." The spec gives no
meaning to an odd length; a trailing single nibble is left out here. -/
def ToBytes : List Nibble → List Byte
  | hi :: lo :: rest =>
    (⟨hi.val * 16 + lo.val, by have := hi.isLt; have := lo.isLt; omega⟩ : Byte) :: ToBytes rest
  | _ => []

/-- The interface `nodes.Node` with its three implementations `*LeafNode`, `*BranchNode`,
`*ExtensionNode`; `Empty` is the nil interface value. `Branches` is the array `[16]Node`. -/
inductive Node
  | Empty
  | LeafNode (Path : List Nibble) (Value : Value)
  | BranchNode (Branches : Fin 16 → Node) (Value : Value)
  | ExtensionNode (Path : List Nibble) (Next : Node)

instance : Inhabited Node := ⟨Node.Empty⟩

/-- Modelled from the spec: `nodes.IsEmptyNode` is not among the sources. `Empty` "compares by
kind": the node is the nil interface. -/
def IsEmptyNode : Node → Bool
  | .Empty => true
  | _ => false

/-- The function `nodes.NewLeafNodeFromNibbles`. -/
def NewLeafNodeFromNibbles (nibbles : List Nibble) (value : Value) : Node :=
  .LeafNode nibbles value

/-- The function `nodes.NewExtensionNode`. -/
def NewExtensionNode (nibbles : List Nibble) (next : Node) : Node :=
  .ExtensionNode nibbles next

/-- The function `nodes.NewBranchNode`: sixteen nil slots and a nil value. -/
def NewBranchNode : Node :=
  .BranchNode (fun _ => .Empty) none

/-- The method `BranchNode.SetBranch`: `b.Branches[int(nibble)] = node`. -/
def Node.SetBranch : Node → Nibble → Node → Node
  | .BranchNode bs v, nibble, node => .BranchNode (Function.update bs nibble node) v
  | n, _, _ => n

/-- The method `BranchNode.SetValue`: `b.Value = value`. -/
def Node.SetValue : Node → Value → Node
  | .BranchNode bs _, value => .BranchNode bs value
  | n, _ => n

/-- The method `BranchNode.HasValue`: `b.Value != nil`. -/
def HasValue (value : Value) : Bool :=
  value.isSome

/-- The loop of `Trie.Get`, started at `node` with `nibbles` left to consume. -/
def Node.get : Node → List Nibble → Value × Bool
  | .Empty, _ => (none, false)
  | .LeafNode path value, nibbles =>
    let matched := PrefixMatchedLen path nibbles
    if matched ≠ path.length ∨ matched ≠ nibbles.length then (none, false)
    else (value, true)
  | .BranchNode _ value, [] => (value, HasValue value)
  | .BranchNode branches _, b :: remaining => (branches b).get remaining
  | .ExtensionNode path next, nibbles =>
    let matched := PrefixMatchedLen path nibbles
    if matched < path.length then (none, false)
    else next.get (nibbles.drop matched)

/-- The loop of `Trie.Put`, started at the slot holding `node` with `nibbles` left to consume:
the result is the node the slot holds afterwards, or the error returned (in which case nothing
was written). -/
def Node.put : Node → List Nibble → Value → Except Err Node
  | .Empty, nibbles, value => .ok (NewLeafNodeFromNibbles nibbles value)
  | .LeafNode path leafValue, nibbles, value =>
    let matched := PrefixMatchedLen path nibbles
    if matched = nibbles.length ∧ matched = path.length then
      .ok (NewLeafNodeFromNibbles path value)
    else
      let branch := NewBranchNode
      let branch := if matched = path.length then branch.SetValue leafValue else branch
      let branch := if matched = nibbles.length then branch.SetValue value else branch
      let branch :=
        if h : matched < path.length then
          branch.SetBranch path[matched]
            (NewLeafNodeFromNibbles (path.drop (matched + 1)) leafValue)
        else branch
      let branch :=
        if h : matched < nibbles.length then
          branch.SetBranch nibbles[matched]
            (NewLeafNodeFromNibbles (nibbles.drop (matched + 1)) value)
        else branch
      if matched > 0 then .ok (NewExtensionNode (path.take matched) branch)
      else .ok branch
  | .BranchNode branches _, [], value => .ok (.BranchNode branches value)
  | .BranchNode branches branchValue, b :: remaining, value =>
    match (branches b).put remaining value with
    | .ok child => .ok (.BranchNode (Function.update branches b child) branchValue)
    | .error e => .error e
  | .ExtensionNode path next, nibbles, value =>
    let matched := PrefixMatchedLen path nibbles
    if h : matched < path.length then
      let extNibbles := path.take matched
      let branchNibble := path[matched]
      let extRemainingnibbles := path.drop (matched + 1)
      let branch := NewBranchNode
      let branch :=
        if extRemainingnibbles.length = 0 then branch.SetBranch branchNibble next
        else branch.SetBranch branchNibble (NewExtensionNode extRemainingnibbles next)
      if h2 : matched < nibbles.length then
        let branch := branch.SetBranch nibbles[matched]
          (NewLeafNodeFromNibbles (nibbles.drop (matched + 1)) value)
        if extNibbles.length = 0 then .ok branch
        else .ok (NewExtensionNode extNibbles branch)
      else if matched = nibbles.length then
        let branch := branch.SetValue value
        if extNibbles.length = 0 then .ok branch
        else .ok (NewExtensionNode extNibbles branch)
      else .error .tooManyMatched
    else
      match next.put (nibbles.drop matched) value with
      | .ok child => .ok (.ExtensionNode path child)
      | .error e => .error e

/-- The struct `Trie`: one root node. -/
structure Trie where
  root : Node

/-- The function `NewTrie`: the zero value, whose root is the nil interface. -/
def NewTrie : Trie := ⟨.Empty⟩

/-- The method `Trie.Get`. -/
def Trie.Get (t : Trie) (key : List Byte) : Value × Bool :=
  t.root.get (FromBytes key)

/-- The method `Trie.Put`: the trie afterwards and the error returned (`none` is the nil error). On an
error nothing has been written. -/
def Trie.Put (t : Trie) (key : List Byte) (value : Value) : Trie × Option Err :=
  match t.root.put (FromBytes key) value with
  | .ok root => (⟨root⟩, none)
  | .error e => (t, some e)

/-- The trie after a list of puts, applied in order. -/
def Trie.PutAll (t : Trie) (ops : List (List Byte × Value)) : Trie :=
  ops.foldl (fun t kv => (t.Put kv.1 kv.2).1) t

/-- A trie obtained from `NewTrie` by a finite sequence of puts. -/
def Reachable (t : Trie) : Prop :=
  ∃ ops : List (List Byte × Value), t = NewTrie.PutAll ops

/-- The value of the last put to `key` in `ops`, if any. -/
def lastPut (ops : List (List Byte × Value)) (key : List Byte) : Option Value :=
  ops.foldl (fun acc kv => if kv.1 = key then some kv.2 else acc) none

/-- A structured value as the canonical encoding sees it: a byte string or a list of such
values. The encoder reads a nil `[]byte` as the empty byte string. -/
inductive RLP
  | bytes (b : List Byte)
  | list (items : List RLP)

/-- The library code the nodes are built on: `crypto.Keccak256`, `rlp.EncodeToBytes` (which does
not fail on the raw values built here) and the decoding that goes with the encoding. -/
structure Lib where
  Keccak256 : List Byte → List Byte
  EncodeToBytes : RLP → List Byte
  DecodeBytes : List Byte → Option RLP

/-- Modelled from the spec: `nodes.EmptyNodeRaw` is not among the sources. The raw form of
`Empty` is "the empty byte string". -/
def EmptyNodeRaw : RLP := .bytes []

/-- Modelled from the spec: `nodes.EmptyNodeHash` is not among the sources. It is "a precomputed
constant equal to `hash_function(canonical_encoding(empty byte string))`". -/
def EmptyNodeHash (L : Lib) : List Byte :=
  L.Keccak256 (L.EncodeToBytes EmptyNodeRaw)

/-- The reference to a non-nil child whose `Raw()` gave `raw`, as computed in `BranchNode.Raw`
and `ExtensionNode.Raw`: the child's hash when its serialization has at least 32 bytes, its raw
value otherwise; an error of `Raw()` is returned as it is. -/
def childRef (L : Lib) (raw : Except Err RLP) : Except Err RLP :=
  match raw with
  | .ok r =>
    if (L.EncodeToBytes r).length ≥ 32 then .ok (.bytes (L.Keccak256 (L.EncodeToBytes r)))
    else .ok r
  | .error e => .error e

/-- The methods `LeafNode.Raw`, `BranchNode.Raw`, `ExtensionNode.Raw`. On the nil interface the
method call is a nil dereference, which `ExtensionNode.Raw` reaches when `Next` is nil. -/
def Node.Raw (L : Lib) : Node → Except Err RLP
  | .Empty => .error .nilDereference
  | .LeafNode path value =>
    .ok (.list [.bytes (ToBytes (ToPrefixed path true)), .bytes (value.getD [])])
  | .BranchNode branches value =>
    match (List.finRange 16).mapM
        (fun i => if IsEmptyNode (branches i) then .ok EmptyNodeRaw
          else childRef L ((branches i).Raw L)) with
    | .ok hashes => .ok (.list (hashes ++ [.bytes (value.getD [])]))
    | .error e => .error e
  | .ExtensionNode path next =>
    match childRef L (next.Raw L) with
    | .ok r => .ok (.list [.bytes (ToBytes (ToPrefixed path false)), r])
    | .error e => .error e

/-- The function `nodes.Serialize`. -/
def Serialize (L : Lib) (node : Node) : Except Err (List Byte) :=
  if IsEmptyNode node then .ok (L.EncodeToBytes EmptyNodeRaw)
  else
    match node.Raw L with
    | .ok raw => .ok (L.EncodeToBytes raw)
    | .error e => .error e

/-- The methods `LeafNode.Hash`, `BranchNode.Hash`, `ExtensionNode.Hash`: Keccak256 of the
serialization. -/
def Node.Hash (L : Lib) : Node → Except Err (List Byte)
  | .Empty => .error .nilDereference
  | node =>
    match Serialize L node with
    | .ok serial => .ok (L.Keccak256 serial)
    | .error e => .error e

/-- The function `nodes.Hash`. -/
def Hash (L : Lib) (node : Node) : Except Err (List Byte) :=
  if IsEmptyNode node then .ok (EmptyNodeHash L) else node.Hash L

/-- The method `Trie.Hash`. -/
def Trie.Hash (L : Lib) (t : Trie) : Except Err (List Byte) :=
  if IsEmptyNode t.root then .ok (EmptyNodeHash L) else t.root.Hash L

/-- The loop of `Trie.CreateProof`, started at `node` with `nibbles` left to consume, `proof` the
serializations appended so far and `keyNibble` the nibbles of the whole key. The result is the
triple returned: node list (`none` is nil), key path (`none` is nil), error (`none` is nil). -/
def Node.createProof (L : Lib) :
    Node → List Nibble → List (List Byte) → List Nibble →
      Option (List (List Byte)) × Option (List Byte) × Option Err
  | .Empty, _, _, _ => (none, none, some .emptyNode)
  | .LeafNode path value, nibbles, proof, keyNibble =>
    let matched := PrefixMatchedLen path nibbles
    if matched ≠ path.length ∨ matched ≠ nibbles.length then (none, none, some .keyNotFound)
    else
      match Serialize L (.LeafNode path value) with
      | .error e => (none, none, some e)
      | .ok serial =>
        let proof := proof ++ [serial]
        let keyNibble := ToPrefixed keyNibble true
        (some proof, some (ToBytes keyNibble), none)
  | .BranchNode branches value, [], proof, keyNibble =>
    match Serialize L (.BranchNode branches value) with
    | .error e => (none, none, some e)
    | .ok serial =>
      let proof := proof ++ [serial]
      let keyNibble := ToPrefixed keyNibble false
      if !HasValue value then (some proof, some (ToBytes keyNibble), some .nodeHasNoValue)
      else (some proof, some (ToBytes keyNibble), none)
  | .BranchNode branches value, b :: remaining, proof, keyNibble =>
    match Serialize L (.BranchNode branches value) with
    | .error e => (none, none, some e)
    | .ok serial => (branches b).createProof L remaining (proof ++ [serial]) keyNibble
  | .ExtensionNode path next, nibbles, proof, keyNibble =>
    let matched := PrefixMatchedLen path nibbles
    if matched < path.length then (none, none, some .keyNotFound)
    else
      match Serialize L (.ExtensionNode path next) with
      | .error e => (none, none, some e)
      | .ok serial => next.createProof L (nibbles.drop matched) (proof ++ [serial]) keyNibble

/-- The method `Trie.CreateProof`. -/
def Trie.CreateProof (L : Lib) (t : Trie) (key : List Byte) :
    Option (List (List Byte)) × Option (List Byte) × Option Err :=
  t.root.createProof L (FromBytes key) [] (FromBytes key)

/-- The struct `ProofDB`: the map `kv`, as the list of its entries. The keys are the hex strings
of byte strings, which stand here as the byte strings themselves. -/
structure ProofDB where
  kv : List (List Byte × List Byte)
  deriving DecidableEq

/-- The function `NewProofDB`. -/
def NewProofDB : ProofDB := ⟨[]⟩

/-- The method `ProofDB.Put`: `w.kv[keyS] = value`. -/
def ProofDB.Put (w : ProofDB) (key value : List Byte) : ProofDB :=
  ⟨(key, value) :: w.kv.filter (fun e => decide (e.1 ≠ key))⟩

/-- The method `ProofDB.Delete`. -/
def ProofDB.Delete (w : ProofDB) (key : List Byte) : ProofDB :=
  ⟨w.kv.filter (fun e => decide (e.1 ≠ key))⟩

/-- The method `ProofDB.Has`. -/
def ProofDB.Has (w : ProofDB) (key : List Byte) : Bool :=
  (w.kv.lookup key).isSome

/-- The method `ProofDB.Get`. -/
def ProofDB.Get (w : ProofDB) (key : List Byte) : Except Err (List Byte) :=
  match w.kv.lookup key with
  | some val => .ok val
  | none => .error .notFound

/-- The method `ProofDB.Serialize`: the stored values (a Go map has no order; this is one of them). -/
def ProofDB.Serialize (w : ProofDB) : List (List Byte) :=
  w.kv.map Prod.snd

/-- The first statements of the loop body of `Trie.Prove` for a non-nil `node`:
`nodes.Hash`, `nodes.Serialize`, `proof.Put(hash, serial)`. -/
def proofPut (L : Lib) (node : Node) (proof : ProofDB) : Except Err ProofDB :=
  match Hash L node with
  | .error e => .error e
  | .ok hash =>
    match Serialize L node with
    | .error e => .error e
    | .ok serial => .ok (proof.Put hash serial)

/-- The loop of `Trie.Prove`, started at `node` with `nibbles` left to consume and `proof` the
store filled so far. The result is the pair returned: store (`none` is nil), error. -/
def Node.prove (L : Lib) : Node → List Nibble → ProofDB → Option ProofDB × Option Err
  | .Empty, _, _ => (none, some .emptyNode)
  | .LeafNode path value, nibbles, proof =>
    match proofPut L (.LeafNode path value) proof with
    | .error e => (none, some e)
    | .ok proof =>
      let matched := PrefixMatchedLen path nibbles
      if matched ≠ path.length ∨ matched ≠ nibbles.length then (none, some .keyNotFound)
      else (some proof, none)
  | .BranchNode branches value, [], proof =>
    match proofPut L (.BranchNode branches value) proof with
    | .error e => (none, some e)
    | .ok proof =>
      if HasValue value then (some proof, none)
      else (some proof, some .nodeHasNoValue)
  | .BranchNode branches value, b :: remaining, proof =>
    match proofPut L (.BranchNode branches value) proof with
    | .error e => (none, some e)
    | .ok proof => (branches b).prove L remaining proof
  | .ExtensionNode path next, nibbles, proof =>
    match proofPut L (.ExtensionNode path next) proof with
    | .error e => (none, some e)
    | .ok proof =>
      let matched := PrefixMatchedLen path nibbles
      if matched < path.length then (none, some .keyNotFound)
      else next.prove L (nibbles.drop matched) proof

/-- The method `Trie.Prove`. -/
def Trie.Prove (L : Lib) (t : Trie) (key : List Byte) : Option ProofDB × Option Err :=
  t.root.prove L (FromBytes key) NewProofDB

/-- The nodes that the loop of `Trie.Get` looks at, from `node` on, in the order of the walk;
the last one is the node at which `Get` returns. -/
def Node.visited : Node → List Nibble → List Node
  | .Empty, _ => []
  | .LeafNode path value, _ => [.LeafNode path value]
  | .BranchNode branches value, [] => [.BranchNode branches value]
  | .BranchNode branches value, b :: remaining =>
    .BranchNode branches value :: (branches b).visited remaining
  | .ExtensionNode path next, nibbles =>
    let matched := PrefixMatchedLen path nibbles
    if matched < path.length then [.ExtensionNode path next]
    else .ExtensionNode path next :: next.visited (nibbles.drop matched)

/-! ## Put as a total function

`Node.put` never returns its error; `Node.putT` is the node it returns, written by recursion on
the two paths so that one shared nibble is peeled at a time. -/

/-- The node that stands for `n` below one more shared nibble `a`. -/
def Node.prepend (a : Nibble) : Node → Node
  | .Empty => .Empty
  | .LeafNode q v => .LeafNode (a :: q) v
  | .BranchNode bs v => .ExtensionNode [a] (.BranchNode bs v)
  | .ExtensionNode q x => .ExtensionNode (a :: q) x

/-- What `Put` leaves in a slot that held `LeafNode path old`, by recursion on the two paths. -/
def leafPut : List Nibble → Value → List Nibble → Value → Node
  | [], _, [], v => .LeafNode [] v
  | [], old, b :: r, v => (NewBranchNode.SetValue old).SetBranch b (.LeafNode r v)
  | a :: q, old, [], v => (NewBranchNode.SetValue v).SetBranch a (.LeafNode q old)
  | a :: q, old, b :: r, v =>
    if a = b then (leafPut q old r v).prepend a
    else (NewBranchNode.SetBranch a (.LeafNode q old)).SetBranch b (.LeafNode r v)

/-- The child stored for the rest of a split extension path. -/
def extTail (q : List Nibble) (next : Node) : Node :=
  if q.length = 0 then next else .ExtensionNode q next

/-- What `Put` leaves in a slot that held `ExtensionNode path next`, by recursion on the two
paths; `k` is what `Put` leaves in `next` for the nibbles that remain after a full match. -/
def extPut (next : Node) (k : List Nibble → Node) : List Nibble → List Nibble → Value → Node
  | [], n, _ => .ExtensionNode [] (k n)
  | a :: q, [], v => (NewBranchNode.SetBranch a (extTail q next)).SetValue v
  | a :: q, b :: r, v =>
    if a = b then (extPut next k q r v).prepend a
    else (NewBranchNode.SetBranch a (extTail q next)).SetBranch b (.LeafNode r v)

/-- The node `Put` leaves in a slot, as a total function. -/
def Node.putT : Node → List Nibble → Value → Node
  | .Empty, n, v => .LeafNode n v
  | .LeafNode p old, n, v => leafPut p old n v
  | .BranchNode bs _, [], v => .BranchNode bs v
  | .BranchNode bs bv, b :: r, v => .BranchNode (Function.update bs b ((bs b).putT r v)) bv
  | .ExtensionNode p next, n, v => extPut next (fun r => next.putT r v) p n v

/-- The leaf case of `Node.put` with the matched length as an argument. -/
def leafBody (path : List Nibble) (leafValue : Value) (nibbles : List Nibble) (value : Value)
    (matched : Nat) : Except Err Node :=
  if matched = nibbles.length ∧ matched = path.length then
    .ok (NewLeafNodeFromNibbles path value)
  else
    let branch := NewBranchNode
    let branch := if matched = path.length then branch.SetValue leafValue else branch
    let branch := if matched = nibbles.length then branch.SetValue value else branch
    let branch :=
      if h : matched < path.length then
        branch.SetBranch path[matched]
          (NewLeafNodeFromNibbles (path.drop (matched + 1)) leafValue)
      else branch
    let branch :=
      if h : matched < nibbles.length then
        branch.SetBranch nibbles[matched]
          (NewLeafNodeFromNibbles (nibbles.drop (matched + 1)) value)
      else branch
    if matched > 0 then .ok (NewExtensionNode (path.take matched) branch)
    else .ok branch

/-- The extension case of `Node.put` with the matched length and the result of the put into
`Next` as arguments. -/
def extBody (path : List Nibble) (next : Node) (nibbles : List Nibble) (value : Value)
    (matched : Nat) (inner : Except Err Node) : Except Err Node :=
  if h : matched < path.length then
    let extNibbles := path.take matched
    let branchNibble := path[matched]
    let extRemainingnibbles := path.drop (matched + 1)
    let branch := NewBranchNode
    let branch :=
      if extRemainingnibbles.length = 0 then branch.SetBranch branchNibble next
      else branch.SetBranch branchNibble (NewExtensionNode extRemainingnibbles next)
    if h2 : matched < nibbles.length then
      let branch := branch.SetBranch nibbles[matched]
        (NewLeafNodeFromNibbles (nibbles.drop (matched + 1)) value)
      if extNibbles.length = 0 then .ok branch
      else .ok (NewExtensionNode extNibbles branch)
    else if matched = nibbles.length then
      let branch := branch.SetValue value
      if extNibbles.length = 0 then .ok branch
      else .ok (NewExtensionNode extNibbles branch)
    else .error .tooManyMatched
  else
    match inner with
    | .ok child => .ok (.ExtensionNode path child)
    | .error e => .error e

/-! ## The shape of a trie built by puts, and `Raw` as a total function -/

/-- The child a node stands for once it sits in a branch slot: the target of an extension with
an empty path, the node itself otherwise. -/
def Node.strip : Node → Node
  | .ExtensionNode [] x => x
  | n => n

/-- Whether the node is a branch. -/
def Node.isBranch : Node → Bool
  | .BranchNode _ _ => true
  | _ => false

/-- The shape every trie built by puts has: the path of an extension is not empty and its
`Next` is a branch, everywhere in the tree. -/
def Node.Inv : Node → Prop
  | .Empty => True
  | .LeafNode _ _ => True
  | .BranchNode branches _ => ∀ i, (branches i).Inv
  | .ExtensionNode path next => path ≠ [] ∧ next.isBranch = true ∧ next.Inv

/-- As `Node.Inv`, but the path of an extension at the top may be empty. -/
def Node.InvTop : Node → Prop
  | .ExtensionNode _ next => next.isBranch = true ∧ next.Inv
  | n => n.Inv

/-- The reference to a child with raw value `r`: `childRef` without the error case. -/
def refT (L : Lib) (r : RLP) : RLP :=
  if (L.EncodeToBytes r).length ≥ 32 then .bytes (L.Keccak256 (L.EncodeToBytes r)) else r

/-- The raw value of a node as a total function: what `Raw()` returns when it returns no
error, and `EmptyNodeRaw` for the nil node. -/
def Node.rawT (L : Lib) : Node → RLP
  | .Empty => EmptyNodeRaw
  | .LeafNode path value =>
    .list [.bytes (ToBytes (ToPrefixed path true)), .bytes (value.getD [])]
  | .BranchNode branches value =>
    .list ((List.finRange 16).map
        (fun i => if IsEmptyNode (branches i) then EmptyNodeRaw
          else refT L ((branches i).rawT L))
      ++ [.bytes (value.getD [])])
  | .ExtensionNode path next =>
    .list [.bytes (ToBytes (ToPrefixed path false)), refT L (next.rawT L)]

/-- The error with which the walk of `Get`, `CreateProof` and `Prove` ends, `none` when it ends
on a value. -/
def Node.walkErr : Node → List Nibble → Option Err
  | .Empty, _ => some .emptyNode
  | .LeafNode path _, nibbles =>
    let matched := PrefixMatchedLen path nibbles
    if matched ≠ path.length ∨ matched ≠ nibbles.length then some .keyNotFound else none
  | .BranchNode _ value, [] => if HasValue value then none else some .nodeHasNoValue
  | .BranchNode branches _, b :: remaining => (branches b).walkErr remaining
  | .ExtensionNode path next, nibbles =>
    let matched := PrefixMatchedLen path nibbles
    if matched < path.length then some .keyNotFound
    else next.walkErr (nibbles.drop matched)

/-! ## A sample library instance and the four-key example -/

/-- The byte strings of the sample encoding: each byte behind a `1`, then a closing `0`. -/
def sampleEncodeBytes : List Byte → List Byte
  | [] => [0]
  | x :: xs => 1 :: x :: sampleEncodeBytes xs

mutual
/-- A sample canonical encoding, self-delimiting and injective, used to run the definitions on
concrete tries: tag `0` and the bytes for a byte string, tag `1` and the items for a list. -/
def sampleEncode : RLP → List Byte
  | .bytes b => 0 :: sampleEncodeBytes b
  | .list items => 1 :: sampleEncodeList items
/-- The items of a list in the sample encoding: each item behind a `1`, then a closing `0`. -/
def sampleEncodeList : List RLP → List Byte
  | [] => [0]
  | x :: xs => 1 :: (sampleEncode x ++ sampleEncodeList xs)
end

/-- Reads back `sampleEncodeBytes`: the byte string and the input left over. -/
def sampleParseBytes : List Byte → Option (List Byte × List Byte)
  | [] => none
  | [t] => if t.val = 0 then some ([], []) else none
  | t :: x :: rest =>
    if t.val = 0 then some ([], x :: rest)
    else if t.val = 1 then
      match sampleParseBytes rest with
      | some (b, r) => some (x :: b, r)
      | none => none
    else none

mutual
/-- Reads back `sampleEncode` with `fuel` levels of nesting at most: the value and the input
left over. -/
def sampleParse : Nat → List Byte → Option (RLP × List Byte)
  | 0, _ => none
  | _, [] => none
  | fuel + 1, t :: rest =>
    if t.val = 0 then
      match sampleParseBytes rest with
      | some (b, r) => some (.bytes b, r)
      | none => none
    else if t.val = 1 then
      match sampleParseList fuel rest with
      | some (xs, r) => some (.list xs, r)
      | none => none
    else none
/-- Reads back `sampleEncodeList`. -/
def sampleParseList : Nat → List Byte → Option (List RLP × List Byte)
  | 0, _ => none
  | _, [] => none
  | fuel + 1, t :: rest =>
    if t.val = 0 then some ([], rest)
    else if t.val = 1 then
      match sampleParse fuel rest with
      | some (x, r) =>
        match sampleParseList fuel r with
        | some (xs, r2) => some (x :: xs, r2)
        | none => none
      | none => none
    else none
end

/-- The decoding that goes with `sampleEncode`: the whole input must be one value. -/
def sampleDecode (s : List Byte) : Option RLP :=
  match sampleParse (s.length + 1) s with
  | some (r, []) => some r
  | _ => none

/-- A sample library instance: an injective stand-in for the hash function (a `1` in front of
the input, so never the empty string) and the sample encoding with its decoding. -/
def sampleLib : Lib :=
  ⟨fun x => 1 :: x, sampleEncode, sampleDecode⟩

/-- The classic four-key example: "do", "dog", "doge", "horse" with the values "verb", "puppy",
"coin", "stallion". -/
def scenarioA : List (List Byte × Value) :=
  [([0x64, 0x6f], some [0x76, 0x65, 0x72, 0x62]),
   ([0x64, 0x6f, 0x67], some [0x70, 0x75, 0x70, 0x70, 0x79]),
   ([0x64, 0x6f, 0x67, 0x65], some [0x63, 0x6f, 0x69, 0x6e]),
   ([0x68, 0x6f, 0x72, 0x73, 0x65], some [0x73, 0x74, 0x61, 0x6c, 0x6c, 0x69, 0x6f, 0x6e])]

/-! ## Values of at least one byte -/

/-- Every value held in the tree has at least one byte: the value of every leaf, and the value
of every branch that has one. -/
def Node.ValuesOk : Node → Prop
  | .Empty => True
  | .LeafNode _ value => value.getD [] ≠ []
  | .BranchNode branches value => (value ≠ none → value.getD [] ≠ []) ∧ ∀ i, (branches i).ValuesOk
  | .ExtensionNode _ next => next.ValuesOk

/-! ## The verifier -/

/-- Modelled from the spec: the reading of the hex-prefix framing is part of the verifier, which
is not among the sources. It undoes `ToBytes (ToPrefixed path isLeaf)`: the first nibble is
`2*isLeaf + (L mod 2)`, followed by a `0` nibble when the path is even. -/
def FromPrefixedBytes (bytes : List Byte) : Option (List Nibble × Bool) :=
  match FromBytes bytes with
  | [] => none
  | flag :: rest =>
    if flag.val = 1 then some (rest, false)
    else if flag.val = 3 then some (rest, true)
    else
      match rest with
      | [] => none
      | pad :: path =>
        if pad.val ≠ 0 then none
        else if flag.val = 0 then some (path, false)
        else if flag.val = 2 then some (path, true)
        else none

/-- The three shapes a decoded preimage can have. -/
inductive Shape
  | leaf (path : List Nibble) (value : List Byte)
  | ext (path : List Nibble) (child : RLP)
  | branch (children : List RLP) (value : List Byte)

/-- Modelled from the spec: the classification step of the verifier, which is not among the
sources. "Decode the canonical encoding into a structural shape and classify it as
Leaf/Extension/Branch by arity and hex-prefix flag." -/
def classify : RLP → Option Shape
  | .bytes _ => none
  | .list items =>
    match items with
    | [first, x] =>
      match first with
      | .list _ => none
      | .bytes hp =>
        match FromPrefixedBytes hp with
        | some (path, true) =>
          match x with
          | .bytes value => some (.leaf path value)
          | .list _ => none
        | some (path, false) => some (.ext path x)
        | none => none
    | _ =>
      if items.length = 17 then
        match items.drop 16 with
        | [last] =>
          match last with
          | .bytes value => some (.branch (items.take 16) value)
          | .list _ => none
        | _ => none
      else none

/-- Modelled from the spec: the resolution of a child reference by the verifier, which is not
among the sources. An embedded raw value is taken as it is ("decode it directly without a store
lookup"); a hash is looked up in the store and the preimage decoded ("missing entry is an
error"); the empty byte string is an unset slot. -/
def resolve (L : Lib) (proof : ProofDB) : RLP → Option RLP
  | .list items => some (.list items)
  | .bytes [] => none
  | .bytes hash =>
    match proof.Get hash with
    | .ok preimage => L.DecodeBytes preimage
    | .error _ => none

/-- Modelled from the spec: the walk of the verifier, which is go-ethereum's `trie.VerifyProof`
and not among the sources. From the reference `ref` with `nibbles` left to consume: resolve the
reference, classify the node, "apply the same consumption rule as Get for that kind", and "on
reaching a terminal Leaf with exact match, or a Branch with nibbles exhausted and a value
present, return that value. Any divergence, missing value, or malformed preimage is a
verification failure", and so is a walk of more than `fuel` nodes. -/
def verifyFrom (L : Lib) (proof : ProofDB) : Nat → RLP → List Nibble → Except Err (List Byte)
  | 0, _, _ => .error .proofVerificationFailure
  | fuel + 1, ref, nibbles =>
    match resolve L proof ref with
    | none => .error .proofVerificationFailure
    | some item =>
      match classify item with
      | none => .error .proofVerificationFailure
      | some (.leaf path value) =>
        let matched := PrefixMatchedLen path nibbles
        if matched ≠ path.length ∨ matched ≠ nibbles.length then
          .error .proofVerificationFailure
        else .ok value
      | some (.ext path child) =>
        let matched := PrefixMatchedLen path nibbles
        if matched < path.length then .error .proofVerificationFailure
        else verifyFrom L proof fuel child (nibbles.drop matched)
      | some (.branch children value) =>
        match nibbles with
        | [] => if value = [] then .error .proofVerificationFailure else .ok value
        | b :: remaining => verifyFrom L proof fuel (children.getD b.val (.bytes [])) remaining

/-- Modelled from the spec: `VerifyProof(rootHash, key, proof)`, whose body is go-ethereum's
`trie.VerifyProof` and not among the sources. It "reconstructs nibbles from key" and walks from
`rootHash`; the walk is cut off after one node more than the key has nibbles ("trie depth
bounded by key length"). `common.BytesToHash` leaves a 32-byte digest as it is. -/
def VerifyProof (L : Lib) (rootHash : List Byte) (key : List Byte) (proof : ProofDB) :
    Except Err (List Byte) :=
  verifyFrom L proof ((FromBytes key).length + 1) (.bytes rootHash) (FromBytes key)

/-! ## Proof-side definitions for the verifier -/

/-- Equality of results is decidable. -/
instance exceptDecEq {ε α : Type} [DecidableEq ε] [DecidableEq α] : DecidableEq (Except ε α) :=
  fun a b =>
    match a, b with
    | .ok x, .ok y =>
      if h : x = y then isTrue (by rw [h]) else isFalse (fun h2 => h (Except.ok.inj h2))
    | .error x, .error y =>
      if h : x = y then isTrue (by rw [h]) else isFalse (fun h2 => h (Except.error.inj h2))
    | .ok _, .error _ => isFalse (fun h => Except.noConfusion h)
    | .error _, .ok _ => isFalse (fun h => Except.noConfusion h)

/-- Whether the walk of `Get` from `node` ends at a leaf. -/
def Node.endsAtLeaf : Node → List Nibble → Bool
  | .Empty, _ => false
  | .LeafNode _ _, _ => true
  | .BranchNode _ _, [] => false
  | .BranchNode branches _, b :: remaining => (branches b).endsAtLeaf remaining
  | .ExtensionNode path next, nibbles =>
    next.endsAtLeaf (nibbles.drop (PrefixMatchedLen path nibbles))

/-- The serialization of a node whose `Raw()` returns no error. -/
def serT (L : Lib) (t : Node) : List Byte :=
  L.EncodeToBytes (t.rawT L)

/-- The hash of a node whose `Raw()` returns no error. -/
def hashT (L : Lib) (t : Node) : List Byte :=
  L.Keccak256 (serT L t)

/-- Every entry of the store is stored under the hash of its value. -/
def ProofDB.Consistent (L : Lib) (db : ProofDB) : Prop :=
  ∀ h s, db.Get h = .ok s → h = L.Keccak256 s

/-- The node `m` lies in the tree `t`: it is `t` itself, or it lies in a child slot of a branch of
`t` or below the `Next` of an extension of `t`. -/
inductive Node.Within (m : Node) : Node → Prop
  | here : Node.Within m m
  | child (branches : Fin 16 → Node) (value : Value) (i : Fin 16) :
      Node.Within m (branches i) → Node.Within m (.BranchNode branches value)
  | next (path : List Nibble) (next : Node) :
      Node.Within m next → Node.Within m (.ExtensionNode path next)

/-- The child reference rule in the words of the specification: "serialize the child; if the
serialized length is at least 32 bytes, the reference is the child's hash; otherwise the
reference is the child's own raw structured value, embedded inline". -/
def ChildRefRule (L : Lib) (child : Node) (ref : RLP) : Prop :=
  ∃ serial, Serialize L child = .ok serial ∧
    (32 ≤ serial.length → ∃ hash, child.Hash L = .ok hash ∧ ref = .bytes hash) ∧
    (serial.length < 32 → child.Raw L = .ok ref)

/-- The leaf split in the words of the specification, for a slot that held `Leaf(P, old)` and a put
of the nibbles `N` with value `v`, where `m` is the shared-prefix length of `P` and `N`: the slot
holds a branch `B` when `m = 0` and `Extension(P[:m], B)` when `m > 0`, where `B` has value `old`
if `m = len(P)`, value `v` if `m = len(N)`, slot `P[m] = Leaf(P[m+1:], old)` if `m < len(P)`,
slot `N[m] = Leaf(N[m+1:], v)` if `m < len(N)`, every other slot empty and no value otherwise. -/
def LeafSplitSpec (P : List Nibble) (old : Value) (N : List Nibble) (v : Value) (root : Node) :
    Prop :=
  ∃ (branches : Fin 16 → Node) (value : Value),
    root = (if PrefixMatchedLen P N = 0 then Node.BranchNode branches value
      else Node.ExtensionNode (P.take (PrefixMatchedLen P N)) (Node.BranchNode branches value)) ∧
    (PrefixMatchedLen P N = P.length → value = old) ∧
    (PrefixMatchedLen P N = N.length → value = v) ∧
    (PrefixMatchedLen P N < P.length → PrefixMatchedLen P N < N.length → value = none) ∧
    ∀ i : Fin 16,
      (P[PrefixMatchedLen P N]? = some i →
        branches i = Node.LeafNode (P.drop (PrefixMatchedLen P N + 1)) old) ∧
      (N[PrefixMatchedLen P N]? = some i →
        branches i = Node.LeafNode (N.drop (PrefixMatchedLen P N + 1)) v) ∧
      (P[PrefixMatchedLen P N]? ≠ some i → N[PrefixMatchedLen P N]? ≠ some i →
        branches i = Node.Empty)

/-- The extension split in the words of the specification, for a slot that held
`Extension(P, next)` and a put of the nibbles `N` with value `v` whose shared-prefix length `m`
with `P` is less than `len(P)`: the slot holds a branch `B` when `m = 0` and
`Extension(P[:m], B)` when `m > 0`, where slot `P[m]` of `B` is `next` itself if `P[m+1:]` is
empty and `Extension(P[m+1:], next)` otherwise, slot `N[m]` is `Leaf(N[m+1:], v)` if
`m < len(N)`, the value of `B` is `v` if `m = len(N)` and there is none otherwise, and every
other slot is empty. -/
def ExtSplitSpec (P : List Nibble) (next : Node) (N : List Nibble) (v : Value) (root : Node) :
    Prop :=
  ∃ (branches : Fin 16 → Node) (value : Value),
    root = (if PrefixMatchedLen P N = 0 then Node.BranchNode branches value
      else Node.ExtensionNode (P.take (PrefixMatchedLen P N)) (Node.BranchNode branches value)) ∧
    (PrefixMatchedLen P N = N.length → value = v) ∧
    (PrefixMatchedLen P N < N.length → value = none) ∧
    ∀ i : Fin 16,
      (P[PrefixMatchedLen P N]? = some i →
        branches i = (if P.drop (PrefixMatchedLen P N + 1) = [] then next
          else Node.ExtensionNode (P.drop (PrefixMatchedLen P N + 1)) next)) ∧
      (N[PrefixMatchedLen P N]? = some i →
        branches i = Node.LeafNode (N.drop (PrefixMatchedLen P N + 1)) v) ∧
      (P[PrefixMatchedLen P N]? ≠ some i → N[PrefixMatchedLen P N]? ≠ some i →
        branches i = Node.Empty)

/-- The number of occupied entries of a branch among its 16 child slots and its value: the slots
that are not empty, and one more when `HasValue()`. -/
def occupied (branches : Fin 16 → Node) (value : Value) : Nat :=
  ((List.finRange 16).filter (fun i => !IsEmptyNode (branches i))).length
    + (if HasValue value then 1 else 0)

/-- A branch with two children, or with one child and a value. -/
def TwoOccupied (branches : Fin 16 → Node) (value : Value) : Prop :=
  (∃ i j, i ≠ j ∧ branches i ≠ .Empty ∧ branches j ≠ .Empty) ∨
    (value ≠ none ∧ ∃ i, branches i ≠ .Empty)

/-- No degenerate branch anywhere in the tree, and no leaf with a nil value. -/
def Node.NoDegenerate : Node → Prop
  | .Empty => True
  | .LeafNode _ value => value ≠ none
  | .BranchNode branches value => TwoOccupied branches value ∧ ∀ i, (branches i).NoDegenerate
  | .ExtensionNode _ next => next.NoDegenerate

/-! ## Lemmas -/

theorem pml_le_left (p n : List Nibble) : PrefixMatchedLen p n ≤ p.length := by
  induction p generalizing n with
  | nil => simp [PrefixMatchedLen]
  | cons a q ih =>
    cases n with
    | nil => simp [PrefixMatchedLen]
    | cons b r =>
      simp only [PrefixMatchedLen]
      split_ifs
      · simpa using ih r
      · simp

theorem pml_le_right (p n : List Nibble) : PrefixMatchedLen p n ≤ n.length := by
  induction p generalizing n with
  | nil => simp [PrefixMatchedLen]
  | cons a q ih =>
    cases n with
    | nil => simp [PrefixMatchedLen]
    | cons b r =>
      simp only [PrefixMatchedLen]
      split_ifs
      · simpa using ih r
      · simp

theorem put_leaf_eq_body (p : List Nibble) (old : Value) (n : List Nibble) (v : Value) :
    (Node.LeafNode p old).put n v = leafBody p old n v (PrefixMatchedLen p n) := by
  simp only [Node.put, leafBody]

theorem leafBody_cons (a : Nibble) (q : List Nibble) (old : Value) (r : List Nibble)
    (v : Value) (m : Nat) (h1 : m ≤ q.length) (h2 : m ≤ r.length) :
    leafBody (a :: q) old (a :: r) v (m + 1)
      = Except.map (Node.prepend a) (leafBody q old r v m) := by
  rcases Nat.lt_or_eq_of_le h1 with hq | hq <;> rcases Nat.lt_or_eq_of_le h2 with hr | hr
  · have hq2 := Nat.ne_of_lt hq
    have hr2 := Nat.ne_of_lt hr
    simp [leafBody, hq, hr, hq2, hr2, NewLeafNodeFromNibbles, NewBranchNode,
      NewExtensionNode, Node.SetValue, Node.SetBranch, Except.map]
    split_ifs <;> simp [Node.prepend]
    omega
  · subst hr
    have hq2 := Nat.ne_of_lt hq
    simp [leafBody, hq, hq2, NewLeafNodeFromNibbles, NewBranchNode,
      NewExtensionNode, Node.SetValue, Node.SetBranch, Except.map]
    split_ifs <;> simp [Node.prepend]
    first
      | omega
      | exact List.length_eq_zero.mp (by omega)
      | exact Or.inl (List.length_eq_zero.mp (by omega))
  · subst hq
    have hr2 := Nat.ne_of_lt hr
    simp [leafBody, hr, hr2, NewLeafNodeFromNibbles, NewBranchNode,
      NewExtensionNode, Node.SetValue, Node.SetBranch, Except.map]
    split_ifs <;> simp [Node.prepend]
    first
      | omega
      | exact List.length_eq_zero.mp (by omega)
  · subst hq
    simp [leafBody, hr.symm, NewLeafNodeFromNibbles, Except.map, Node.prepend]

theorem put_leaf_cons_same (a : Nibble) (q : List Nibble) (old : Value) (r : List Nibble)
    (v : Value) :
    (Node.LeafNode (a :: q) old).put (a :: r) v
      = Except.map (Node.prepend a) ((Node.LeafNode q old).put r v) := by
  rw [put_leaf_eq_body, put_leaf_eq_body]
  simp only [PrefixMatchedLen, if_true]
  exact leafBody_cons a q old r v _ (pml_le_left q r) (pml_le_right q r)

theorem put_leaf (p : List Nibble) (old : Value) (n : List Nibble) (v : Value) :
    (Node.LeafNode p old).put n v = .ok (leafPut p old n v) := by
  induction p generalizing n with
  | nil =>
    cases n with
    | nil => simp [Node.put, leafPut, PrefixMatchedLen, NewLeafNodeFromNibbles]
    | cons b r =>
      simp [Node.put, leafPut, PrefixMatchedLen, NewLeafNodeFromNibbles, NewBranchNode,
        Node.SetValue, Node.SetBranch]
  | cons a q ih =>
    cases n with
    | nil =>
      simp [Node.put, leafPut, PrefixMatchedLen, NewLeafNodeFromNibbles, NewBranchNode,
        Node.SetValue, Node.SetBranch]
    | cons b r =>
      by_cases hab : a = b
      · subst hab
        have := ih r
        rw [put_leaf_cons_same, this]
        simp [leafPut, Except.map]
      · simp [Node.put, leafPut, PrefixMatchedLen, NewLeafNodeFromNibbles, NewBranchNode,
          Node.SetValue, Node.SetBranch, hab]

theorem put_ext_eq_body (p : List Nibble) (next : Node) (n : List Nibble) (v : Value) :
    (Node.ExtensionNode p next).put n v
      = extBody p next n v (PrefixMatchedLen p n) (next.put (n.drop (PrefixMatchedLen p n)) v) := by
  rw [Node.put]
  rfl

theorem extBody_cons (a : Nibble) (q : List Nibble) (next : Node) (r : List Nibble)
    (v : Value) (m : Nat) (inner : Except Err Node) (h1 : m ≤ q.length) (h2 : m ≤ r.length) :
    extBody (a :: q) next (a :: r) v (m + 1) inner
      = Except.map (Node.prepend a) (extBody q next r v m inner) := by
  rcases Nat.lt_or_eq_of_le h1 with hq | hq
  · rcases Nat.lt_or_eq_of_le h2 with hr | hr
    · simp [extBody, hq, hr, NewLeafNodeFromNibbles, NewBranchNode,
        NewExtensionNode, Node.SetValue, Node.SetBranch, Except.map]
      split_ifs <;> simp_all [Node.prepend]
    · subst hr
      simp [extBody, hq, NewLeafNodeFromNibbles, NewBranchNode,
        NewExtensionNode, Node.SetValue, Node.SetBranch, Except.map]
      split_ifs <;> simp_all [Node.prepend]
  · subst hq
    simp only [extBody, List.length_cons, lt_irrefl, dite_false]
    cases inner <;> simp [Except.map, Node.prepend]

theorem put_ext (p : List Nibble) (next : Node) (n : List Nibble) (v : Value) (k : List Nibble → Node)
    (hk : ∀ r, next.put r v = .ok (k r)) :
    (Node.ExtensionNode p next).put n v = .ok (extPut next k p n v) := by
  induction p generalizing n with
  | nil => simp [Node.put, extPut, PrefixMatchedLen, hk]
  | cons a q ih =>
    cases n with
    | nil =>
      simp [Node.put, extPut, extTail, PrefixMatchedLen, NewLeafNodeFromNibbles, NewBranchNode,
        Node.SetValue, Node.SetBranch, NewExtensionNode]
      split_ifs <;> simp_all
    | cons b r =>
      by_cases hab : a = b
      · subst hab
        have h := ih r
        rw [put_ext_eq_body] at h ⊢
        simp only [PrefixMatchedLen, if_true, List.drop_succ_cons]
        rw [extBody_cons a q next r v _ _ (pml_le_left q r) (pml_le_right q r), h]
        simp [extPut, Except.map]
      · simp [Node.put, extPut, extTail, PrefixMatchedLen, NewLeafNodeFromNibbles, NewBranchNode,
          Node.SetValue, Node.SetBranch, NewExtensionNode, hab]
        split_ifs <;> simp_all

theorem put_eq (t : Node) (n : List Nibble) (v : Value) : t.put n v = .ok (t.putT n v) := by
  induction t generalizing n with
  | Empty => simp [Node.put, Node.putT, NewLeafNodeFromNibbles]
  | LeafNode p old => simpa [Node.putT] using put_leaf p old n v
  | BranchNode bs bv ih =>
    cases n with
    | nil => simp [Node.put, Node.putT]
    | cons b r => simp [Node.put, Node.putT, ih b r]
  | ExtensionNode p next ih =>
    simpa [Node.putT] using put_ext p next n v (fun r => next.putT r v) (fun r => ih r)

theorem pml_eq_iff (p n : List Nibble) :
    (PrefixMatchedLen p n = p.length ∧ PrefixMatchedLen p n = n.length) ↔ p = n := by
  induction p generalizing n with
  | nil => cases n <;> simp [PrefixMatchedLen]
  | cons a q ih =>
    cases n with
    | nil => simp [PrefixMatchedLen]
    | cons b r =>
      by_cases hab : a = b
      · subst hab
        simpa [PrefixMatchedLen] using ih r
      · simp [PrefixMatchedLen, hab]

theorem get_leaf (p : List Nibble) (old : Value) (n : List Nibble) :
    (Node.LeafNode p old).get n = if p = n then (old, true) else (none, false) := by
  by_cases hpn : p = n
  · subst hpn
    have h2 := (pml_eq_iff p p).mpr rfl
    simp [Node.get, h2.1]
  · have h2 : ¬ (PrefixMatchedLen p n = p.length ∧ PrefixMatchedLen p n = n.length) :=
      fun hh => hpn ((pml_eq_iff p n).mp hh)
    simp only [Node.get, hpn, if_false]
    rw [if_pos]
    omega

theorem get_empty (n : List Nibble) : Node.Empty.get n = (none, false) := by
  simp [Node.get]

theorem get_ext_nil (next : Node) (n : List Nibble) :
    (Node.ExtensionNode [] next).get n = next.get n := by
  simp [Node.get, PrefixMatchedLen]

theorem get_ext_cons_nil (a : Nibble) (q : List Nibble) (next : Node) :
    (Node.ExtensionNode (a :: q) next).get [] = (none, false) := by
  simp [Node.get, PrefixMatchedLen]

theorem get_ext_cons_cons (a : Nibble) (q : List Nibble) (next : Node) (b : Nibble)
    (r : List Nibble) :
    (Node.ExtensionNode (a :: q) next).get (b :: r)
      = if a = b then (Node.ExtensionNode q next).get r else (none, false) := by
  by_cases hab : a = b
  · simp [Node.get, PrefixMatchedLen, hab]
  · simp [Node.get, PrefixMatchedLen, hab]

theorem get_prepend_nil (a : Nibble) (t : Node) : (t.prepend a).get [] = (none, false) := by
  cases t <;> simp [Node.prepend, Node.get, PrefixMatchedLen]

theorem get_prepend_cons (a : Nibble) (t : Node) (b : Nibble) (r : List Nibble) :
    (t.prepend a).get (b :: r) = if a = b then t.get r else (none, false) := by
  cases t with
  | Empty => simp [Node.prepend, Node.get]
  | LeafNode q v =>
    simp only [Node.prepend, get_leaf, List.cons.injEq]
    by_cases hab : a = b <;> simp [hab]
  | BranchNode bs v =>
    simp only [Node.prepend, get_ext_cons_cons, get_ext_nil]
  | ExtensionNode q x =>
    simp only [Node.prepend, get_ext_cons_cons]

theorem get_branch_nil (bs : Fin 16 → Node) (bv : Value) :
    (Node.BranchNode bs bv).get [] = (bv, bv.isSome) := by
  simp [Node.get, HasValue]

theorem get_branch_cons (bs : Fin 16 → Node) (bv : Value) (b : Nibble) (r : List Nibble) :
    (Node.BranchNode bs bv).get (b :: r) = (bs b).get r := by
  simp [Node.get]

theorem get_leafPut_same (p : List Nibble) (old : Value) (n : List Nibble) (v : Value)
    (hv : v.isSome = true) : (leafPut p old n v).get n = (v, true) := by
  induction p generalizing n with
  | nil =>
    cases n with
    | nil => simp [leafPut, get_leaf]
    | cons b r =>
      simp [leafPut, NewBranchNode, Node.SetValue, Node.SetBranch, get_branch_cons, get_leaf]
  | cons a q ih =>
    cases n with
    | nil =>
      simp [leafPut, NewBranchNode, Node.SetValue, Node.SetBranch, get_branch_nil, hv]
    | cons b r =>
      by_cases hab : a = b
      · simp [leafPut, hab, get_prepend_cons, ih r]
      · simp [leafPut, hab, NewBranchNode, Node.SetBranch, get_branch_cons, get_leaf]

theorem get_leafPut_other (p : List Nibble) (old : Value) (n : List Nibble) (v : Value)
    (k : List Nibble) (hk : k ≠ n) (hold : (Node.LeafNode p old).get k ≠ (none, true)) :
    (leafPut p old n v).get k = (Node.LeafNode p old).get k := by
  induction p generalizing n k with
  | nil =>
    cases n with
    | nil =>
      cases k with
      | nil => exact absurd rfl hk
      | cons c s => simp [leafPut, get_leaf]
    | cons b r =>
      cases k with
      | nil =>
        simp only [get_leaf, if_true] at hold
        cases old with
        | none => exact absurd rfl hold
        | some x =>
          simp [leafPut, NewBranchNode, Node.SetValue, Node.SetBranch, get_branch_nil, get_leaf]
      | cons c s =>
        by_cases hcb : c = b
        · subst hcb
          have : s ≠ r := fun h => hk (by rw [h])
          simp [leafPut, NewBranchNode, Node.SetValue, Node.SetBranch, get_branch_cons, get_leaf,
            Ne.symm this]
        · simp [leafPut, NewBranchNode, Node.SetValue, Node.SetBranch, get_branch_cons, get_leaf,
            Function.update_noteq hcb, get_empty]
  | cons a q ih =>
    cases n with
    | nil =>
      cases k with
      | nil => exact absurd rfl hk
      | cons c s =>
        by_cases hca : c = a
        · subst hca
          simp [leafPut, NewBranchNode, Node.SetValue, Node.SetBranch, get_branch_cons, get_leaf]
        · simp [leafPut, NewBranchNode, Node.SetValue, Node.SetBranch, get_branch_cons, get_leaf,
            Function.update_noteq hca, get_empty, Ne.symm hca]
    | cons b r =>
      by_cases hab : a = b
      · subst hab
        cases k with
        | nil => simp [leafPut, get_prepend_nil, get_leaf]
        | cons c s =>
          by_cases hca : a = c
          · subst hca
            have hs : s ≠ r := fun h => hk (by rw [h])
            have hold2 : (Node.LeafNode q old).get s ≠ (none, true) := by
              simpa [get_leaf] using hold
            simp only [leafPut, if_true, get_prepend_cons, ih r s hs hold2]
            simp [get_leaf]
          · simp [leafPut, get_prepend_cons, get_leaf, hca]
      · cases k with
        | nil =>
          simp [leafPut, hab, NewBranchNode, Node.SetBranch, get_branch_nil, get_leaf]
        | cons c s =>
          by_cases hcb : c = b
          · subst hcb
            have hs : s ≠ r := fun h => hk (by rw [h])
            simp [leafPut, hab, NewBranchNode, Node.SetBranch, get_branch_cons, get_leaf,
              Ne.symm hs]
          · by_cases hca : c = a
            · subst hca
              simp [leafPut, hab, NewBranchNode, Node.SetBranch, get_branch_cons, get_leaf,
                Function.update_noteq hcb]
            · simp [leafPut, hab, NewBranchNode, Node.SetBranch, get_branch_cons, get_leaf,
                Function.update_noteq hcb, Function.update_noteq hca, get_empty, Ne.symm hca]

theorem get_extTail (q : List Nibble) (next : Node) (s : List Nibble) :
    (extTail q next).get s = (Node.ExtensionNode q next).get s := by
  cases q with
  | nil => simp [extTail, get_ext_nil]
  | cons a q => simp [extTail]

theorem get_extPut_same (next : Node) (k : List Nibble → Node) (p n : List Nibble) (v : Value)
    (hv : v.isSome = true) (hk : ∀ r, (k r).get r = (v, true)) :
    (extPut next k p n v).get n = (v, true) := by
  induction p generalizing n with
  | nil => simp [extPut, get_ext_nil, hk]
  | cons a q ih =>
    cases n with
    | nil => simp [extPut, NewBranchNode, Node.SetValue, Node.SetBranch, get_branch_nil, hv]
    | cons b r =>
      by_cases hab : a = b
      · simp [extPut, hab, get_prepend_cons, ih r]
      · simp [extPut, hab, NewBranchNode, Node.SetBranch, get_branch_cons, get_leaf]

theorem get_extPut_other (next : Node) (k : List Nibble → Node) (p n : List Nibble) (v : Value)
    (key : List Nibble)
    (hk : ∀ r s, s ≠ r → next.get s ≠ (none, true) → (k r).get s = next.get s)
    (hne : key ≠ n) (hold : (Node.ExtensionNode p next).get key ≠ (none, true)) :
    (extPut next k p n v).get key = (Node.ExtensionNode p next).get key := by
  induction p generalizing n key with
  | nil =>
    rw [get_ext_nil] at hold
    simp [extPut, get_ext_nil, hk n key hne hold]
  | cons a q ih =>
    cases n with
    | nil =>
      cases key with
      | nil => exact absurd rfl hne
      | cons c s =>
        by_cases hca : c = a
        · subst hca
          simp [extPut, NewBranchNode, Node.SetValue, Node.SetBranch, get_branch_cons,
            get_extTail, get_ext_cons_cons]
        · simp [extPut, NewBranchNode, Node.SetValue, Node.SetBranch, get_branch_cons,
            get_ext_cons_cons, Function.update_noteq hca, get_empty, Ne.symm hca]
    | cons b r =>
      by_cases hab : a = b
      · subst hab
        cases key with
        | nil => simp [extPut, get_prepend_nil, get_ext_cons_nil]
        | cons c s =>
          by_cases hca : a = c
          · subst hca
            have hs : s ≠ r := fun h => hne (by rw [h])
            have hold2 : (Node.ExtensionNode q next).get s ≠ (none, true) := by
              simpa [get_ext_cons_cons] using hold
            simp only [extPut, if_true, get_prepend_cons, ih r s hs hold2, get_ext_cons_cons]
          · simp [extPut, get_prepend_cons, get_ext_cons_cons, hca]
      · cases key with
        | nil =>
          simp [extPut, hab, NewBranchNode, Node.SetBranch, get_branch_nil, get_ext_cons_nil]
        | cons c s =>
          by_cases hcb : c = b
          · subst hcb
            have hs : s ≠ r := fun h => hne (by rw [h])
            simp [extPut, hab, NewBranchNode, Node.SetBranch, get_branch_cons, get_leaf,
              get_ext_cons_cons, Ne.symm hs]
          · by_cases hca : c = a
            · subst hca
              simp [extPut, hab, NewBranchNode, Node.SetBranch, get_branch_cons,
                get_ext_cons_cons, get_extTail, Function.update_noteq hcb]
            · simp [extPut, hab, NewBranchNode, Node.SetBranch, get_branch_cons,
                get_ext_cons_cons, Function.update_noteq hcb, Function.update_noteq hca,
                get_empty, Ne.symm hca]

theorem get_putT_same (t : Node) (n : List Nibble) (v : Value) (hv : v.isSome = true) :
    (t.putT n v).get n = (v, true) := by
  induction t generalizing n with
  | Empty => simp [Node.putT, get_leaf]
  | LeafNode p old => simpa [Node.putT] using get_leafPut_same p old n v hv
  | BranchNode bs bv ih =>
    cases n with
    | nil => simp [Node.putT, get_branch_nil, hv]
    | cons b r => simp [Node.putT, get_branch_cons, ih b r]
  | ExtensionNode p next ih =>
    simpa [Node.putT] using get_extPut_same next _ p n v hv (fun r => ih r)

theorem get_putT_other (t : Node) (n : List Nibble) (v : Value) (key : List Nibble)
    (hne : key ≠ n) (hold : t.get key ≠ (none, true)) :
    (t.putT n v).get key = t.get key := by
  induction t generalizing n key with
  | Empty =>
    simp [Node.putT, get_leaf, get_empty, Ne.symm hne]
  | LeafNode p old => simpa [Node.putT] using get_leafPut_other p old n v key hne hold
  | BranchNode bs bv ih =>
    cases n with
    | nil =>
      cases key with
      | nil => exact absurd rfl hne
      | cons c s => simp [Node.putT, get_branch_cons]
    | cons b r =>
      cases key with
      | nil => simp [Node.putT, get_branch_nil]
      | cons c s =>
        by_cases hcb : c = b
        · subst hcb
          have hs : s ≠ r := fun h => hne (by rw [h])
          rw [get_branch_cons] at hold
          simp [Node.putT, get_branch_cons, ih c r s hs hold]
        · simp [Node.putT, get_branch_cons, Function.update_noteq hcb]
  | ExtensionNode p next ih =>
    simpa [Node.putT] using
      get_extPut_other next _ p n v key (fun r s hs hh => ih r s hs hh) hne hold

theorem prepend_ne_empty (a : Nibble) (t : Node) (ht : t ≠ .Empty) : t.prepend a ≠ .Empty := by
  cases t <;> simp_all [Node.prepend]

theorem strip_prepend (a : Nibble) (t : Node) : (t.prepend a).strip = t.prepend a := by
  cases t <;> simp [Node.prepend, Node.strip]

theorem leafPut_ne_empty (p : List Nibble) (old : Value) (n : List Nibble) (v : Value) :
    leafPut p old n v ≠ .Empty := by
  induction p generalizing n with
  | nil => cases n <;> simp [leafPut, NewBranchNode, Node.SetValue, Node.SetBranch]
  | cons a q ih =>
    cases n with
    | nil => simp [leafPut, NewBranchNode, Node.SetValue, Node.SetBranch]
    | cons b r =>
      by_cases hab : a = b
      · simpa [leafPut, hab] using prepend_ne_empty b _ (ih r)
      · simp [leafPut, hab, NewBranchNode, Node.SetBranch]

theorem strip_leafPut (p : List Nibble) (old : Value) (n : List Nibble) (v : Value) :
    (leafPut p old n v).strip = leafPut p old n v := by
  cases p with
  | nil => cases n <;> simp [leafPut, NewBranchNode, Node.SetValue, Node.SetBranch, Node.strip]
  | cons a q =>
    cases n with
    | nil => simp [leafPut, NewBranchNode, Node.SetValue, Node.SetBranch, Node.strip]
    | cons b r =>
      by_cases hab : a = b
      · simp [leafPut, hab, strip_prepend]
      · simp [leafPut, hab, NewBranchNode, Node.SetBranch, Node.strip]

theorem extPut_ne_empty (next : Node) (k : List Nibble → Node) (p n : List Nibble) (v : Value) :
    extPut next k p n v ≠ .Empty := by
  induction p generalizing n with
  | nil => simp [extPut]
  | cons a q ih =>
    cases n with
    | nil => simp [extPut, NewBranchNode, Node.SetValue, Node.SetBranch]
    | cons b r =>
      by_cases hab : a = b
      · simpa [extPut, hab] using prepend_ne_empty b _ (ih r)
      · simp [extPut, hab, NewBranchNode, Node.SetBranch]

theorem putT_ne_empty (t : Node) (n : List Nibble) (v : Value) : t.putT n v ≠ .Empty := by
  cases t with
  | Empty => simp [Node.putT]
  | LeafNode p old => simpa [Node.putT] using leafPut_ne_empty p old n v
  | BranchNode bs bv => cases n <;> simp [Node.putT]
  | ExtensionNode p next => simpa [Node.putT] using extPut_ne_empty next _ p n v

theorem strip_extPut (next : Node) (p n : List Nibble) (v : Value) :
    (extPut next (fun r => next.putT r v) p n v).strip = (extTail p next).putT n v := by
  cases p with
  | nil => simp [extPut, Node.strip, extTail]
  | cons a q =>
    cases n with
    | nil =>
      simp [extPut, NewBranchNode, Node.SetValue, Node.SetBranch, Node.strip, extTail, Node.putT]
    | cons b r =>
      by_cases hab : a = b
      · simp [extPut, hab, strip_prepend, extTail, Node.putT]
      · simp [extPut, hab, NewBranchNode, Node.SetBranch, Node.strip, extTail, Node.putT]

theorem leafPut_self (p : List Nibble) (old v : Value) : leafPut p old p v = .LeafNode p v := by
  induction p with
  | nil => simp [leafPut]
  | cons a q ih => simp [leafPut, ih, Node.prepend]

theorem putT_prepend_same (a : Nibble) (t : Node) (n : List Nibble) (v : Value)
    (ht : t ≠ .Empty) : (t.prepend a).putT (a :: n) v = (t.putT n v).prepend a := by
  cases t with
  | Empty => exact absurd rfl ht
  | LeafNode q w => simp [Node.prepend, Node.putT, leafPut]
  | BranchNode bs bv =>
    cases n <;> simp [Node.prepend, Node.putT, extPut]
  | ExtensionNode q x => simp [Node.prepend, Node.putT, extPut]

theorem putT_prepend_other (a b : Nibble) (hab : a ≠ b) (t : Node) (n : List Nibble) (v : Value)
    (ht : t ≠ .Empty) :
    (t.prepend a).putT (b :: n) v
      = .BranchNode (Function.update (Function.update (fun _ => .Empty) a t.strip) b
          (.LeafNode n v)) none := by
  cases t with
  | Empty => exact absurd rfl ht
  | LeafNode q w =>
    simp [Node.prepend, Node.putT, leafPut, hab, NewBranchNode, Node.SetBranch, Node.strip]
  | BranchNode bs bv =>
    simp [Node.prepend, Node.putT, extPut, hab, NewBranchNode, Node.SetBranch, Node.strip, extTail]
  | ExtensionNode q x =>
    cases q <;>
    simp [Node.prepend, Node.putT, extPut, hab, NewBranchNode, Node.SetBranch, Node.strip, extTail]

theorem putT_prepend_nil (a : Nibble) (t : Node) (v : Value) (ht : t ≠ .Empty) :
    (t.prepend a).putT [] v
      = .BranchNode (Function.update (fun _ => .Empty) a t.strip) v := by
  cases t with
  | Empty => exact absurd rfl ht
  | LeafNode q w =>
    simp [Node.prepend, Node.putT, leafPut, NewBranchNode, Node.SetBranch, Node.SetValue, Node.strip]
  | BranchNode bs bv =>
    simp [Node.prepend, Node.putT, extPut, NewBranchNode, Node.SetBranch, Node.SetValue, Node.strip, extTail]
  | ExtensionNode q x =>
    cases q <;>
    simp [Node.prepend, Node.putT, extPut, NewBranchNode, Node.SetBranch, Node.SetValue, Node.strip, extTail]

theorem update_update_same (f : Fin 16 → Node) (a : Nibble) (x y : Node) :
    Function.update (Function.update f a x) a y = Function.update f a y := by
  simp

theorem update_swap (f : Fin 16 → Node) (a b : Nibble) (hab : a ≠ b) (x y : Node) :
    Function.update (Function.update f a x) b y = Function.update (Function.update f b y) a x :=
  Function.update_comm hab x y f

theorem leafPut_comm (n1 n2 : List Nibble) (v1 v2 : Value) (hne : n1 ≠ n2) :
    leafPut n1 v1 n2 v2 = leafPut n2 v2 n1 v1 := by
  induction n1 generalizing n2 with
  | nil =>
    cases n2 with
    | nil => exact absurd rfl hne
    | cons b r => simp [leafPut]
  | cons a q ih =>
    cases n2 with
    | nil => simp [leafPut]
    | cons b r =>
      by_cases hab : a = b
      · subst hab
        have hqr : q ≠ r := fun h => hne (by rw [h])
        simp [leafPut, ih r hqr]
      · have hba : ¬ b = a := fun h => hab h.symm
        simp [leafPut, hab, hba, NewBranchNode, Node.SetBranch, update_swap _ a b hab]

theorem update_three (f : Fin 16 → Node) (a c : Nibble) (hac : a ≠ c) (x y z : Node) :
    Function.update (Function.update (Function.update f a x) c y) a z
      = Function.update (Function.update f a z) c y := by
  rw [Function.update_comm hac.symm, Function.update_idem, Function.update_comm hac]

theorem leafPut_putT_comm (p : List Nibble) (old : Value) (n1 n2 : List Nibble) (v1 v2 : Value)
    (hne : n1 ≠ n2) :
    (leafPut p old n1 v1).putT n2 v2 = (leafPut p old n2 v2).putT n1 v1 := by
  induction p generalizing n1 n2 with
  | nil =>
    cases n1 with
    | nil =>
      cases n2 with
      | nil => exact absurd rfl hne
      | cons c s =>
        simp [leafPut, Node.putT, NewBranchNode, Node.SetBranch, Node.SetValue]
    | cons b r =>
      cases n2 with
      | nil => simp [leafPut, Node.putT, NewBranchNode, Node.SetBranch, Node.SetValue]
      | cons c s =>
        by_cases hbc : b = c
        · subst hbc
          have hrs : r ≠ s := fun h => hne (by rw [h])
          simp [leafPut, Node.putT, NewBranchNode, Node.SetBranch, Node.SetValue,
            leafPut_comm r s v1 v2 hrs]
        · have hcb : c ≠ b := fun h => hbc h.symm
          simp [leafPut, Node.putT, NewBranchNode, Node.SetBranch, Node.SetValue,
            Function.update_noteq hcb, Function.update_noteq hbc, update_swap _ b c hbc]
  | cons a q ih =>
    cases n1 with
    | nil =>
      cases n2 with
      | nil => exact absurd rfl hne
      | cons c s =>
        by_cases hac : a = c
        · subst hac
          simp [leafPut, Node.putT, NewBranchNode, Node.SetBranch, Node.SetValue,
            putT_prepend_nil _ _ _ (leafPut_ne_empty q old s v2), strip_leafPut]
        · have hca : c ≠ a := fun h => hac h.symm
          simp [leafPut, Node.putT, NewBranchNode, Node.SetBranch, Node.SetValue, hac,
            Function.update_noteq hca]
    | cons b r =>
      cases n2 with
      | nil =>
        by_cases hab : a = b
        · subst hab
          simp [leafPut, Node.putT, NewBranchNode, Node.SetBranch, Node.SetValue,
            putT_prepend_nil _ _ _ (leafPut_ne_empty q old r v1), strip_leafPut]
        · have hba : b ≠ a := fun h => hab h.symm
          simp [leafPut, Node.putT, NewBranchNode, Node.SetBranch, Node.SetValue, hab,
            Function.update_noteq hba]
      | cons c s =>
        by_cases hab : a = b
        · subst hab
          by_cases hac : a = c
          · subst hac
            have hrs : r ≠ s := fun h => hne (by rw [h])
            simp only [leafPut, if_true,
              putT_prepend_same _ _ _ _ (leafPut_ne_empty q old r v1),
              putT_prepend_same _ _ _ _ (leafPut_ne_empty q old s v2), ih r s hrs]
          · have hca : c ≠ a := fun h => hac h.symm
            simp [leafPut, Node.putT, NewBranchNode, Node.SetBranch, Node.SetValue, hac,
              putT_prepend_other _ _ hac _ _ _ (leafPut_ne_empty q old r v1), strip_leafPut,
              Function.update_noteq hac, update_three _ a c hac]
        · have hba : b ≠ a := fun h => hab h.symm
          by_cases hac : a = c
          · subst hac
            simp [leafPut, Node.putT, NewBranchNode, Node.SetBranch, Node.SetValue, hab,
              putT_prepend_other _ _ hab _ _ _ (leafPut_ne_empty q old s v2), strip_leafPut,
              Function.update_noteq hab, update_three _ a b hab]
          · have hca : c ≠ a := fun h => hac h.symm
            by_cases hbc : b = c
            · subst hbc
              have hrs : r ≠ s := fun h => hne (by rw [h])
              simp [leafPut, Node.putT, NewBranchNode, Node.SetBranch, Node.SetValue, hab,
                leafPut_comm r s v1 v2 hrs]
            · have hcb : c ≠ b := fun h => hbc h.symm
              simp [leafPut, Node.putT, NewBranchNode, Node.SetBranch, Node.SetValue, hab, hac,
                Function.update_noteq hcb, Function.update_noteq hbc, Function.update_noteq hca,
                Function.update_noteq hba, update_swap _ b c hbc]

theorem extTail_putT (q : List Nibble) (next : Node) (n : List Nibble) (v : Value) :
    (extTail q next).putT n v = (extPut next (fun r => next.putT r v) q n v).strip :=
  (strip_extPut next q n v).symm

theorem extPut_putT_comm (next : Node) (p n1 n2 : List Nibble) (v1 v2 : Value)
    (ih : ∀ n1 n2 : List Nibble, n1 ≠ n2 →
      (next.putT n1 v1).putT n2 v2 = (next.putT n2 v2).putT n1 v1)
    (hne : n1 ≠ n2) :
    (extPut next (fun r => next.putT r v1) p n1 v1).putT n2 v2
      = (extPut next (fun r => next.putT r v2) p n2 v2).putT n1 v1 := by
  induction p generalizing n1 n2 with
  | nil => simp [extPut, Node.putT, ih n1 n2 hne]
  | cons a q ihp =>
    cases n1 with
    | nil =>
      cases n2 with
      | nil => exact absurd rfl hne
      | cons c s =>
        by_cases hac : a = c
        · subst hac
          simp [extPut, Node.putT, NewBranchNode, Node.SetBranch, Node.SetValue,
            putT_prepend_nil _ _ _ (extPut_ne_empty next _ q s v2), strip_extPut]
        · have hca : c ≠ a := fun h => hac h.symm
          simp [extPut, Node.putT, NewBranchNode, Node.SetBranch, Node.SetValue, hac,
            Function.update_noteq hca]
    | cons b r =>
      cases n2 with
      | nil =>
        by_cases hab : a = b
        · subst hab
          simp [extPut, Node.putT, NewBranchNode, Node.SetBranch, Node.SetValue,
            putT_prepend_nil _ _ _ (extPut_ne_empty next _ q r v1), strip_extPut]
        · have hba : b ≠ a := fun h => hab h.symm
          simp [extPut, Node.putT, NewBranchNode, Node.SetBranch, Node.SetValue, hab,
            Function.update_noteq hba]
      | cons c s =>
        by_cases hab : a = b
        · subst hab
          by_cases hac : a = c
          · subst hac
            have hrs : r ≠ s := fun h => hne (by rw [h])
            simp only [extPut, if_true,
              putT_prepend_same _ _ _ _ (extPut_ne_empty next _ q r v1),
              putT_prepend_same _ _ _ _ (extPut_ne_empty next _ q s v2), ihp r s hrs]
          · have hca : c ≠ a := fun h => hac h.symm
            simp [extPut, Node.putT, NewBranchNode, Node.SetBranch, Node.SetValue, hac,
              putT_prepend_other _ _ hac _ _ _ (extPut_ne_empty next _ q r v1), strip_extPut,
              Function.update_noteq hac, update_three _ a c hac]
        · have hba : b ≠ a := fun h => hab h.symm
          by_cases hac : a = c
          · subst hac
            simp [extPut, Node.putT, NewBranchNode, Node.SetBranch, Node.SetValue, hab,
              putT_prepend_other _ _ hab _ _ _ (extPut_ne_empty next _ q s v2), strip_extPut,
              Function.update_noteq hab, update_three _ a b hab]
          · have hca : c ≠ a := fun h => hac h.symm
            by_cases hbc : b = c
            · subst hbc
              have hrs : r ≠ s := fun h => hne (by rw [h])
              simp [extPut, Node.putT, NewBranchNode, Node.SetBranch, Node.SetValue, hab,
                leafPut_comm r s v1 v2 hrs]
            · have hcb : c ≠ b := fun h => hbc h.symm
              simp [extPut, Node.putT, NewBranchNode, Node.SetBranch, Node.SetValue, hab, hac,
                Function.update_noteq hcb, Function.update_noteq hbc, Function.update_noteq hca,
                Function.update_noteq hba, update_swap _ b c hbc]

theorem putT_comm (t : Node) (n1 n2 : List Nibble) (v1 v2 : Value) (hne : n1 ≠ n2) :
    (t.putT n1 v1).putT n2 v2 = (t.putT n2 v2).putT n1 v1 := by
  induction t generalizing n1 n2 with
  | Empty => simpa [Node.putT] using leafPut_comm n1 n2 v1 v2 hne
  | LeafNode p old => simpa [Node.putT] using leafPut_putT_comm p old n1 n2 v1 v2 hne
  | BranchNode bs bv ih =>
    cases n1 with
    | nil =>
      cases n2 with
      | nil => exact absurd rfl hne
      | cons c s => simp [Node.putT]
    | cons b r =>
      cases n2 with
      | nil => simp [Node.putT]
      | cons c s =>
        by_cases hbc : b = c
        · subst hbc
          have hrs : r ≠ s := fun h => hne (by rw [h])
          simp [Node.putT, ih b r s hrs]
        · have hcb : c ≠ b := fun h => hbc h.symm
          simp [Node.putT, Function.update_noteq hcb, Function.update_noteq hbc,
            update_swap _ b c hbc]
  | ExtensionNode p next ih =>
    simpa [Node.putT] using extPut_putT_comm next p n1 n2 v1 v2 (fun a b h => ih a b h) hne

theorem leafPut_putT_same (p : List Nibble) (old : Value) (n : List Nibble) (v1 v2 : Value) :
    (leafPut p old n v1).putT n v2 = leafPut p old n v2 := by
  induction p generalizing n with
  | nil =>
    cases n with
    | nil => simp [leafPut, Node.putT]
    | cons b r =>
      simp [leafPut, Node.putT, NewBranchNode, Node.SetBranch, Node.SetValue, leafPut_self]
  | cons a q ih =>
    cases n with
    | nil => simp [leafPut, Node.putT, NewBranchNode, Node.SetBranch, Node.SetValue]
    | cons b r =>
      by_cases hab : a = b
      · subst hab
        simp only [leafPut, if_true, putT_prepend_same _ _ _ _ (leafPut_ne_empty q old r v1),
          ih r]
      · simp [leafPut, Node.putT, NewBranchNode, Node.SetBranch, Node.SetValue, hab,
          leafPut_self]

theorem extPut_putT_same (next : Node) (p n : List Nibble) (v1 v2 : Value)
    (ih : ∀ n : List Nibble, (next.putT n v1).putT n v2 = next.putT n v2) :
    (extPut next (fun r => next.putT r v1) p n v1).putT n v2
      = extPut next (fun r => next.putT r v2) p n v2 := by
  induction p generalizing n with
  | nil => simp [extPut, Node.putT, ih n]
  | cons a q ihp =>
    cases n with
    | nil => simp [extPut, Node.putT, NewBranchNode, Node.SetBranch, Node.SetValue]
    | cons b r =>
      by_cases hab : a = b
      · subst hab
        simp only [extPut, if_true, putT_prepend_same _ _ _ _ (extPut_ne_empty next _ q r v1),
          ihp r]
      · simp [extPut, Node.putT, NewBranchNode, Node.SetBranch, Node.SetValue, hab,
          leafPut_self]

theorem putT_putT_same (t : Node) (n : List Nibble) (v1 v2 : Value) :
    (t.putT n v1).putT n v2 = t.putT n v2 := by
  induction t generalizing n with
  | Empty => simpa [Node.putT] using leafPut_self n v1 v2
  | LeafNode p old => simpa [Node.putT] using leafPut_putT_same p old n v1 v2
  | BranchNode bs bv ih =>
    cases n with
    | nil => simp [Node.putT]
    | cons b r => simp [Node.putT, ih b r]
  | ExtensionNode p next ih =>
    simpa [Node.putT] using extPut_putT_same next p n v1 v2 (fun a => ih a)

theorem FromBytes_injective : Function.Injective FromBytes := by
  intro x
  induction x with
  | nil =>
    intro y h
    cases y with
    | nil => rfl
    | cons b bs => simp [FromBytes] at h
  | cons a as ih =>
    intro y h
    cases y with
    | nil => simp [FromBytes] at h
    | cons b bs =>
      simp only [FromBytes, List.cons.injEq, Fin.mk.injEq] at h
      obtain ⟨h1, h2, h3⟩ := h
      have hab : a = b := by
        apply Fin.ext
        have := a.isLt
        have := b.isLt
        omega
      rw [hab, ih h3]

theorem trie_put_eq (t : Trie) (key : List Byte) (value : Value) :
    t.Put key value = (⟨t.root.putT (FromBytes key) value⟩, none) := by
  simp [Trie.Put, put_eq]

theorem putAll_snoc (t : Trie) (ops : List (List Byte × Value)) (kv : List Byte × Value) :
    t.PutAll (ops ++ [kv]) = ((t.PutAll ops).Put kv.1 kv.2).1 := by
  simp [Trie.PutAll, List.foldl_append]

theorem putAll_cons (t : Trie) (ops : List (List Byte × Value)) (kv : List Byte × Value) :
    t.PutAll (kv :: ops) = ((t.Put kv.1 kv.2).1).PutAll ops := by
  simp [Trie.PutAll]

theorem lastPut_snoc (ops : List (List Byte × Value)) (kv : List Byte × Value) (key : List Byte) :
    lastPut (ops ++ [kv]) key = if kv.1 = key then some kv.2 else lastPut ops key := by
  simp [lastPut, List.foldl_append]

theorem lastPut_eq_none (ops : List (List Byte × Value)) (key : List Byte)
    (h : key ∉ ops.map Prod.fst) : lastPut ops key = none := by
  induction ops using List.reverseRecOn with
  | nil => rfl
  | append_singleton ops kv ih =>
    simp only [List.map_append, List.map_cons, List.map_nil, List.mem_append,
      List.mem_singleton, not_or] at h
    rw [lastPut_snoc, if_neg (fun hh => h.2 hh.symm), ih h.1]

/-- C1 fails as stated: after `Put("ab", "y")` and `Put("a", nil)` the last value put for "a" is
the nil slice, and `Get("a")` reports found = false (the key ends at a branch, whose `HasValue`
is `Value != nil`). -/
theorem C1_counterexample :
    lastPut [([0x61, 0x62], some [0x79]), ([0x61], none)] [0x61] = some none ∧
    ((NewTrie.PutAll [([0x61, 0x62], some [0x79]), ([0x61], none)]).Get [0x61]).2 = false := by
  decide

/-- C1, amended: round-trip. For every finite list of puts applied in order to a trie created by
`NewTrie` and every key whose last put in the list has a value that is not nil, `Get` returns
found = true together with that value. -/
theorem C1_roundtrip (ops : List (List Byte × Value)) (key : List Byte) (v : Value)
    (hlast : lastPut ops key = some v) (hv : v ≠ none) :
    (NewTrie.PutAll ops).Get key = (v, true) := by
  induction ops using List.reverseRecOn with
  | nil => simp [lastPut] at hlast
  | append_singleton ops kv ih =>
    rw [lastPut_snoc] at hlast
    rw [putAll_snoc, trie_put_eq]
    by_cases hk : kv.1 = key
    · rw [if_pos hk] at hlast
      have hvv : kv.2 = v := Option.some.inj hlast
      have hs : v.isSome = true := by
        cases v with
        | none => exact absurd rfl hv
        | some x => rfl
      simp only [Trie.Get]
      rw [hk, hvv]
      exact get_putT_same _ _ _ hs
    · rw [if_neg hk] at hlast
      have h1 := ih hlast
      simp only [Trie.Get] at h1 ⊢
      have hne : FromBytes key ≠ FromBytes kv.1 := fun h => hk (FromBytes_injective h).symm
      rw [get_putT_other _ _ _ _ hne]
      · exact h1
      · rw [h1]
        intro hh
        exact hv (Prod.mk.inj hh).1

/-- The same two keys with an empty, non-nil value for "a": it is found. -/
theorem C1_witness :
    lastPut [([0x61, 0x62], some [0x79]), ([0x61], some [])] [0x61] = some (some []) ∧
    (some [] : Value) ≠ none ∧
    (NewTrie.PutAll [([0x61, 0x62], some [0x79]), ([0x61], some [])]).Get [0x61]
      = (some [], true) :=
  ⟨by decide, by decide, C1_roundtrip _ _ _ (by decide) (by decide)⟩

/-- C2: absent keys are not found. For every finite list of puts applied to a trie created by
`NewTrie` and every key that is not among the keys put, `Get` returns the nil value and
found = false. -/
theorem C2_absent (ops : List (List Byte × Value)) (key : List Byte)
    (habs : key ∉ ops.map Prod.fst) :
    (NewTrie.PutAll ops).Get key = (none, false) := by
  induction ops using List.reverseRecOn with
  | nil => simp [Trie.PutAll, NewTrie, Trie.Get, get_empty]
  | append_singleton ops kv ih =>
    simp only [List.map_append, List.map_cons, List.map_nil, List.mem_append,
      List.mem_singleton, not_or] at habs
    have h1 := ih habs.1
    rw [putAll_snoc, trie_put_eq]
    simp only [Trie.Get] at h1 ⊢
    have hne : FromBytes key ≠ FromBytes kv.1 := fun h => habs.2 (FromBytes_injective h)
    rw [get_putT_other _ _ _ _ hne]
    · exact h1
    · rw [h1]
      simp

/-- After `Put("test", "a")` and `Put("team", "b")`, the key "te" is not found. -/
theorem C2_witness :
    ([0x74, 0x65] : List Byte) ∉
      ([([0x74, 0x65, 0x73, 0x74], some [0x61]), ([0x74, 0x65, 0x61, 0x6d], some [0x62])] :
        List (List Byte × Value)).map Prod.fst ∧
    (NewTrie.PutAll
      [([0x74, 0x65, 0x73, 0x74], some [0x61]), ([0x74, 0x65, 0x61, 0x6d], some [0x62])]).Get
        [0x74, 0x65] = (none, false) :=
  ⟨by decide, C2_absent _ _ (by decide)⟩

theorem trie_put_comm (t : Trie) (k1 k2 : List Byte) (v1 v2 : Value) (hne : k1 ≠ k2) :
    ((t.Put k1 v1).1.Put k2 v2).1 = ((t.Put k2 v2).1.Put k1 v1).1 := by
  simp only [trie_put_eq]
  have h : FromBytes k1 ≠ FromBytes k2 := fun h => hne (FromBytes_injective h)
  rw [putT_comm _ _ _ _ _ h]

theorem putAll_perm (ops1 ops2 : List (List Byte × Value)) (hperm : ops1.Perm ops2)
    (hnodup : (ops1.map Prod.fst).Nodup) (t : Trie) : t.PutAll ops1 = t.PutAll ops2 := by
  induction hperm generalizing t with
  | nil => rfl
  | cons x _ ih =>
    simp only [List.map_cons, List.nodup_cons] at hnodup
    simp only [putAll_cons]
    exact ih hnodup.2 _
  | swap x y l =>
    simp only [List.map_cons, List.nodup_cons, List.mem_cons, not_or] at hnodup
    simp only [putAll_cons]
    rw [trie_put_comm t y.1 x.1 y.2 x.2 hnodup.1.1]
  | trans h1 _ ih1 ih2 =>
    have hn2 := ((h1.map Prod.fst).nodup_iff).mp hnodup
    rw [ih1 hnodup t, ih2 hn2 t]

/-- C3: order independence. Putting pairs with pairwise distinct keys into a fresh trie in two
orders gives the same node tree, hence the same `Hash()` result; and on every trie (so on every
reachable one) two puts to different keys commute. -/
theorem C3_order_independence :
    (∀ ops1 ops2 : List (List Byte × Value), ops1.Perm ops2 → (ops1.map Prod.fst).Nodup →
      NewTrie.PutAll ops1 = NewTrie.PutAll ops2 ∧
      ∀ L : Lib, (NewTrie.PutAll ops1).Hash L = (NewTrie.PutAll ops2).Hash L) ∧
    (∀ (t : Trie) (k1 k2 : List Byte) (v1 v2 : Value), k1 ≠ k2 →
      ((t.Put k1 v1).1.Put k2 v2).1 = ((t.Put k2 v2).1.Put k1 v1).1) := by
  refine ⟨fun ops1 ops2 hperm hnodup => ?_, fun t k1 k2 v1 v2 hne => ?_⟩
  · have h := putAll_perm ops1 ops2 hperm hnodup NewTrie
    exact ⟨h, fun L => by rw [h]⟩
  · exact trie_put_comm t k1 k2 v1 v2 hne

/-- The four keys of the classic example, put in two different orders. -/
theorem C3_witness :
    NewTrie.PutAll
        [([0x64, 0x6f], some [0x76]), ([0x64, 0x6f, 0x67], some [0x70]),
         ([0x64, 0x6f, 0x67, 0x65], some [0x63]), ([0x68, 0x6f, 0x72, 0x73, 0x65], some [0x73])]
      = NewTrie.PutAll
        [([0x68, 0x6f, 0x72, 0x73, 0x65], some [0x73]), ([0x64, 0x6f, 0x67, 0x65], some [0x63]),
         ([0x64, 0x6f], some [0x76]), ([0x64, 0x6f, 0x67], some [0x70])] :=
  (C3_order_independence.1 _ _ (by decide) (by decide)).1

/-- C4 fails as stated: on the trie that holds "ab", after `Put("a", "x")` and then
`Put("a", nil)` the key "a" does not hold the second value: `Get("a")` reports found = false,
because "a" ends at a branch, whose `HasValue` is `Value != nil`. -/
theorem C4_counterexample :
    ((((NewTrie.PutAll [([0x61, 0x62], some [0x79])]).Put [0x61] (some [0x78])).1.Put [0x61]
      none).1.Get [0x61]) = (none, false) ∧
    ((((NewTrie.PutAll [([0x61, 0x62], some [0x79])]).Put [0x61] (some [0x78])).1.Put [0x61]
      none).1.Get [0x61]) ≠ (none, true) := by
  decide

/-- C4, amended: overwrite. On every trie (so on every reachable one), `Put(k, v1)` followed by
`Put(k, v2)` returns no error and leaves the same node tree as `Put(k, v2)` alone, hence the same
`Hash()` result and the same `Get` result for every key; and when `v2` is not nil, `Get(k)`
returns `(v2, true)` afterwards: the key holds exactly one value, the second. -/
theorem C4_overwrite (t : Trie) (k : List Byte) (v1 v2 : Value) :
    (t.Put k v1).2 = none ∧ ((t.Put k v1).1.Put k v2).2 = none ∧
    ((t.Put k v1).1.Put k v2).1 = (t.Put k v2).1 ∧
    (∀ L : Lib, ((t.Put k v1).1.Put k v2).1.Hash L = (t.Put k v2).1.Hash L) ∧
    (∀ key : List Byte, ((t.Put k v1).1.Put k v2).1.Get key = (t.Put k v2).1.Get key) ∧
    (v2 ≠ none → ((t.Put k v1).1.Put k v2).1.Get k = (v2, true)) := by
  have h : ((t.Put k v1).1.Put k v2).1 = (t.Put k v2).1 := by
    simp only [trie_put_eq, putT_putT_same]
  refine ⟨by rw [trie_put_eq], by rw [trie_put_eq], h, fun L => by rw [h],
    fun key => by rw [h], fun hv => ?_⟩
  rw [h, trie_put_eq]
  simp only [Trie.Get]
  apply get_putT_same
  cases v2 with
  | none => exact absurd rfl hv
  | some x => rfl

/-- The key "a" on the trie that holds "ab": after `Put("a", "x")` and `Put("a", "z")`,
`Get("a")` returns "z". -/
theorem C4_witness :
    (some [0x7a] : Value) ≠ none ∧
    ((((NewTrie.PutAll [([0x61, 0x62], some [0x79])]).Put [0x61] (some [0x78])).1.Put [0x61]
      (some [0x7a])).1.Get [0x61]) = (some [0x7a], true) :=
  ⟨by decide,
    (C4_overwrite (NewTrie.PutAll [([0x61, 0x62], some [0x79])]) [0x61] (some [0x78])
      (some [0x7a])).2.2.2.2.2 (by decide)⟩

theorem inv_update (bs : Fin 16 → Node) (a : Nibble) (x : Node) (hbs : ∀ i, (bs i).Inv)
    (hx : x.Inv) : ∀ i, (Function.update bs a x i).Inv := by
  intro i
  by_cases hi : i = a
  · subst hi
    simpa using hx
  · simpa [Function.update_noteq hi] using hbs i

theorem prepend_inv (a : Nibble) (t : Node) (ht : t.InvTop) : (t.prepend a).Inv := by
  cases t with
  | Empty => simp [Node.prepend, Node.Inv]
  | LeafNode q v => simp [Node.prepend, Node.Inv]
  | BranchNode bs bv =>
    simp only [Node.InvTop] at ht
    simp [Node.prepend, Node.Inv, Node.isBranch]
    simpa [Node.Inv] using ht
  | ExtensionNode q x =>
    simp only [Node.InvTop] at ht
    simp [Node.prepend, Node.Inv, ht]

theorem invTop_of_inv (t : Node) (ht : t.Inv) : t.InvTop := by
  cases t with
  | ExtensionNode q x =>
    simp only [Node.Inv] at ht
    simp [Node.InvTop, ht]
  | _ => simpa [Node.InvTop] using ht

theorem leafPut_inv (p : List Nibble) (old : Value) (n : List Nibble) (v : Value) :
    (leafPut p old n v).Inv := by
  induction p generalizing n with
  | nil =>
    cases n with
    | nil => simp [leafPut, Node.Inv]
    | cons b r =>
      simp only [leafPut, NewBranchNode, Node.SetValue, Node.SetBranch, Node.Inv]
      exact inv_update _ _ _ (fun _ => by simp [Node.Inv]) (by simp [Node.Inv])
  | cons a q ih =>
    cases n with
    | nil =>
      simp only [leafPut, NewBranchNode, Node.SetValue, Node.SetBranch, Node.Inv]
      exact inv_update _ _ _ (fun _ => by simp [Node.Inv]) (by simp [Node.Inv])
    | cons b r =>
      by_cases hab : a = b
      · simpa [leafPut, hab] using prepend_inv b _ (invTop_of_inv _ (ih r))
      · simp only [leafPut, hab, if_false, NewBranchNode, Node.SetBranch, Node.Inv]
        exact inv_update _ _ _
          (inv_update _ _ _ (fun _ => by simp [Node.Inv]) (by simp [Node.Inv]))
          (by simp [Node.Inv])

theorem extTail_inv (q : List Nibble) (next : Node) (hb : next.isBranch = true)
    (hn : next.Inv) : (extTail q next).Inv := by
  cases q with
  | nil => simpa [extTail] using hn
  | cons a q => simp [extTail, Node.Inv, hb, hn]

theorem extPut_inv (next : Node) (k : List Nibble → Node) (p n : List Nibble) (v : Value)
    (hb : next.isBranch = true) (hn : next.Inv)
    (hk : ∀ r, (k r).isBranch = true ∧ (k r).Inv) :
    (extPut next k p n v).InvTop ∧ (p ≠ [] → (extPut next k p n v).Inv) := by
  induction p generalizing n with
  | nil => simp [extPut, Node.InvTop, hk]
  | cons a q ih =>
    have key : (extPut next k (a :: q) n v).Inv := by
      cases n with
      | nil =>
        simp only [extPut, NewBranchNode, Node.SetValue, Node.SetBranch, Node.Inv]
        exact inv_update _ _ _ (fun _ => by simp [Node.Inv]) (extTail_inv q next hb hn)
      | cons b r =>
        by_cases hab : a = b
        · simpa [extPut, hab] using prepend_inv b _ (ih r).1
        · simp only [extPut, hab, if_false, NewBranchNode, Node.SetBranch, Node.Inv]
          exact inv_update _ _ _
            (inv_update _ _ _ (fun _ => by simp [Node.Inv]) (extTail_inv q next hb hn))
            (by simp [Node.Inv])
    exact ⟨invTop_of_inv _ key, fun _ => key⟩

theorem putT_isBranch (t : Node) (n : List Nibble) (v : Value) (ht : t.isBranch = true) :
    (t.putT n v).isBranch = true := by
  cases t with
  | BranchNode bs bv => cases n <;> simp [Node.putT, Node.isBranch]
  | _ => simp [Node.isBranch] at ht

theorem putT_inv (t : Node) (n : List Nibble) (v : Value) (ht : t.Inv) : (t.putT n v).Inv := by
  induction t generalizing n with
  | Empty => simp [Node.putT, Node.Inv]
  | LeafNode p old => simpa [Node.putT] using leafPut_inv p old n v
  | BranchNode bs bv ih =>
    simp only [Node.Inv] at ht
    cases n with
    | nil => simpa [Node.putT, Node.Inv] using ht
    | cons b r =>
      simp only [Node.putT, Node.Inv]
      exact inv_update _ _ _ ht (ih b r (ht b))
  | ExtensionNode p next ih =>
    simp only [Node.Inv] at ht
    simp only [Node.putT]
    exact (extPut_inv next _ p n v ht.2.1 ht.2.2
      (fun r => ⟨putT_isBranch next r v ht.2.1, ih r ht.2.2⟩)).2 ht.1

theorem PutAll_inv (ops : List (List Byte × Value)) : (NewTrie.PutAll ops).root.Inv := by
  induction ops using List.reverseRecOn with
  | nil => simp [Trie.PutAll, NewTrie, Node.Inv]
  | append_singleton ops kv ih =>
    rw [putAll_snoc, trie_put_eq]
    exact putT_inv _ _ _ ih

theorem mapM_ok {α : Type} (f : α → Except Err RLP) (g : α → RLP) (xs : List α)
    (h : ∀ i, f i = .ok (g i)) : xs.mapM f = .ok (xs.map g) := by
  induction xs with
  | nil => rfl
  | cons x xs ih =>
    rw [List.mapM_cons, h x, ih]
    rfl

theorem childRef_ok (L : Lib) (r : RLP) : childRef L (.ok r) = .ok (refT L r) := by
  simp only [childRef, refT]
  split_ifs <;> rfl

theorem isBranch_ne_empty (t : Node) (h : t.isBranch = true) : t ≠ .Empty := by
  cases t <;> simp_all [Node.isBranch]

theorem Raw_eq (L : Lib) (t : Node) (ht : t.Inv) (hne : t ≠ .Empty) :
    t.Raw L = .ok (t.rawT L) := by
  induction t with
  | Empty => exact absurd rfl hne
  | LeafNode p v => simp [Node.Raw, Node.rawT]
  | BranchNode bs bv ih =>
    simp only [Node.Inv] at ht
    simp only [Node.Raw, Node.rawT]
    rw [mapM_ok _ (fun i => if IsEmptyNode (bs i) then EmptyNodeRaw
          else refT L ((bs i).rawT L))]
    intro i
    by_cases hi : bs i = .Empty
    · simp [hi, IsEmptyNode]
    · have h2 : IsEmptyNode (bs i) = false := by
        cases hbi : bs i <;> simp_all [IsEmptyNode]
      simp [h2, ih i (ht i) hi, childRef_ok]
  | ExtensionNode p next ih =>
    simp only [Node.Inv] at ht
    simp [Node.Raw, Node.rawT, ih ht.2.2 (isBranch_ne_empty _ ht.2.1), childRef_ok]

theorem Serialize_eq (L : Lib) (t : Node) (ht : t.Inv) :
    Serialize L t = .ok (L.EncodeToBytes (t.rawT L)) := by
  by_cases hne : t = .Empty
  · subst hne
    simp [Serialize, IsEmptyNode, Node.rawT]
  · have h2 : IsEmptyNode t = false := by
      cases t <;> simp_all [IsEmptyNode]
    simp [Serialize, h2, Raw_eq L t ht hne]

theorem Hash_eq (L : Lib) (t : Node) (ht : t.Inv) :
    Hash L t = .ok (L.Keccak256 (L.EncodeToBytes (t.rawT L))) := by
  cases t with
  | Empty => simp [Hash, IsEmptyNode, Node.rawT, EmptyNodeHash]
  | LeafNode p v => simp [Hash, IsEmptyNode, Node.Hash, Serialize_eq L _ ht]
  | BranchNode bs bv => simp [Hash, IsEmptyNode, Node.Hash, Serialize_eq L _ ht]
  | ExtensionNode p x => simp [Hash, IsEmptyNode, Node.Hash, Serialize_eq L _ ht]

theorem trie_hash_eq (L : Lib) (t : Trie) (ht : t.root.Inv) :
    t.Hash L = .ok (L.Keccak256 (L.EncodeToBytes (t.root.rawT L))) := by
  have h := Hash_eq L t.root ht
  simpa [Trie.Hash, Hash] using h

theorem get_found_iff (t : Node) (n : List Nibble) :
    (t.get n).2 = true ↔ t.walkErr n = none := by
  induction t generalizing n with
  | Empty => simp [Node.get, Node.walkErr]
  | LeafNode p v =>
    simp only [Node.get, Node.walkErr]
    split_ifs <;> simp
  | BranchNode bs bv ih =>
    cases n with
    | nil =>
      simp only [Node.get, Node.walkErr]
      split_ifs <;> simp_all
    | cons b r => simpa [Node.get, Node.walkErr] using ih b r
  | ExtensionNode p next ih =>
    simp only [Node.get, Node.walkErr]
    split_ifs
    · simp
    · exact ih _

theorem proofPut_eq (L : Lib) (t : Node) (db : ProofDB) (ht : t.Inv) :
    proofPut L t db
      = .ok (db.Put (L.Keccak256 (L.EncodeToBytes (t.rawT L))) (L.EncodeToBytes (t.rawT L))) := by
  simp [proofPut, Hash_eq L t ht, Serialize_eq L t ht]

theorem inv_child (bs : Fin 16 → Node) (bv : Value) (h : (Node.BranchNode bs bv).Inv)
    (i : Fin 16) : (bs i).Inv := by
  simp only [Node.Inv] at h
  exact h i

theorem inv_next (p : List Nibble) (next : Node) (h : (Node.ExtensionNode p next).Inv) :
    next.Inv := by
  simp only [Node.Inv] at h
  exact h.2.2

theorem createProof_err (L : Lib) (t : Node) (n : List Nibble) (acc : List (List Byte))
    (kn : List Nibble) (ht : t.Inv) : (t.createProof L n acc kn).2.2 = t.walkErr n := by
  induction t generalizing n acc with
  | Empty => simp [Node.createProof, Node.walkErr]
  | LeafNode p v =>
    simp only [Node.createProof, Node.walkErr, Serialize_eq L _ ht]
    split_ifs <;> rfl
  | BranchNode bs bv ih =>
    cases n with
    | nil =>
      simp only [Node.createProof, Node.walkErr, Serialize_eq L _ ht]
      cases hv : HasValue bv <;> simp
    | cons b r =>
      simp only [Node.createProof, Node.walkErr, Serialize_eq L _ ht]
      exact ih b r _ (inv_child bs bv ht b)
  | ExtensionNode p next ih =>
    simp only [Node.createProof, Node.walkErr, Serialize_eq L _ ht]
    split_ifs
    · rfl
    · exact ih _ _ (inv_next p next ht)

theorem createProof_nil (L : Lib) (t : Node) (n : List Nibble) (acc : List (List Byte))
    (kn : List Nibble) (ht : t.Inv) :
    (t.walkErr n = some .emptyNode ∨ t.walkErr n = some .keyNotFound →
      (t.createProof L n acc kn).1 = none ∧ (t.createProof L n acc kn).2.1 = none) ∧
    (t.walkErr n = some .nodeHasNoValue →
      (t.createProof L n acc kn).1 ≠ none ∧ (t.createProof L n acc kn).2.1 ≠ none) := by
  induction t generalizing n acc with
  | Empty => simp [Node.createProof, Node.walkErr]
  | LeafNode p v =>
    simp only [Node.createProof, Node.walkErr, Serialize_eq L _ ht]
    split_ifs <;> simp
  | BranchNode bs bv ih =>
    cases n with
    | nil =>
      simp only [Node.createProof, Node.walkErr, Serialize_eq L _ ht]
      cases hv : HasValue bv <;> simp
    | cons b r =>
      simp only [Node.createProof, Node.walkErr, Serialize_eq L _ ht]
      exact ih b r _ (inv_child bs bv ht b)
  | ExtensionNode p next ih =>
    simp only [Node.createProof, Node.walkErr, Serialize_eq L _ ht]
    split_ifs
    · simp
    · exact ih _ _ (inv_next p next ht)

theorem prove_err (L : Lib) (t : Node) (n : List Nibble) (db : ProofDB) (ht : t.Inv) :
    (t.prove L n db).2 = t.walkErr n := by
  induction t generalizing n db with
  | Empty => simp [Node.prove, Node.walkErr]
  | LeafNode p v =>
    simp only [Node.prove, Node.walkErr, proofPut_eq L _ _ ht]
    split_ifs <;> rfl
  | BranchNode bs bv ih =>
    cases n with
    | nil =>
      simp only [Node.prove, Node.walkErr, proofPut_eq L _ _ ht]
      cases hv : HasValue bv <;> simp
    | cons b r =>
      simp only [Node.prove, Node.walkErr, proofPut_eq L _ _ ht]
      exact ih b r _ (inv_child bs bv ht b)
  | ExtensionNode p next ih =>
    simp only [Node.prove, Node.walkErr, proofPut_eq L _ _ ht]
    split_ifs
    · rfl
    · exact ih _ _ (inv_next p next ht)

theorem prove_nil (L : Lib) (t : Node) (n : List Nibble) (db : ProofDB) (ht : t.Inv) :
    (t.walkErr n = some .emptyNode ∨ t.walkErr n = some .keyNotFound →
      (t.prove L n db).1 = none) ∧
    (t.walkErr n = some .nodeHasNoValue → (t.prove L n db).1 ≠ none) := by
  induction t generalizing n db with
  | Empty => simp [Node.prove, Node.walkErr]
  | LeafNode p v =>
    simp only [Node.prove, Node.walkErr, proofPut_eq L _ _ ht]
    split_ifs <;> simp
  | BranchNode bs bv ih =>
    cases n with
    | nil =>
      simp only [Node.prove, Node.walkErr, proofPut_eq L _ _ ht]
      cases hv : HasValue bv <;> simp
    | cons b r =>
      simp only [Node.prove, Node.walkErr, proofPut_eq L _ _ ht]
      exact ih b r _ (inv_child bs bv ht b)
  | ExtensionNode p next ih =>
    simp only [Node.prove, Node.walkErr, proofPut_eq L _ _ ht]
    split_ifs
    · simp
    · exact ih _ _ (inv_next p next ht)

theorem walkErr_cases (t : Node) (n : List Nibble) :
    t.walkErr n = none ∨ t.walkErr n = some .emptyNode ∨ t.walkErr n = some .keyNotFound ∨
      t.walkErr n = some .nodeHasNoValue := by
  induction t generalizing n with
  | Empty => simp [Node.walkErr]
  | LeafNode p v =>
    simp only [Node.walkErr]
    split_ifs <;> simp
  | BranchNode bs bv ih =>
    cases n with
    | nil =>
      simp only [Node.walkErr]
      split_ifs <;> simp
    | cons b r => simpa [Node.walkErr] using ih b r
  | ExtensionNode p next ih =>
    simp only [Node.walkErr]
    split_ifs
    · simp
    · exact ih _

theorem createProof_trace (L : Lib) (t : Node) (n : List Nibble) (acc : List (List Byte))
    (kn : List Nibble) (proof : List (List Byte)) (path : Option (List Byte))
    (h : t.createProof L n acc kn = (some proof, path, none)) :
    proof.map Except.ok = acc.map Except.ok ++ (t.visited n).map (Serialize L) := by
  induction t generalizing n acc with
  | Empty => simp [Node.createProof] at h
  | LeafNode p v =>
    simp only [Node.createProof] at h
    split_ifs at h
    · simp at h
    · cases hs : Serialize L (Node.LeafNode p v) with
      | error e => simp [hs] at h
      | ok serial =>
        simp only [hs, Prod.mk.injEq, Option.some.injEq] at h
        simp [← h.1, Node.visited, hs]
  | BranchNode bs bv ih =>
    cases n with
    | nil =>
      simp only [Node.createProof] at h
      cases hs : Serialize L (Node.BranchNode bs bv) with
      | error e => simp [hs] at h
      | ok serial =>
        simp only [hs] at h
        split_ifs at h
        · simp at h
        · simp only [Prod.mk.injEq, Option.some.injEq] at h
          simp [← h.1, Node.visited, hs]
    | cons b r =>
      simp only [Node.createProof] at h
      cases hs : Serialize L (Node.BranchNode bs bv) with
      | error e => simp [hs] at h
      | ok serial =>
        simp only [hs] at h
        rw [ih b r _ h]
        simp [Node.visited, hs]
  | ExtensionNode p next ih =>
    simp only [Node.createProof] at h
    split_ifs at h with hm
    · simp at h
    · cases hs : Serialize L (Node.ExtensionNode p next) with
      | error e => simp [hs] at h
      | ok serial =>
        simp only [hs] at h
        rw [ih _ _ h]
        simp [Node.visited, hs, hm]

theorem createProof_some_of_ok (L : Lib) (t : Node) (n : List Nibble) (acc : List (List Byte))
    (kn : List Nibble) (h : (t.createProof L n acc kn).2.2 = none) :
    (t.createProof L n acc kn).1 ≠ none := by
  induction t generalizing n acc with
  | Empty => simp [Node.createProof] at h
  | LeafNode p v =>
    revert h
    simp only [Node.createProof]
    split_ifs
    · simp
    · cases hs : Serialize L (Node.LeafNode p v) <;> simp
  | BranchNode bs bv ih =>
    cases n with
    | nil =>
      revert h
      simp only [Node.createProof]
      cases hs : Serialize L (Node.BranchNode bs bv) with
      | error e => simp
      | ok serial =>
        simp only []
        split_ifs <;> simp
    | cons b r =>
      revert h
      simp only [Node.createProof]
      cases hs : Serialize L (Node.BranchNode bs bv) with
      | error e => simp
      | ok serial => exact ih b r _
  | ExtensionNode p next ih =>
    revert h
    simp only [Node.createProof]
    split_ifs
    · simp
    · cases hs : Serialize L (Node.ExtensionNode p next) with
      | error e => simp
      | ok serial => exact ih _ _

theorem createProof_ok_shape (L : Lib) (t : Node) (n : List Nibble) (acc : List (List Byte))
    (kn : List Nibble) (h : (t.createProof L n acc kn).2.2 = none) :
    ∃ proof path, t.createProof L n acc kn = (some proof, path, none) := by
  have h1 := createProof_some_of_ok L t n acc kn h
  obtain ⟨proof, hp⟩ := Option.ne_none_iff_exists'.mp h1
  refine ⟨proof, (t.createProof L n acc kn).2.1, ?_⟩
  rw [← hp, ← h]

theorem visited_head (t : Node) (n : List Nibble) (ht : t ≠ .Empty) :
    (t.visited n).head? = some t := by
  cases t with
  | Empty => exact absurd rfl ht
  | LeafNode p v => simp [Node.visited]
  | BranchNode bs bv => cases n <;> simp [Node.visited]
  | ExtensionNode p next =>
    simp only [Node.visited]
    split_ifs <;> simp

/-- C8: proof generation fails exactly when lookup fails. On every trie built from `NewTrie` by
puts and for every key, `CreateProof` returns a non-nil error if and only if `Get` reports
found = false, and so does `Prove`. -/
theorem C8_proof_error_iff_absent (L : Lib) (ops : List (List Byte × Value)) (key : List Byte) :
    (((NewTrie.PutAll ops).CreateProof L key).2.2 ≠ none ↔
      ((NewTrie.PutAll ops).Get key).2 = false) ∧
    (((NewTrie.PutAll ops).Prove L key).2 ≠ none ↔
      ((NewTrie.PutAll ops).Get key).2 = false) := by
  have hinv := PutAll_inv ops
  have hget := get_found_iff (NewTrie.PutAll ops).root (FromBytes key)
  simp only [Trie.CreateProof, Trie.Prove, Trie.Get, createProof_err L _ _ _ _ hinv,
    prove_err L _ _ _ hinv]
  have h : (NewTrie.PutAll ops).root.walkErr (FromBytes key) ≠ none ↔
      ((NewTrie.PutAll ops).root.get (FromBytes key)).2 = false := by
    simp only [ne_eq, ← hget]
    simp
  exact ⟨h, h⟩

/-- C9 fails as stated: after putting the keys `0x1111` and `0x1122`, the key `0x11` is not
found, yet `Prove` and `CreateProof` hand back what they collected along with their error. -/
theorem C9_counterexample :
    ((NewTrie.PutAll [([0x11, 0x11], some [1]), ([0x11, 0x22], some [2])]).Get [0x11]).2 = false ∧
    ∀ L : Lib,
      ((NewTrie.PutAll [([0x11, 0x11], some [1]), ([0x11, 0x22], some [2])]).Prove L [0x11]).1
        ≠ none ∧
      ((NewTrie.PutAll [([0x11, 0x11], some [1]), ([0x11, 0x22], some [2])]).CreateProof L
        [0x11]).1 ≠ none ∧
      ((NewTrie.PutAll [([0x11, 0x11], some [1]), ([0x11, 0x22], some [2])]).CreateProof L
        [0x11]).2.1 ≠ none := by
  refine ⟨by decide, fun L => ?_⟩
  have hinv := PutAll_inv [([0x11, 0x11], some [1]), ([0x11, 0x22], some [2])]
  have hw : (NewTrie.PutAll [([0x11, 0x11], some [1]), ([0x11, 0x22], some [2])]).root.walkErr
      (FromBytes [0x11]) = some .nodeHasNoValue := by decide
  exact ⟨(prove_nil L _ _ _ hinv).2 hw, ((createProof_nil L _ _ _ _ hinv).2 hw).1,
    ((createProof_nil L _ _ _ _ hinv).2 hw).2⟩

/-- C9, amended: on every trie built from `NewTrie` by puts and for every key that `Get` does
not find, `Prove` and `CreateProof` return an error; they return no store and no node list and
key path, unless the error is `node has no value` (the whole key was consumed and the walk
stands on a branch without a value): then what was collected along the walk comes back with
the error. -/
theorem C9_absent_proof (L : Lib) (ops : List (List Byte × Value)) (key : List Byte)
    (habs : ((NewTrie.PutAll ops).Get key).2 = false) :
    ((NewTrie.PutAll ops).Prove L key).2 ≠ none ∧
    ((NewTrie.PutAll ops).CreateProof L key).2.2 ≠ none ∧
    (((NewTrie.PutAll ops).Prove L key).2 ≠ some .nodeHasNoValue →
      ((NewTrie.PutAll ops).Prove L key).1 = none ∧
      ((NewTrie.PutAll ops).CreateProof L key).1 = none ∧
      ((NewTrie.PutAll ops).CreateProof L key).2.1 = none) ∧
    (((NewTrie.PutAll ops).Prove L key).2 = some .nodeHasNoValue →
      ((NewTrie.PutAll ops).Prove L key).1 ≠ none ∧
      ((NewTrie.PutAll ops).CreateProof L key).1 ≠ none ∧
      ((NewTrie.PutAll ops).CreateProof L key).2.1 ≠ none) := by
  have hinv := PutAll_inv ops
  have hget := get_found_iff (NewTrie.PutAll ops).root (FromBytes key)
  simp only [Trie.Get] at habs
  have hne : (NewTrie.PutAll ops).root.walkErr (FromBytes key) ≠ none := by
    intro h
    rw [hget.mpr h] at habs
    exact Bool.noConfusion habs
  simp only [Trie.CreateProof, Trie.Prove, createProof_err L _ _ _ _ hinv,
    prove_err L _ _ _ hinv]
  refine ⟨hne, hne, fun h => ?_, fun h => ?_⟩
  · have hc : (NewTrie.PutAll ops).root.walkErr (FromBytes key) = some .emptyNode ∨
        (NewTrie.PutAll ops).root.walkErr (FromBytes key) = some .keyNotFound := by
      rcases walkErr_cases (NewTrie.PutAll ops).root (FromBytes key) with h1 | h1 | h1 | h1
      · exact absurd h1 hne
      · exact Or.inl h1
      · exact Or.inr h1
      · exact absurd h1 h
    exact ⟨(prove_nil L _ _ _ hinv).1 hc, ((createProof_nil L _ _ _ _ hinv).1 hc).1,
      ((createProof_nil L _ _ _ _ hinv).1 hc).2⟩
  · exact ⟨(prove_nil L _ _ _ hinv).2 h, ((createProof_nil L _ _ _ _ hinv).2 h).1,
      ((createProof_nil L _ _ _ _ hinv).2 h).2⟩

set_option maxRecDepth 100000 in
/-- The key "cat" on the four-key example trie: an error, no store, no list, no path. -/
theorem C9_witness :
    ((NewTrie.PutAll scenarioA).Get [0x63, 0x61, 0x74]).2 = false ∧
    ((NewTrie.PutAll scenarioA).Prove sampleLib [0x63, 0x61, 0x74]).2 ≠ none ∧
    ((NewTrie.PutAll scenarioA).Prove sampleLib [0x63, 0x61, 0x74]).1 = none :=
  ⟨by decide, (C9_absent_proof sampleLib scenarioA [0x63, 0x61, 0x74] (by decide)).1,
    ((C9_absent_proof sampleLib scenarioA [0x63, 0x61, 0x74] (by decide)).2.2.1
      (by rw [Trie.Prove, prove_err _ _ _ _ (PutAll_inv _)]; decide)).1⟩

/-- C10: trace proof content. On every trie and for every key for which `CreateProof` returns
no error, the returned list is the serializations of the nodes that `Get` visits, in the order
of the walk and with the terminal node; its first entry is `Serialize(root)` and its length is
the number of nodes on the lookup path. -/
theorem C10_trace_content (L : Lib) (t : Trie) (key : List Byte)
    (hok : (t.CreateProof L key).2.2 = none) :
    ∃ proof : List (List Byte),
      (t.CreateProof L key).1 = some proof ∧
      proof.map Except.ok = (t.root.visited (FromBytes key)).map (Serialize L) ∧
      proof.head?.map Except.ok = some (Serialize L t.root) ∧
      proof.length = (t.root.visited (FromBytes key)).length := by
  obtain ⟨proof, path, h⟩ := createProof_ok_shape L t.root (FromBytes key) [] (FromBytes key) hok
  have htr := createProof_trace L t.root (FromBytes key) [] (FromBytes key) proof path h
  simp only [List.map_nil, List.nil_append] at htr
  have hne : t.root ≠ .Empty := by
    intro he
    simp [Trie.CreateProof, he, Node.createProof] at hok
  refine ⟨proof, ?_, htr, ?_, ?_⟩
  · simp only [Trie.CreateProof]
    rw [h]
  · have h1 : (proof.map Except.ok).head? = ((t.root.visited (FromBytes key)).map (Serialize L)).head? := by
      rw [htr]
    simpa [List.head?_map, visited_head t.root _ hne] using h1
  · have h1 := congrArg List.length htr
    simpa using h1

set_option maxRecDepth 100000 in
/-- The key "dog" on the four-key example trie: six nodes lie on its lookup path. -/
theorem C10_witness :
    ((NewTrie.PutAll scenarioA).CreateProof sampleLib [0x64, 0x6f, 0x67]).2.2 = none ∧
    ∃ proof : List (List Byte),
      ((NewTrie.PutAll scenarioA).CreateProof sampleLib [0x64, 0x6f, 0x67]).1 = some proof ∧
      proof.map Except.ok
        = ((NewTrie.PutAll scenarioA).root.visited (FromBytes [0x64, 0x6f, 0x67])).map
            (Serialize sampleLib) ∧
      proof.head?.map Except.ok = some (Serialize sampleLib (NewTrie.PutAll scenarioA).root) ∧
      proof.length = ((NewTrie.PutAll scenarioA).root.visited (FromBytes [0x64, 0x6f, 0x67])).length :=
  ⟨by rw [Trie.CreateProof, createProof_err _ _ _ _ _ (PutAll_inv _)]; decide,
    C10_trace_content sampleLib (NewTrie.PutAll scenarioA) [0x64, 0x6f, 0x67]
      (by rw [Trie.CreateProof, createProof_err _ _ _ _ _ (PutAll_inv _)]; decide)⟩

theorem sampleParseBytes_encode (b rest : List Byte) :
    sampleParseBytes (sampleEncodeBytes b ++ rest) = some (b, rest) := by
  induction b with
  | nil =>
    cases rest with
    | nil => simp [sampleEncodeBytes, sampleParseBytes]
    | cons x xs => simp [sampleEncodeBytes, sampleParseBytes]
  | cons x xs ih =>
    simp [sampleEncodeBytes, sampleParseBytes, ih]

mutual
theorem sampleParse_encode : ∀ (r : RLP) (rest : List Byte) (fuel : Nat),
    (sampleEncode r).length ≤ fuel → sampleParse fuel (sampleEncode r ++ rest) = some (r, rest)
  | .bytes b, rest, fuel, h => by
    cases fuel with
    | zero => simp [sampleEncode] at h
    | succ f => simp [sampleEncode, sampleParse, sampleParseBytes_encode]
  | .list items, rest, fuel, h => by
    cases fuel with
    | zero => simp [sampleEncode] at h
    | succ f =>
      have h2 : (sampleEncodeList items).length ≤ f := by
        simp [sampleEncode] at h
        omega
      simp [sampleEncode, sampleParse, sampleParseList_encode items rest f h2]
theorem sampleParseList_encode : ∀ (xs : List RLP) (rest : List Byte) (fuel : Nat),
    (sampleEncodeList xs).length ≤ fuel →
      sampleParseList fuel (sampleEncodeList xs ++ rest) = some (xs, rest)
  | [], rest, fuel, h => by
    cases fuel with
    | zero => simp [sampleEncodeList] at h
    | succ f => simp [sampleEncodeList, sampleParseList]
  | x :: xs, rest, fuel, h => by
    cases fuel with
    | zero => simp [sampleEncodeList] at h
    | succ f =>
      have h1 : (sampleEncode x).length ≤ f := by
        simp [sampleEncodeList] at h
        omega
      have h2 : (sampleEncodeList xs).length ≤ f := by
        simp [sampleEncodeList] at h
        omega
      simp [sampleEncodeList, sampleParseList,
        sampleParse_encode x (sampleEncodeList xs ++ rest) f h1,
        sampleParseList_encode xs rest f h2]
end

theorem sampleDecode_encode (r : RLP) : sampleDecode (sampleEncode r) = some r := by
  have h := sampleParse_encode r [] ((sampleEncode r).length + 1) (by omega)
  simp only [List.append_nil] at h
  simp [sampleDecode, h]

theorem sampleEncode_injective : Function.Injective sampleEncode := by
  intro a b h
  have ha := sampleDecode_encode a
  rw [h, sampleDecode_encode b] at ha
  exact (Option.some.inj ha).symm

theorem sampleLib_keccak_injective : Function.Injective sampleLib.Keccak256 := by
  intro a b h
  simpa [sampleLib] using h

theorem ToBytes_injective : ∀ (l1 l2 : List Nibble), l1.length % 2 = 0 → l2.length % 2 = 0 →
    ToBytes l1 = ToBytes l2 → l1 = l2
  | [], [], _, _, _ => rfl
  | [], [_], _, h2, _ => by simp at h2
  | [], _ :: _ :: _, _, _, h => by simp [ToBytes] at h
  | [_], _, h1, _, _ => by simp at h1
  | _ :: _ :: _, [], _, _, h => by simp [ToBytes] at h
  | _ :: _ :: _, [_], _, h2, _ => by simp at h2
  | a :: b :: r1, c :: d :: r2, h1, h2, h => by
    simp only [ToBytes, List.cons.injEq, Fin.mk.injEq] at h
    have hr := ToBytes_injective r1 r2 (by simp at h1; omega) (by simp at h2; omega) h.2
    have ha := a.isLt
    have hb := b.isLt
    have hc := c.isLt
    have hd := d.isLt
    have hac : a = c := Fin.ext (by omega)
    have hbd : b = d := Fin.ext (by omega)
    rw [hac, hbd, hr]

theorem ToPrefixed_even (p : List Nibble) (f : Bool) : (ToPrefixed p f).length % 2 = 0 := by
  simp only [ToPrefixed]
  split_ifs <;> simp <;> omega

theorem ToPrefixed_injective (p1 p2 : List Nibble) (f1 f2 : Bool)
    (h : ToPrefixed p1 f1 = ToPrefixed p2 f2) : p1 = p2 ∧ f1 = f2 := by
  rcases Nat.mod_two_eq_zero_or_one p1.length with e1 | e1 <;>
    rcases Nat.mod_two_eq_zero_or_one p2.length with e2 | e2 <;>
    cases f1 <;> cases f2 <;>
    simp [ToPrefixed, e1, e2] at h <;>
    exact ⟨h, rfl⟩

theorem hp_injective (p1 p2 : List Nibble) (f1 f2 : Bool)
    (h : ToBytes (ToPrefixed p1 f1) = ToBytes (ToPrefixed p2 f2)) : p1 = p2 ∧ f1 = f2 :=
  ToPrefixed_injective p1 p2 f1 f2
    (ToBytes_injective _ _ (ToPrefixed_even p1 f1) (ToPrefixed_even p2 f2) h)

theorem valuesOk_update (bs : Fin 16 → Node) (a : Nibble) (x : Node)
    (hbs : ∀ i, (bs i).ValuesOk) (hx : x.ValuesOk) :
    ∀ i, (Function.update bs a x i).ValuesOk := by
  intro i
  by_cases hi : i = a
  · subst hi
    simpa using hx
  · simpa [Function.update_noteq hi] using hbs i

theorem prepend_valuesOk (a : Nibble) (t : Node) (ht : t.ValuesOk) :
    (t.prepend a).ValuesOk := by
  cases t <;> simp_all [Node.prepend, Node.ValuesOk]

theorem leafPut_valuesOk (p : List Nibble) (old : Value) (n : List Nibble) (v : Value)
    (hold : old.getD [] ≠ []) (hv : v.getD [] ≠ []) : (leafPut p old n v).ValuesOk := by
  induction p generalizing n with
  | nil =>
    cases n with
    | nil => simpa [leafPut, Node.ValuesOk] using hv
    | cons b r =>
      simp only [leafPut, NewBranchNode, Node.SetValue, Node.SetBranch, Node.ValuesOk]
      exact ⟨fun _ => hold,
        valuesOk_update _ _ _ (fun _ => by simp [Node.ValuesOk]) (by simpa [Node.ValuesOk] using hv)⟩
  | cons a q ih =>
    cases n with
    | nil =>
      simp only [leafPut, NewBranchNode, Node.SetValue, Node.SetBranch, Node.ValuesOk]
      exact ⟨fun _ => hv,
        valuesOk_update _ _ _ (fun _ => by simp [Node.ValuesOk])
          (by simpa [Node.ValuesOk] using hold)⟩
    | cons b r =>
      by_cases hab : a = b
      · simpa [leafPut, hab] using prepend_valuesOk b _ (ih r)
      · simp only [leafPut, hab, if_false, NewBranchNode, Node.SetBranch, Node.ValuesOk]
        exact ⟨fun h => absurd rfl h,
          valuesOk_update _ _ _
            (valuesOk_update _ _ _ (fun _ => by simp [Node.ValuesOk])
              (by simpa [Node.ValuesOk] using hold))
            (by simpa [Node.ValuesOk] using hv)⟩

theorem extTail_valuesOk (q : List Nibble) (next : Node) (hn : next.ValuesOk) :
    (extTail q next).ValuesOk := by
  cases q with
  | nil => simpa [extTail] using hn
  | cons a q => simpa [extTail, Node.ValuesOk] using hn

theorem extPut_valuesOk (next : Node) (k : List Nibble → Node) (p n : List Nibble) (v : Value)
    (hn : next.ValuesOk) (hv : v.getD [] ≠ []) (hk : ∀ r, (k r).ValuesOk) :
    (extPut next k p n v).ValuesOk := by
  induction p generalizing n with
  | nil => simpa [extPut, Node.ValuesOk] using hk n
  | cons a q ih =>
    cases n with
    | nil =>
      simp only [extPut, NewBranchNode, Node.SetValue, Node.SetBranch, Node.ValuesOk]
      exact ⟨fun _ => hv,
        valuesOk_update _ _ _ (fun _ => by simp [Node.ValuesOk]) (extTail_valuesOk q next hn)⟩
    | cons b r =>
      by_cases hab : a = b
      · simpa [extPut, hab] using prepend_valuesOk b _ (ih r)
      · simp only [extPut, hab, if_false, NewBranchNode, Node.SetBranch, Node.ValuesOk]
        exact ⟨fun h => absurd rfl h,
          valuesOk_update _ _ _
            (valuesOk_update _ _ _ (fun _ => by simp [Node.ValuesOk])
              (extTail_valuesOk q next hn))
            (by simpa [Node.ValuesOk] using hv)⟩

theorem putT_valuesOk (t : Node) (n : List Nibble) (v : Value) (ht : t.ValuesOk)
    (hv : v.getD [] ≠ []) : (t.putT n v).ValuesOk := by
  induction t generalizing n with
  | Empty => simpa [Node.putT, Node.ValuesOk] using hv
  | LeafNode p old =>
    simp only [Node.ValuesOk] at ht
    simpa [Node.putT] using leafPut_valuesOk p old n v ht hv
  | BranchNode bs bv ih =>
    simp only [Node.ValuesOk] at ht
    cases n with
    | nil =>
      simp only [Node.putT, Node.ValuesOk]
      exact ⟨fun _ => hv, ht.2⟩
    | cons b r =>
      simp only [Node.putT, Node.ValuesOk]
      exact ⟨ht.1, valuesOk_update _ _ _ ht.2 (ih b r (ht.2 b))⟩
  | ExtensionNode p next ih =>
    simp only [Node.ValuesOk] at ht
    simp only [Node.putT]
    exact extPut_valuesOk next _ p n v ht hv (fun r => ih r ht)

theorem PutAll_valuesOk (ops : List (List Byte × Value))
    (h : ∀ kv ∈ ops, kv.2.getD [] ≠ []) : (NewTrie.PutAll ops).root.ValuesOk := by
  induction ops using List.reverseRecOn with
  | nil => simp [Trie.PutAll, NewTrie, Node.ValuesOk]
  | append_singleton ops kv ih =>
    rw [putAll_snoc, trie_put_eq]
    exact putT_valuesOk _ _ _ (ih (fun x hx => h x (by simp [hx]))) (h kv (by simp))

theorem rawT_list (L : Lib) (t : Node) (ht : t ≠ .Empty) : ∃ items, t.rawT L = .list items := by
  cases t with
  | Empty => exact absurd rfl ht
  | LeafNode p v => exact ⟨_, rfl⟩
  | BranchNode bs bv => exact ⟨_, rfl⟩
  | ExtensionNode p x => exact ⟨_, rfl⟩

theorem refT_ne_empty (L : Lib) (hd : ∀ x, L.Keccak256 x ≠ []) (items : List RLP) :
    refT L (.list items) ≠ .bytes [] := by
  simp only [refT]
  split_ifs
  · intro h
    exact hd _ (RLP.bytes.inj h)
  · intro h
    cases h

theorem refT_inj (L : Lib) (hk : Function.Injective L.Keccak256)
    (he : Function.Injective L.EncodeToBytes) (i1 i2 : List RLP)
    (h : refT L (.list i1) = refT L (.list i2)) : RLP.list i1 = RLP.list i2 := by
  simp only [refT] at h
  split_ifs at h <;>
    first
      | exact h
      | exact he (hk (RLP.bytes.inj h))

theorem getD_eq_of_ok (v1 v2 : Value) (h1 : v1 ≠ none → v1.getD [] ≠ [])
    (h2 : v2 ≠ none → v2.getD [] ≠ []) (h : v1.getD [] = v2.getD []) : v1 = v2 := by
  cases v1 with
  | none =>
    cases v2 with
    | none => rfl
    | some y =>
      exfalso
      exact h2 (by simp) (by simpa using h.symm)
  | some x =>
    cases v2 with
    | none =>
      exfalso
      exact h1 (by simp) (by simpa using h)
    | some y => simpa using h

theorem isEmptyNode_iff (t : Node) : IsEmptyNode t = true ↔ t = .Empty := by
  cases t <;> simp [IsEmptyNode]

theorem rawT_injective (L : Lib) (hk : Function.Injective L.Keccak256)
    (he : Function.Injective L.EncodeToBytes) (hd : ∀ x, L.Keccak256 x ≠ [])
    (t1 t2 : Node) (hi1 : t1.Inv) (hi2 : t2.Inv) (hv1 : t1.ValuesOk) (hv2 : t2.ValuesOk)
    (h : t1.rawT L = t2.rawT L) : t1 = t2 := by
  induction t1 generalizing t2 with
  | Empty =>
    cases t2 with
    | Empty => rfl
    | _ => simp [Node.rawT, EmptyNodeRaw] at h
  | LeafNode p v =>
    cases t2 with
    | Empty => simp [Node.rawT, EmptyNodeRaw] at h
    | LeafNode p2 v2 =>
      simp only [Node.rawT, RLP.list.injEq, List.cons.injEq, RLP.bytes.injEq, and_true] at h
      simp only [Node.ValuesOk] at hv1 hv2
      have hp := (hp_injective _ _ _ _ h.1).1
      have hvv := getD_eq_of_ok v v2 (fun _ => hv1) (fun _ => hv2) h.2
      rw [hp, hvv]
    | BranchNode bs2 bv2 =>
      exfalso
      have hl := congrArg (fun r => match r with | RLP.list l => l.length | _ => 0) h
      simp [Node.rawT] at hl
    | ExtensionNode p2 x2 =>
      exfalso
      simp only [Node.rawT, RLP.list.injEq, List.cons.injEq, RLP.bytes.injEq, and_true] at h
      have := (hp_injective _ _ _ _ h.1).2
      exact Bool.noConfusion this
  | BranchNode bs bv ih =>
    cases t2 with
    | Empty => simp [Node.rawT, EmptyNodeRaw] at h
    | LeafNode p2 v2 =>
      exfalso
      have hl := congrArg (fun r => match r with | RLP.list l => l.length | _ => 0) h
      simp [Node.rawT] at hl
    | BranchNode bs2 bv2 =>
      simp only [Node.rawT, RLP.list.injEq] at h
      have hlen : ((List.finRange 16).map (fun i => if IsEmptyNode (bs i) then EmptyNodeRaw
          else refT L ((bs i).rawT L))).length
          = ((List.finRange 16).map (fun i => if IsEmptyNode (bs2 i) then EmptyNodeRaw
          else refT L ((bs2 i).rawT L))).length := by
        simp
      obtain ⟨hm, hlast⟩ := List.append_inj h hlen
      simp only [Node.Inv] at hi1 hi2
      simp only [Node.ValuesOk] at hv1 hv2
      have hbs : bs = bs2 := by
        funext i
        have hi := (List.map_inj_left.mp hm) i (List.mem_finRange i)
        simp only at hi
        by_cases e1 : bs i = .Empty
        · by_cases e2 : bs2 i = .Empty
          · rw [e1, e2]
          · exfalso
            obtain ⟨items, hit⟩ := rawT_list L (bs2 i) e2
            have n2 : IsEmptyNode (bs2 i) = false := by
              cases hb : IsEmptyNode (bs2 i)
              · rfl
              · exact absurd ((isEmptyNode_iff _).mp hb) e2
            simp only [e1, IsEmptyNode, if_true, n2, Bool.false_eq_true, if_false, hit] at hi
            exact refT_ne_empty L hd items hi.symm
        · obtain ⟨items, hit⟩ := rawT_list L (bs i) e1
          have n1 : IsEmptyNode (bs i) = false := by
            cases hb : IsEmptyNode (bs i)
            · rfl
            · exact absurd ((isEmptyNode_iff _).mp hb) e1
          by_cases e2 : bs2 i = .Empty
          · exfalso
            simp only [e2, IsEmptyNode, if_true, n1, Bool.false_eq_true, if_false, hit] at hi
            exact refT_ne_empty L hd items hi
          · obtain ⟨items2, hit2⟩ := rawT_list L (bs2 i) e2
            have n2 : IsEmptyNode (bs2 i) = false := by
              cases hb : IsEmptyNode (bs2 i)
              · rfl
              · exact absurd ((isEmptyNode_iff _).mp hb) e2
            simp only [n1, n2, Bool.false_eq_true, if_false, hit, hit2] at hi
            have hr := refT_inj L hk he items items2 hi
            rw [← hit, ← hit2] at hr
            exact ih i (bs2 i) (hi1 i) (hi2 i) (hv1.2 i) (hv2.2 i) hr
      have hvv : bv = bv2 := by
        simp only [List.cons.injEq, RLP.bytes.injEq, and_true] at hlast
        exact getD_eq_of_ok bv bv2 hv1.1 hv2.1 hlast
      rw [hbs, hvv]
    | ExtensionNode p2 x2 =>
      exfalso
      have hl := congrArg (fun r => match r with | RLP.list l => l.length | _ => 0) h
      simp [Node.rawT] at hl
  | ExtensionNode p x ih =>
    cases t2 with
    | Empty => simp [Node.rawT, EmptyNodeRaw] at h
    | LeafNode p2 v2 =>
      exfalso
      simp only [Node.rawT, RLP.list.injEq, List.cons.injEq, RLP.bytes.injEq, and_true] at h
      have := (hp_injective _ _ _ _ h.1).2
      exact Bool.noConfusion this
    | BranchNode bs2 bv2 =>
      exfalso
      have hl := congrArg (fun r => match r with | RLP.list l => l.length | _ => 0) h
      simp [Node.rawT] at hl
    | ExtensionNode p2 x2 =>
      simp only [Node.rawT, RLP.list.injEq, List.cons.injEq, RLP.bytes.injEq, and_true] at h
      simp only [Node.Inv] at hi1 hi2
      simp only [Node.ValuesOk] at hv1 hv2
      have hp := (hp_injective _ _ _ _ h.1).1
      obtain ⟨items, hit⟩ := rawT_list L x (isBranch_ne_empty _ hi1.2.1)
      obtain ⟨items2, hit2⟩ := rawT_list L x2 (isBranch_ne_empty _ hi2.2.1)
      have h2 := h.2
      rw [hit, hit2] at h2
      have hr := refT_inj L hk he items items2 h2
      rw [← hit, ← hit2] at hr
      rw [hp, ih x2 hi1.2.2 hi2.2.2 hv1 hv2 hr]

/-- C5 fails as stated: "ab" and "ap" are put into two tries and the empty, non-nil value is put
for "a" into the first one only. The two tries have the same `Hash()` result whatever the hash
function and the encoding are (the encoding sees a nil value and an empty one alike), and
`Get("a")` finds a value in the first trie and none in the second. Injective instances of the
two library functions exist. -/
theorem C5_counterexample :
    (NewTrie.PutAll
        [([0x61, 0x62], some [0x79]), ([0x61, 0x70], some [0x7a]), ([0x61], some [])]).Get [0x61]
      ≠ (NewTrie.PutAll [([0x61, 0x62], some [0x79]), ([0x61, 0x70], some [0x7a])]).Get [0x61] ∧
    (∀ L : Lib,
      (NewTrie.PutAll
        [([0x61, 0x62], some [0x79]), ([0x61, 0x70], some [0x7a]), ([0x61], some [])]).Hash L
      = (NewTrie.PutAll [([0x61, 0x62], some [0x79]), ([0x61, 0x70], some [0x7a])]).Hash L) ∧
    Function.Injective sampleLib.Keccak256 ∧ Function.Injective sampleLib.EncodeToBytes := by
  refine ⟨by decide, fun L => ?_, sampleLib_keccak_injective, sampleEncode_injective⟩
  rw [trie_hash_eq L _ (PutAll_inv _), trie_hash_eq L _ (PutAll_inv _)]
  rfl

/-- C5, amended: the root digest commits to the key-value set when no value is empty. Assume
that the hash function and the canonical encoding are injective and that a digest is never the
empty byte string. Then two tries built from `NewTrie` by puts of values of at least one byte
that have the same `Hash()` result are the same node tree, so `Get` returns the same result on
both for every key. -/
theorem C5_hash_commits (L : Lib) (hk : Function.Injective L.Keccak256)
    (he : Function.Injective L.EncodeToBytes) (hd : ∀ x, L.Keccak256 x ≠ [])
    (ops1 ops2 : List (List Byte × Value))
    (h1 : ∀ kv ∈ ops1, kv.2.getD [] ≠ []) (h2 : ∀ kv ∈ ops2, kv.2.getD [] ≠ [])
    (hh : (NewTrie.PutAll ops1).Hash L = (NewTrie.PutAll ops2).Hash L) :
    NewTrie.PutAll ops1 = NewTrie.PutAll ops2 ∧
    ∀ key : List Byte, (NewTrie.PutAll ops1).Get key = (NewTrie.PutAll ops2).Get key := by
  rw [trie_hash_eq L _ (PutAll_inv _), trie_hash_eq L _ (PutAll_inv _)] at hh
  have hraw := he (hk (Except.ok.inj hh))
  have hroot := rawT_injective L hk he hd _ _ (PutAll_inv ops1) (PutAll_inv ops2)
    (PutAll_valuesOk ops1 h1) (PutAll_valuesOk ops2 h2) hraw
  have ht : NewTrie.PutAll ops1 = NewTrie.PutAll ops2 := by
    cases hA : NewTrie.PutAll ops1
    cases hB : NewTrie.PutAll ops2
    rw [hA, hB] at hroot
    simp only at hroot
    rw [hroot]
  exact ⟨ht, fun key => by rw [ht]⟩

/-- The four-key example put in the given order and in the reverse order, under the sample
library instance. -/
theorem C5_witness :
    (NewTrie.PutAll scenarioA).Hash sampleLib = (NewTrie.PutAll scenarioA.reverse).Hash sampleLib ∧
    ∀ key : List Byte,
      (NewTrie.PutAll scenarioA).Get key = (NewTrie.PutAll scenarioA.reverse).Get key :=
  ⟨congrArg (Trie.Hash sampleLib) (putAll_perm _ _ (by decide) (by decide) NewTrie),
    (C5_hash_commits sampleLib sampleLib_keccak_injective sampleEncode_injective
      (fun x => by simp [sampleLib]) scenarioA scenarioA.reverse (by decide) (by decide)
      (congrArg (Trie.Hash sampleLib) (putAll_perm _ _ (by decide) (by decide) NewTrie))).2⟩

theorem FromBytes_ToBytes : ∀ l : List Nibble, l.length % 2 = 0 → FromBytes (ToBytes l) = l
  | [], _ => rfl
  | [_], h => by simp at h
  | a :: b :: r, h => by
    have ih := FromBytes_ToBytes r (by simp at h; omega)
    have ha := a.isLt
    have hb := b.isLt
    simp only [ToBytes, FromBytes, ih, List.cons.injEq, and_true]
    constructor
    · apply Fin.ext
      simp only
      omega
    · apply Fin.ext
      simp only
      omega

theorem FromPrefixedBytes_enc (p : List Nibble) (f : Bool) :
    FromPrefixedBytes (ToBytes (ToPrefixed p f)) = some (p, f) := by
  simp only [FromPrefixedBytes, FromBytes_ToBytes _ (ToPrefixed_even p f)]
  rcases Nat.mod_two_eq_zero_or_one p.length with e | e <;> cases f <;>
    simp [ToPrefixed, e]
  rfl

theorem classify_leaf (p : List Nibble) (v : List Byte) :
    classify (.list [.bytes (ToBytes (ToPrefixed p true)), .bytes v]) = some (.leaf p v) := by
  simp [classify, FromPrefixedBytes_enc]

theorem classify_ext (p : List Nibble) (x : RLP) :
    classify (.list [.bytes (ToBytes (ToPrefixed p false)), x]) = some (.ext p x) := by
  simp [classify, FromPrefixedBytes_enc]

theorem finRange_sixteen :
    List.finRange 16 = [0, 1, 2, 3, 4, 5, 6, 7, 8, 9, 10, 11, 12, 13, 14, 15] := by
  decide

theorem classify_branch (f : Fin 16 → RLP) (v : List Byte) :
    classify (.list ((List.finRange 16).map f ++ [.bytes v]))
      = some (.branch ((List.finRange 16).map f) v) := by
  rw [finRange_sixteen]
  rfl

theorem getD_finRange_map (f : Fin 16 → RLP) (b : Fin 16) (d : RLP) :
    ((List.finRange 16).map f).getD b.val d = f b := by
  have hb : b.val < ((List.finRange 16).map f).length := by simp
  rw [List.getD_eq_getElem _ _ hb]
  simp

theorem lookup_filter_ne (l : List (List Byte × List Byte)) (h k : List Byte) (hne : k ≠ h) :
    (l.filter (fun e => decide (e.1 ≠ h))).lookup k = l.lookup k := by
  induction l with
  | nil => rfl
  | cons e l ih =>
    obtain ⟨a, b⟩ := e
    by_cases ha : a = h
    · subst ha
      have hka : (k == a) = false := by simpa using hne
      simpa [List.filter_cons, List.lookup_cons, hka] using ih
    · by_cases hk : k = a
      · subst hk
        simp [List.filter_cons, List.lookup_cons, ha]
      · have hka : (k == a) = false := by simpa using hk
        simpa [List.filter_cons, List.lookup_cons, ha, hka] using ih

theorem get_put_same (db : ProofDB) (h s : List Byte) : (db.Put h s).Get h = .ok s := by
  simp [ProofDB.Put, ProofDB.Get, List.lookup_cons]

theorem get_put_other (db : ProofDB) (h s k : List Byte) (hne : k ≠ h) :
    (db.Put h s).Get k = db.Get k := by
  have hk : (k == h) = false := by simpa using hne
  have hl := lookup_filter_ne db.kv h k hne
  simp only [ProofDB.Put, ProofDB.Get, List.lookup_cons, hk, hl]

theorem consistent_new (L : Lib) : NewProofDB.Consistent L := by
  intro h s hh
  simp [NewProofDB, ProofDB.Get] at hh

theorem consistent_put (L : Lib) (db : ProofDB) (s : List Byte) (hc : db.Consistent L) :
    (db.Put (L.Keccak256 s) s).Consistent L := by
  intro h s2 hh
  by_cases hk : h = L.Keccak256 s
  · subst hk
    rw [get_put_same] at hh
    rw [Except.ok.inj hh]
  · rw [get_put_other _ _ _ _ hk] at hh
    exact hc h s2 hh

theorem keep_put (L : Lib) (hk : Function.Injective L.Keccak256) (db : ProofDB) (s : List Byte)
    (hc : db.Consistent L) (h s2 : List Byte) (hh : db.Get h = .ok s2) :
    (db.Put (L.Keccak256 s) s).Get h = .ok s2 := by
  by_cases he : h = L.Keccak256 s
  · have h2 := hc h s2 hh
    rw [he] at h2
    rw [he, get_put_same, hk h2]
  · rw [get_put_other _ _ _ _ he]
    exact hh

theorem prove_store (L : Lib) (hk : Function.Injective L.Keccak256) (t : Node)
    (n : List Nibble) (db db2 : ProofDB) (e : Option Err) (ht : t.Inv)
    (hc : db.Consistent L) (hp : t.prove L n db = (some db2, e)) :
    db2.Consistent L ∧ (∀ h s, db.Get h = .ok s → db2.Get h = .ok s) ∧
      ∀ m ∈ t.visited n, db2.Get (hashT L m) = .ok (serT L m) := by
  induction t generalizing n db with
  | Empty => simp [Node.prove] at hp
  | LeafNode p v =>
    simp only [Node.prove, proofPut_eq L _ _ ht] at hp
    split_ifs at hp
    · simp at hp
    · simp only [Prod.mk.injEq, Option.some.injEq] at hp
      rw [← hp.1]
      refine ⟨consistent_put L db _ hc, fun h s hh => keep_put L hk db _ hc h s hh, ?_⟩
      intro m hm
      simp only [Node.visited, List.mem_singleton] at hm
      rw [hm]
      exact get_put_same _ _ _
  | BranchNode bs bv ih =>
    cases n with
    | nil =>
      simp only [Node.prove, proofPut_eq L _ _ ht] at hp
      have hdb : db2 = db.Put (L.Keccak256 (L.EncodeToBytes ((Node.BranchNode bs bv).rawT L)))
          (L.EncodeToBytes ((Node.BranchNode bs bv).rawT L)) := by
        split_ifs at hp <;> simp only [Prod.mk.injEq, Option.some.injEq] at hp <;> exact hp.1.symm
      rw [hdb]
      refine ⟨consistent_put L db _ hc, fun h s hh => keep_put L hk db _ hc h s hh, ?_⟩
      intro m hm
      simp only [Node.visited, List.mem_singleton] at hm
      rw [hm]
      exact get_put_same _ _ _
    | cons b r =>
      simp only [Node.prove, proofPut_eq L _ _ ht] at hp
      obtain ⟨h1, h2, h3⟩ := ih b r _ (inv_child bs bv ht b) (consistent_put L db _ hc) hp
      refine ⟨h1, fun h s hh => h2 h s (keep_put L hk db _ hc h s hh), ?_⟩
      intro m hm
      simp only [Node.visited, List.mem_cons] at hm
      rcases hm with hm | hm
      · rw [hm]
        exact h2 _ _ (get_put_same _ _ _)
      · exact h3 m hm
  | ExtensionNode p next ih =>
    simp only [Node.prove, proofPut_eq L _ _ ht] at hp
    split_ifs at hp with hm
    · simp at hp
    · obtain ⟨h1, h2, h3⟩ := ih _ _ (inv_next p next ht) (consistent_put L db _ hc) hp
      refine ⟨h1, fun h s hh => h2 h s (keep_put L hk db _ hc h s hh), ?_⟩
      intro m hmem
      simp only [Node.visited, hm, if_false, List.mem_cons] at hmem
      rcases hmem with hmem | hmem
      · rw [hmem]
        exact h2 _ _ (get_put_same _ _ _)
      · exact h3 m hmem

theorem prove_ok_shape (L : Lib) (t : Node) (n : List Nibble) (db : ProofDB) (ht : t.Inv)
    (hw : t.walkErr n = none) : ∃ db2, t.prove L n db = (some db2, none) := by
  induction t generalizing n db with
  | Empty => simp [Node.walkErr] at hw
  | LeafNode p v =>
    simp only [Node.walkErr] at hw
    simp only [Node.prove, proofPut_eq L _ _ ht]
    split_ifs at hw ⊢
    exact ⟨_, rfl⟩
  | BranchNode bs bv ih =>
    cases n with
    | nil =>
      simp only [Node.walkErr] at hw
      simp only [Node.prove, proofPut_eq L _ _ ht]
      split_ifs at hw ⊢
      exact ⟨_, rfl⟩
    | cons b r =>
      simp only [Node.walkErr] at hw
      simp only [Node.prove, proofPut_eq L _ _ ht]
      exact ih b r _ (inv_child bs bv ht b) hw
  | ExtensionNode p next ih =>
    simp only [Node.walkErr] at hw
    simp only [Node.prove, proofPut_eq L _ _ ht]
    split_ifs at hw ⊢
    exact ih _ _ (inv_next p next ht) hw

theorem visited_bound (t : Node) (n : List Nibble) (ht : t.Inv) (hw : t.walkErr n = none) :
    (t.visited n).length ≤ n.length + 1 := by
  induction t generalizing n with
  | Empty => simp [Node.visited]
  | LeafNode p v => simp [Node.visited]
  | BranchNode bs bv ih =>
    cases n with
    | nil => simp [Node.visited]
    | cons b r =>
      simp only [Node.walkErr] at hw
      have := ih b r (inv_child bs bv ht b) hw
      simp only [Node.visited, List.length_cons]
      omega
  | ExtensionNode p next ih =>
    simp only [Node.walkErr] at hw
    split_ifs at hw with hm
    have h1 := ih _ (inv_next p next ht) hw
    simp only [Node.Inv] at ht
    have hp : 0 < p.length := List.length_pos.mpr ht.1
    have h2 := pml_le_left p n
    have h3 := pml_le_right p n
    simp only [Node.visited, hm, if_false, List.length_cons]
    simp only [List.length_drop] at h1
    omega

theorem resolve_hash (L : Lib) (hd : ∀ x, L.Keccak256 x ≠ [])
    (hdec : ∀ r, L.DecodeBytes (L.EncodeToBytes r) = some r) (db : ProofDB) (t : Node)
    (hdb : db.Get (hashT L t) = .ok (serT L t)) :
    resolve L db (.bytes (hashT L t)) = some (t.rawT L) := by
  have hne : hashT L t ≠ [] := hd _
  cases hh : hashT L t with
  | nil => exact absurd hh hne
  | cons x xs =>
    rw [hh] at hdb
    simp only [resolve, hdb]
    exact hdec _

theorem resolve_ref (L : Lib) (hd : ∀ x, L.Keccak256 x ≠ [])
    (hdec : ∀ r, L.DecodeBytes (L.EncodeToBytes r) = some r) (db : ProofDB) (t : Node)
    (hne : t ≠ .Empty) (hdb : db.Get (hashT L t) = .ok (serT L t)) :
    resolve L db (refT L (t.rawT L)) = some (t.rawT L) := by
  simp only [refT]
  split_ifs
  · exact resolve_hash L hd hdec db t hdb
  · obtain ⟨items, hi⟩ := rawT_list L t hne
    rw [hi]
    rfl

theorem get_found_ne_empty (t : Node) (n : List Nibble) (h : (t.get n).2 = true) :
    t ≠ .Empty := by
  intro he
  rw [he, get_empty] at h
  exact Bool.noConfusion h

theorem verify_ok (L : Lib) (hd : ∀ x, L.Keccak256 x ≠ [])
    (hdec : ∀ r, L.DecodeBytes (L.EncodeToBytes r) = some r) (db : ProofDB) (t : Node)
    (n : List Nibble) (fuel : Nat) (v : Value) (ref : RLP) (ht : t.Inv)
    (hget : t.get n = (v, true)) (hv : v.getD [] ≠ [] ∨ t.endsAtLeaf n = true)
    (hdb : ∀ m ∈ t.visited n, db.Get (hashT L m) = .ok (serT L m))
    (hfuel : (t.visited n).length ≤ fuel) (href : resolve L db ref = some (t.rawT L)) :
    verifyFrom L db fuel ref n = .ok (v.getD []) := by
  induction t generalizing n fuel ref with
  | Empty => simp [get_empty] at hget
  | LeafNode p v0 =>
    cases fuel with
    | zero => simp [Node.visited] at hfuel
    | succ f =>
      simp only [Node.get] at hget
      split_ifs at hget with hm
      · simp at hget
      · simp only [Prod.mk.injEq, and_true] at hget
        simp only [verifyFrom, href, Node.rawT, classify_leaf, hm, if_false, hget]
  | BranchNode bs bv ih =>
    cases fuel with
    | zero => cases n <;> simp [Node.visited] at hfuel
    | succ f =>
      cases n with
      | nil =>
        simp only [Node.get, Prod.mk.injEq] at hget
        have hvv : bv.getD [] ≠ [] := by
          rcases hv with hv | hv
          · rw [hget.1]
            exact hv
          · simp [Node.endsAtLeaf] at hv
        rw [hget.1] at hvv
        simp only [verifyFrom, href, Node.rawT, classify_branch, hget.1, if_neg hvv]
      | cons b r =>
        simp only [Node.get] at hget
        have hne : bs b ≠ .Empty := get_found_ne_empty _ r (by rw [hget])
        have hie : IsEmptyNode (bs b) = false := by
          cases hb : IsEmptyNode (bs b)
          · rfl
          · exact absurd ((isEmptyNode_iff _).mp hb) hne
        have hvis : ∀ m ∈ (bs b).visited r, db.Get (hashT L m) = .ok (serT L m) :=
          fun m hm => hdb m (by simp [Node.visited, hm])
        have hhead : bs b ∈ (bs b).visited r :=
          List.mem_of_mem_head? (visited_head (bs b) r hne)
        simp only [verifyFrom, href, Node.rawT, classify_branch, getD_finRange_map, hie,
          Bool.false_eq_true, if_false]
        refine ih b r f _ (inv_child bs bv ht b) hget ?_ hvis ?_
          (resolve_ref L hd hdec db (bs b) hne (hvis _ hhead))
        · simpa [Node.endsAtLeaf] using hv
        · simp only [Node.visited, List.length_cons] at hfuel
          omega
  | ExtensionNode p x ih =>
    cases fuel with
    | zero =>
      simp only [Node.visited] at hfuel
      split_ifs at hfuel <;> simp at hfuel
    | succ f =>
      simp only [Node.get] at hget
      split_ifs at hget with hm
      · simp at hget
      · have hne : x ≠ .Empty := get_found_ne_empty _ _ (by rw [hget])
        have hvis : ∀ m ∈ x.visited (n.drop (PrefixMatchedLen p n)),
            db.Get (hashT L m) = .ok (serT L m) :=
          fun m hmem => hdb m (by simp [Node.visited, hm, hmem])
        have hhead : x ∈ x.visited (n.drop (PrefixMatchedLen p n)) :=
          List.mem_of_mem_head? (visited_head x _ hne)
        simp only [verifyFrom, href, Node.rawT, classify_ext, hm, if_false]
        refine ih _ f _ (inv_next p x ht) hget ?_ hvis ?_
          (resolve_ref L hd hdec db x hne (hvis _ hhead))
        · simpa [Node.endsAtLeaf] using hv
        · simp only [Node.visited, hm, if_false, List.length_cons] at hfuel
          omega

theorem raw_branch_nil_empty (L : Lib) (bs : Fin 16 → Node) :
    (Node.BranchNode bs (some [])).Raw L = (Node.BranchNode bs none).Raw L := by
  simp only [Node.Raw]
  rfl

theorem raw_ext_congr (L : Lib) (p : List Nibble) (x y : Node) (h : x.Raw L = y.Raw L) :
    (Node.ExtensionNode p x).Raw L = (Node.ExtensionNode p y).Raw L := by
  simp only [Node.Raw, h]

theorem proofPut_congr (L : Lib) (a b : Node) (ha : a ≠ .Empty) (hb : b ≠ .Empty)
    (h : a.Raw L = b.Raw L) :
    Hash L a = Hash L b ∧ ∀ db, proofPut L a db = proofPut L b db := by
  have hs : Serialize L a = Serialize L b := by
    cases a <;> cases b <;> simp_all [Serialize, IsEmptyNode]
  have hh : Hash L a = Hash L b := by
    cases a <;> cases b <;> simp_all [Hash, Node.Hash, IsEmptyNode]
  exact ⟨hh, fun db => by simp only [proofPut, hh, hs]⟩

theorem twin_roots :
    ∃ bs : Fin 16 → Node,
      (NewTrie.PutAll [([0x61, 0x62], some [0x79]), ([0x61, 0x52], some [0x7a]),
        ([0x61], some [])]).root = .ExtensionNode [6, 1] (.BranchNode bs (some [])) ∧
      (NewTrie.PutAll [([0x61, 0x62], some [0x79]), ([0x61, 0x52], some [0x7a])]).root
        = .ExtensionNode [6, 1] (.BranchNode bs none) :=
  ⟨_, rfl, rfl⟩

theorem twin_same (L : Lib) :
    (NewTrie.PutAll [([0x61, 0x62], some [0x79]), ([0x61, 0x52], some [0x7a]),
        ([0x61], some [])]).Hash L
      = (NewTrie.PutAll [([0x61, 0x62], some [0x79]), ([0x61, 0x52], some [0x7a])]).Hash L ∧
    ((NewTrie.PutAll [([0x61, 0x62], some [0x79]), ([0x61, 0x52], some [0x7a]),
        ([0x61], some [])]).Prove L [0x61]).1
      = ((NewTrie.PutAll [([0x61, 0x62], some [0x79]), ([0x61, 0x52], some [0x7a])]).Prove L
          [0x61]).1 := by
  obtain ⟨bs, h2, h1⟩ := twin_roots
  have hb := proofPut_congr L (.BranchNode bs (some [])) (.BranchNode bs none) (by simp)
    (by simp) (raw_branch_nil_empty L bs)
  have he := proofPut_congr L (.ExtensionNode [6, 1] (.BranchNode bs (some [])))
    (.ExtensionNode [6, 1] (.BranchNode bs none)) (by simp) (by simp)
    (raw_ext_congr L _ _ _ (raw_branch_nil_empty L bs))
  have hk : FromBytes [0x61] = [6, 1] := by decide
  constructor
  · rw [Trie.Hash, Trie.Hash, h2, h1]
    simpa [IsEmptyNode, Hash] using he.1
  · rw [Trie.Prove, Trie.Prove, h2, h1, hk]
    have hm : PrefixMatchedLen ([6, 1] : List Nibble) [6, 1] = 2 := by decide
    simp only [Node.prove, he.2, hm, List.length_cons, List.length_nil]
    cases proofPut L (.ExtensionNode [6, 1] (.BranchNode bs none)) NewProofDB with
    | error e => rfl
    | ok db =>
      simp only [Nat.lt_irrefl, if_false, List.drop, Node.prove, hb.2]
      cases proofPut L (.BranchNode bs none) db with
      | error e => rfl
      | ok db2 => simp [HasValue]

set_option maxRecDepth 100000 in
/-- C6 fails at this input. After `Put("ab", "y")`, `Put("aR", "z")` and `Put("a", "")` with the
empty, non-nil value, `Get("a")` returns found = true and `Prove("a")` succeeds, but the
verification of that proof under the root hash does not return the value: the verifier of the
spec reads the empty value of the branch as no value and fails. The key cannot be told from an
absent one by any verifier: without the third put `Get("a")` reports not-found, and, for every
hash function and encoding, `Hash()` and the store that `Prove("a")` builds are the same as with
it, because `BranchNode.Raw` writes a nil value and an empty one as the same byte string. -/
theorem C6_failing_input :
    (NewTrie.PutAll [([0x61, 0x62], some [0x79]), ([0x61, 0x52], some [0x7a]),
        ([0x61], some [])]).Get [0x61] = (some [], true) ∧
    (∃ (db : ProofDB) (hash : List Byte),
      (NewTrie.PutAll [([0x61, 0x62], some [0x79]), ([0x61, 0x52], some [0x7a]),
        ([0x61], some [])]).Prove sampleLib [0x61] = (some db, none) ∧
      (NewTrie.PutAll [([0x61, 0x62], some [0x79]), ([0x61, 0x52], some [0x7a]),
        ([0x61], some [])]).Hash sampleLib = .ok hash ∧
      VerifyProof sampleLib hash [0x61] db = .error .proofVerificationFailure) ∧
    (NewTrie.PutAll [([0x61, 0x62], some [0x79]), ([0x61, 0x52], some [0x7a])]).Get [0x61]
      = (none, false) ∧
    ∀ L : Lib,
      (NewTrie.PutAll [([0x61, 0x62], some [0x79]), ([0x61, 0x52], some [0x7a]),
          ([0x61], some [])]).Hash L
        = (NewTrie.PutAll [([0x61, 0x62], some [0x79]), ([0x61, 0x52], some [0x7a])]).Hash L ∧
      ((NewTrie.PutAll [([0x61, 0x62], some [0x79]), ([0x61, 0x52], some [0x7a]),
          ([0x61], some [])]).Prove L [0x61]).1
        = ((NewTrie.PutAll [([0x61, 0x62], some [0x79]), ([0x61, 0x52], some [0x7a])]).Prove L
            [0x61]).1 := by
  refine ⟨by decide,
    ⟨(((NewTrie.PutAll [([0x61, 0x62], some [0x79]), ([0x61, 0x52], some [0x7a]),
        ([0x61], some [])]).Prove sampleLib [0x61]).1).getD NewProofDB,
      (((NewTrie.PutAll [([0x61, 0x62], some [0x79]), ([0x61, 0x52], some [0x7a]),
        ([0x61], some [])]).Hash sampleLib).toOption).getD [], ?_, ?_, ?_⟩,
    by decide, twin_same⟩
  · decide
  · decide
  · decide

/-- Proof round-trip on the verifier of the spec, for values that the encoding keeps. Assume that
the hash function is injective and never returns the empty byte string and that the decoding
undoes the encoding. On every trie built from `NewTrie` by puts and for every key for which `Get`
returns `(v, true)`, where `v` has at least one byte or the key ends at a leaf, `Prove` succeeds
and `VerifyProof` under the root hash returns the bytes of `v` without error. -/
theorem roundtrip_nonempty (L : Lib) (hk : Function.Injective L.Keccak256)
    (hd : ∀ x, L.Keccak256 x ≠ []) (hdec : ∀ r, L.DecodeBytes (L.EncodeToBytes r) = some r)
    (ops : List (List Byte × Value)) (key : List Byte) (v : Value)
    (hget : (NewTrie.PutAll ops).Get key = (v, true))
    (hv : v.getD [] ≠ [] ∨ (NewTrie.PutAll ops).root.endsAtLeaf (FromBytes key) = true) :
    ∃ (db : ProofDB) (hash : List Byte),
      (NewTrie.PutAll ops).Prove L key = (some db, none) ∧
      (NewTrie.PutAll ops).Hash L = .ok hash ∧
      VerifyProof L hash key db = .ok (v.getD []) := by
  have hinv := PutAll_inv ops
  simp only [Trie.Get] at hget
  have hw : (NewTrie.PutAll ops).root.walkErr (FromBytes key) = none :=
    (get_found_iff _ _).mp (by rw [hget])
  obtain ⟨db, hp⟩ := prove_ok_shape L _ (FromBytes key) NewProofDB hinv hw
  obtain ⟨_, _, hall⟩ := prove_store L hk _ _ _ _ _ hinv (consistent_new L) hp
  have hne := get_found_ne_empty _ _ (show ((NewTrie.PutAll ops).root.get (FromBytes key)).2 = true
    by rw [hget])
  have hroot := hall _ (List.mem_of_mem_head? (visited_head _ (FromBytes key) hne))
  refine ⟨db, _, hp, trie_hash_eq L _ hinv, ?_⟩
  exact verify_ok L hd hdec db _ _ _ v _ hinv hget hv hall (visited_bound _ _ hinv hw)
    (resolve_hash L hd hdec db _ hroot)

set_option maxRecDepth 100000 in
/-- The key "dog" on the four-key example trie, under the sample library instance. -/
theorem roundtrip_nonempty_dog :
    (NewTrie.PutAll scenarioA).Get [0x64, 0x6f, 0x67]
      = (some [0x70, 0x75, 0x70, 0x70, 0x79], true) ∧
    ∃ (db : ProofDB) (hash : List Byte),
      (NewTrie.PutAll scenarioA).Prove sampleLib [0x64, 0x6f, 0x67] = (some db, none) ∧
      (NewTrie.PutAll scenarioA).Hash sampleLib = .ok hash ∧
      VerifyProof sampleLib hash [0x64, 0x6f, 0x67] db
        = .ok ((some [0x70, 0x75, 0x70, 0x70, 0x79] : Value).getD []) :=
  ⟨by decide,
    roundtrip_nonempty sampleLib sampleLib_keccak_injective (fun x => by simp [sampleLib])
      sampleDecode_encode scenarioA [0x64, 0x6f, 0x67] (some [0x70, 0x75, 0x70, 0x70, 0x79])
      (by decide) (Or.inl (by decide))⟩

theorem verify_bad_here (L : Lib) (hd : ∀ x, L.Keccak256 x ≠ []) (db : ProofDB) (t : Node)
    (s2 : List Byte) (fuel : Nat) (n : List Nibble)
    (hbad : ∀ item, L.DecodeBytes s2 = some item → classify item = none) :
    verifyFrom L (db.Put (hashT L t) s2) fuel (.bytes (hashT L t)) n
      = .error .proofVerificationFailure := by
  cases fuel with
  | zero => rfl
  | succ f =>
    have hne : hashT L t ≠ [] := hd _
    cases hc : hashT L t with
    | nil => exact absurd hc hne
    | cons x xs =>
      simp only [verifyFrom, resolve]
      rw [← hc, get_put_same]
      simp only
      cases hdc : L.DecodeBytes s2 with
      | none => rfl
      | some item => simp only [hbad item hdc]

theorem refT_hashed (L : Lib) (t : Node) (h : 32 ≤ (serT L t).length) :
    refT L (t.rawT L) = .bytes (hashT L t) := by
  simp only [serT] at h
  simp only [refT, hashT, serT]
  rw [if_pos h]

theorem refT_inline (L : Lib) (t : Node) (h : ¬ 32 ≤ (serT L t).length) :
    refT L (t.rawT L) = t.rawT L := by
  simp only [serT] at h
  simp only [refT]
  rw [if_neg h]

theorem visited_empty (n : List Nibble) : Node.Empty.visited n = [] := by
  simp [Node.visited]

theorem verify_bad (L : Lib) (hd : ∀ x, L.Keccak256 x ≠ [])
    (hdec : ∀ r, L.DecodeBytes (L.EncodeToBytes r) = some r) (db : ProofDB) (m : Node)
    (s2 : List Byte) (hbad : ∀ item, L.DecodeBytes s2 = some item → classify item = none)
    (hlen : 32 ≤ (serT L m).length) (t : Node) (n : List Nibble) (fuel : Nat) (ref : RLP)
    (ht : t.Inv) (hm : m ∈ t.visited n)
    (hdb : ∀ a ∈ t.visited n, db.Get (hashT L a) = .ok (serT L a))
    (href : ref = .bytes (hashT L t) ∨ ref = refT L (t.rawT L)) :
    verifyFrom L (db.Put (hashT L m) s2) fuel ref n = .error .proofVerificationFailure := by
  induction t generalizing n fuel ref with
  | Empty => simp [Node.visited] at hm
  | LeafNode p v0 =>
    simp only [Node.visited, List.mem_singleton] at hm
    subst hm
    have hr : ref = .bytes (hashT L (Node.LeafNode p v0)) := by
      rcases href with h | h
      · exact h
      · rw [h]
        exact refT_hashed L _ hlen
    rw [hr]
    exact verify_bad_here L hd db _ s2 fuel n hbad
  | BranchNode bs bv ih =>
    by_cases hmt : m = Node.BranchNode bs bv
    · subst hmt
      have hr : ref = .bytes (hashT L (Node.BranchNode bs bv)) := by
        rcases href with h | h
        · exact h
        · rw [h]
          exact refT_hashed L _ hlen
      rw [hr]
      exact verify_bad_here L hd db _ s2 fuel n hbad
    · cases n with
      | nil =>
        simp only [Node.visited, List.mem_singleton] at hm
        exact absurd hm hmt
      | cons b r =>
        simp only [Node.visited, List.mem_cons] at hm
        have hm2 : m ∈ (bs b).visited r := hm.resolve_left hmt
        have hne : bs b ≠ .Empty := by
          intro he
          rw [he, visited_empty] at hm2
          simp at hm2
        have hie : IsEmptyNode (bs b) = false := by
          cases hb : IsEmptyNode (bs b)
          · rfl
          · exact absurd ((isEmptyNode_iff _).mp hb) hne
        have hvis : ∀ a ∈ (bs b).visited r, db.Get (hashT L a) = .ok (serT L a) :=
          fun a ha => hdb a (by simp [Node.visited, ha])
        cases fuel with
        | zero => rfl
        | succ f =>
          by_cases hsame : hashT L (Node.BranchNode bs bv) = hashT L m
          · rcases href with h | h
            · rw [h, hsame]
              exact verify_bad_here L hd db _ s2 (f + 1) _ hbad
            · by_cases hl : 32 ≤ (serT L (Node.BranchNode bs bv)).length
              · have hr : ref = .bytes (hashT L m) := by
                  rw [h, ← hsame]
                  exact refT_hashed L _ hl
                rw [hr]
                exact verify_bad_here L hd db _ s2 (f + 1) _ hbad
              · have hr : resolve L (db.Put (hashT L m) s2) ref
                    = some ((Node.BranchNode bs bv).rawT L) := by
                  rw [h, refT_inline L _ hl]
                  rfl
                simp only [verifyFrom, hr, Node.rawT, classify_branch, getD_finRange_map, hie,
                  Bool.false_eq_true, if_false]
                exact ih b r f _ (inv_child bs bv ht b) hm2 hvis (Or.inr rfl)
          · have hroot : (db.Put (hashT L m) s2).Get (hashT L (Node.BranchNode bs bv))
                = .ok (serT L (Node.BranchNode bs bv)) := by
              rw [get_put_other _ _ _ _ hsame]
              exact hdb _ (by simp [Node.visited])
            have hr : resolve L (db.Put (hashT L m) s2) ref
                = some ((Node.BranchNode bs bv).rawT L) := by
              rcases href with h | h
              · rw [h]
                exact resolve_hash L hd hdec _ _ hroot
              · rw [h]
                exact resolve_ref L hd hdec _ _ (by simp) hroot
            simp only [verifyFrom, hr, Node.rawT, classify_branch, getD_finRange_map, hie,
              Bool.false_eq_true, if_false]
            exact ih b r f _ (inv_child bs bv ht b) hm2 hvis (Or.inr rfl)
  | ExtensionNode p x ih =>
    by_cases hmt : m = Node.ExtensionNode p x
    · subst hmt
      have hr : ref = .bytes (hashT L (Node.ExtensionNode p x)) := by
        rcases href with h | h
        · exact h
        · rw [h]
          exact refT_hashed L _ hlen
      rw [hr]
      exact verify_bad_here L hd db _ s2 fuel n hbad
    · by_cases hmatch : PrefixMatchedLen p n < p.length
      · simp only [Node.visited, hmatch, if_true, List.mem_singleton] at hm
        exact absurd hm hmt
      · simp only [Node.visited, hmatch, if_false, List.mem_cons] at hm
        have hm2 : m ∈ x.visited (n.drop (PrefixMatchedLen p n)) := hm.resolve_left hmt
        have hvis : ∀ a ∈ x.visited (n.drop (PrefixMatchedLen p n)),
            db.Get (hashT L a) = .ok (serT L a) :=
          fun a ha => hdb a (by simp [Node.visited, hmatch, ha])
        cases fuel with
        | zero => rfl
        | succ f =>
          by_cases hsame : hashT L (Node.ExtensionNode p x) = hashT L m
          · rcases href with h | h
            · rw [h, hsame]
              exact verify_bad_here L hd db _ s2 (f + 1) _ hbad
            · by_cases hl : 32 ≤ (serT L (Node.ExtensionNode p x)).length
              · have hr : ref = .bytes (hashT L m) := by
                  rw [h, ← hsame]
                  exact refT_hashed L _ hl
                rw [hr]
                exact verify_bad_here L hd db _ s2 (f + 1) _ hbad
              · have hr : resolve L (db.Put (hashT L m) s2) ref
                    = some ((Node.ExtensionNode p x).rawT L) := by
                  rw [h, refT_inline L _ hl]
                  rfl
                simp only [verifyFrom, hr, Node.rawT, classify_ext, hmatch, if_false]
                exact ih _ f _ (inv_next p x ht) hm2 hvis (Or.inr rfl)
          · have hroot : (db.Put (hashT L m) s2).Get (hashT L (Node.ExtensionNode p x))
                = .ok (serT L (Node.ExtensionNode p x)) := by
              rw [get_put_other _ _ _ _ hsame]
              exact hdb _ (by simp [Node.visited, hmatch])
            have hr : resolve L (db.Put (hashT L m) s2) ref
                = some ((Node.ExtensionNode p x).rawT L) := by
              rcases href with h | h
              · rw [h]
                exact resolve_hash L hd hdec _ _ hroot
              · rw [h]
                exact resolve_ref L hd hdec _ _ (by simp) hroot
            simp only [verifyFrom, hr, Node.rawT, classify_ext, hmatch, if_false]
            exact ih _ f _ (inv_next p x ht) hm2 hvis (Or.inr rfl)

set_option maxRecDepth 20000 in
/-- C7 fails at these inputs. The trie that holds "a" with the value "x": after one byte (the
value byte) of the root preimage in the store of `Prove("a")` is changed, `VerifyProof` under
the unchanged root hash returns the changed value "y" without error, because the verifier of the
spec decodes the preimage it finds under a hash and does not hash it again, and `ProofDB.Put`
stores any value under any key. The trie that holds "a" and "b": after one byte of the stored
preimage of the leaf of "a" is changed, `VerifyProof` still returns "x" without error, because
that leaf is embedded in its parent and its store entry is never read. -/
theorem C7_failing_input :
    (∃ (db : ProofDB) (hash s s2 : List Byte),
      (NewTrie.PutAll [([0x61], some [0x78])]).Prove sampleLib [0x61] = (some db, none) ∧
      (NewTrie.PutAll [([0x61], some [0x78])]).Hash sampleLib = .ok hash ∧
      db.Get hash = .ok s ∧
      s2.length = s.length ∧ ((s.zip s2).filter (fun p => decide (p.1 ≠ p.2))).length = 1 ∧
      VerifyProof sampleLib hash [0x61] (db.Put hash s2) = .ok [0x79]) ∧
    (∃ (db : ProofDB) (hash h s s2 : List Byte),
      (NewTrie.PutAll [([0x61], some [0x78]), ([0x62], some [0x79])]).Prove sampleLib [0x61]
        = (some db, none) ∧
      (NewTrie.PutAll [([0x61], some [0x78]), ([0x62], some [0x79])]).Hash sampleLib
        = .ok hash ∧
      db.Get h = .ok s ∧
      s2.length = s.length ∧ ((s.zip s2).filter (fun p => decide (p.1 ≠ p.2))).length = 1 ∧
      VerifyProof sampleLib hash [0x61] (db.Put h s2) = .ok [0x78]) := by
  constructor
  · refine ⟨⟨[([1, 1, 1, 0, 1, 32, 1, 97, 0, 1, 0, 1, 120, 0, 0],
        [1, 1, 0, 1, 32, 1, 97, 0, 1, 0, 1, 120, 0, 0])]⟩,
      [1, 1, 1, 0, 1, 32, 1, 97, 0, 1, 0, 1, 120, 0, 0],
      [1, 1, 0, 1, 32, 1, 97, 0, 1, 0, 1, 120, 0, 0],
      [1, 1, 0, 1, 32, 1, 97, 0, 1, 0, 1, 121, 0, 0], ?_, ?_, ?_, ?_, ?_, ?_⟩ <;> decide
  · refine ⟨(((NewTrie.PutAll [([0x61], some [0x78]), ([0x62], some [0x79])]).Prove sampleLib
          [0x61]).1).getD NewProofDB,
      (((NewTrie.PutAll [([0x61], some [0x78]), ([0x62], some [0x79])]).Hash
          sampleLib).toOption).getD [],
      [1, 1, 1, 0, 1, 32, 0, 1, 0, 1, 120, 0, 0],
      [1, 1, 0, 1, 32, 0, 1, 0, 1, 120, 0, 0],
      [1, 1, 0, 1, 32, 0, 1, 0, 1, 121, 0, 0], ?_, ?_, ?_, ?_, ?_, ?_⟩ <;> decide

/-- What the verifier of the spec rejects. Assume that the hash function is injective and never
returns the empty byte string and that the decoding undoes the encoding. On every trie built from
`NewTrie` by puts, for every key with a successful `Prove` and the store it returns, take a node
on the lookup path whose preimage the verifier reads from the store: the root, or a node whose
serialization has at least 32 bytes. Replacing its stored preimage by a byte string that does
not decode to a leaf, extension or branch makes `VerifyProof` under the root hash return an
error. -/
theorem malformed_preimage_rejected (L : Lib) (hk : Function.Injective L.Keccak256)
    (hd : ∀ x, L.Keccak256 x ≠ []) (hdec : ∀ r, L.DecodeBytes (L.EncodeToBytes r) = some r)
    (ops : List (List Byte × Value)) (key : List Byte) (db : ProofDB) (hash : List Byte)
    (hp : (NewTrie.PutAll ops).Prove L key = (some db, none))
    (hh : (NewTrie.PutAll ops).Hash L = .ok hash)
    (m : Node) (hm : m ∈ (NewTrie.PutAll ops).root.visited (FromBytes key))
    (hread : m = (NewTrie.PutAll ops).root ∨ 32 ≤ (serT L m).length)
    (s2 : List Byte) (hbad : ∀ item, L.DecodeBytes s2 = some item → classify item = none) :
    VerifyProof L hash key (db.Put (hashT L m) s2) = .error .proofVerificationFailure := by
  have hinv := PutAll_inv ops
  rw [trie_hash_eq L _ hinv] at hh
  have hhash : hash = hashT L (NewTrie.PutAll ops).root := (Except.ok.inj hh).symm
  obtain ⟨_, _, hall⟩ := prove_store L hk _ _ _ _ _ hinv (consistent_new L) hp
  simp only [VerifyProof]
  rw [hhash]
  rcases hread with hroot | hlen
  · rw [hroot]
    exact verify_bad_here L hd db _ s2 _ _ hbad
  · exact verify_bad L hd hdec db m s2 hbad hlen _ _ _ _ hinv hm hall (Or.inl rfl)

set_option maxRecDepth 20000 in
/-- The store of `Prove("a")` on the trie that holds "a", with the empty byte string put in
place of the preimage of the root. -/
theorem malformed_preimage_root :
    ∃ (db : ProofDB) (hash : List Byte),
      (NewTrie.PutAll [([0x61], some [0x78])]).Prove sampleLib [0x61] = (some db, none) ∧
      (NewTrie.PutAll [([0x61], some [0x78])]).Hash sampleLib = .ok hash ∧
      VerifyProof sampleLib hash [0x61]
          (db.Put (hashT sampleLib (NewTrie.PutAll [([0x61], some [0x78])]).root) [])
        = .error .proofVerificationFailure :=
  ⟨⟨[([1, 1, 1, 0, 1, 32, 1, 97, 0, 1, 0, 1, 120, 0, 0],
      [1, 1, 0, 1, 32, 1, 97, 0, 1, 0, 1, 120, 0, 0])]⟩,
    [1, 1, 1, 0, 1, 32, 1, 97, 0, 1, 0, 1, 120, 0, 0], by decide, by decide,
    malformed_preimage_rejected sampleLib sampleLib_keccak_injective (fun x => by simp [sampleLib])
      sampleDecode_encode [([0x61], some [0x78])] [0x61] _ _ (by decide) (by decide)
      (NewTrie.PutAll [([0x61], some [0x78])]).root
      (List.mem_of_mem_head? (visited_head _ _
        (get_found_ne_empty _ (FromBytes [0x61]) (by decide))))
      (Or.inl rfl) []
      (fun item h => by simp [sampleLib, sampleDecode, sampleParse] at h)⟩

theorem inv_within (m t : Node) (ht : t.Inv) (h : Node.Within m t) : m.Inv := by
  induction h with
  | here => exact ht
  | child bs bv i _ ih => exact ih (inv_child bs bv ht i)
  | next p x _ ih => exact ih (inv_next p x ht)

/-- C13: empty root. `Hash()` of a trie freshly created by `NewTrie`, and `nodes.Hash` of the
empty node, return the constant `EmptyNodeHash` with no error, and that constant is the hash of
the canonical encoding of the empty byte string. -/
theorem C13_empty_root (L : Lib) :
    NewTrie.Hash L = .ok (EmptyNodeHash L) ∧
    Hash L .Empty = .ok (EmptyNodeHash L) ∧
    EmptyNodeHash L = L.Keccak256 (L.EncodeToBytes (.bytes [])) := by
  refine ⟨?_, ?_, rfl⟩
  · simp [Trie.Hash, NewTrie, IsEmptyNode]
  · simp [Hash, IsEmptyNode]

/-- C14: Put never fails. On every trie (so on every reachable one) and for every key and value,
`Put` returns no error: the loop returns a node from every slot, because the shared-prefix
length never exceeds the number of remaining nibbles, which is what the `too many matched`
branch tests; the `unknown type` branch has no counterpart, the node type being closed. -/
theorem C14_put_never_fails :
    (∀ (t : Trie) (key : List Byte) (value : Value), (t.Put key value).2 = none) ∧
    (∀ (node : Node) (nibbles : List Nibble) (value : Value),
      ∃ node2, node.put nibbles value = .ok node2) ∧
    (∀ path nibbles : List Nibble, ¬ PrefixMatchedLen path nibbles > nibbles.length) := by
  refine ⟨fun t key value => ?_, fun node nibbles value => ⟨_, put_eq node nibbles value⟩,
    fun path nibbles => ?_⟩
  · rw [trie_put_eq]
  · have := pml_le_right path nibbles
    omega

/-- C15: extension paths are never empty. In every trie built from `NewTrie` by puts, every
extension node anywhere in the tree has a path of at least one nibble. -/
theorem C15_ext_path_nonempty (ops : List (List Byte × Value)) (path : List Nibble)
    (next : Node)
    (h : Node.Within (.ExtensionNode path next) (NewTrie.PutAll ops).root) :
    1 ≤ path.length := by
  have hi := inv_within _ _ (PutAll_inv ops) h
  simp only [Node.Inv] at hi
  exact List.length_pos.mpr hi.1

/-- C19: every extension points at a branch. In every trie built from `NewTrie` by puts, the
`Next` of every extension node anywhere in the tree is a branch node: not the empty node, not a
leaf and not another extension. -/
theorem C19_ext_next_is_branch (ops : List (List Byte × Value)) (path : List Nibble)
    (next : Node)
    (h : Node.Within (.ExtensionNode path next) (NewTrie.PutAll ops).root) :
    ∃ branches value, next = .BranchNode branches value := by
  have hi := inv_within _ _ (PutAll_inv ops) h
  simp only [Node.Inv] at hi
  cases next with
  | BranchNode bs bv => exact ⟨bs, bv, rfl⟩
  | _ => simp [Node.isBranch] at hi

/-- The root of the four-key example trie is an extension with the path `[6]`. -/
theorem C15_witness :
    ∃ next : Node,
      Node.Within (.ExtensionNode [6] next) (NewTrie.PutAll scenarioA).root ∧
      1 ≤ ([6] : List Nibble).length :=
  ⟨_, (Node.Within.here : Node.Within (NewTrie.PutAll scenarioA).root _),
    C15_ext_path_nonempty scenarioA [6] _
      (Node.Within.here : Node.Within (NewTrie.PutAll scenarioA).root _)⟩

/-- The root of the four-key example trie is an extension whose `Next` is a branch. -/
theorem C19_witness :
    ∃ next : Node,
      Node.Within (.ExtensionNode [6] next) (NewTrie.PutAll scenarioA).root ∧
      ∃ branches value, next = .BranchNode branches value :=
  ⟨_, (Node.Within.here : Node.Within (NewTrie.PutAll scenarioA).root _),
    C19_ext_next_is_branch scenarioA [6] _
      (Node.Within.here : Node.Within (NewTrie.PutAll scenarioA).root _)⟩

theorem FromBytes_length (key : List Byte) : (FromBytes key).length = 2 * key.length := by
  induction key with
  | nil => rfl
  | cons b bs ih =>
    simp only [FromBytes, List.length_cons, ih]
    omega

theorem visited_le (t : Node) (n : List Nibble) (ht : t.Inv) :
    (t.visited n).length ≤ n.length + 1 := by
  induction t generalizing n with
  | Empty => simp [Node.visited]
  | LeafNode p v => simp [Node.visited]
  | BranchNode bs bv ih =>
    cases n with
    | nil => simp [Node.visited]
    | cons b r =>
      have := ih b r (inv_child bs bv ht b)
      simp only [Node.visited, List.length_cons]
      omega
  | ExtensionNode p next ih =>
    simp only [Node.visited]
    split_ifs with hm
    · simp
    · have h1 := ih (n.drop (PrefixMatchedLen p n)) (inv_next p next ht)
      simp only [Node.Inv] at ht
      have hp : 0 < p.length := List.length_pos.mpr ht.1
      have h2 := pml_le_left p n
      have h3 := pml_le_right p n
      simp only [List.length_drop] at h1
      simp only [List.length_cons]
      omega

theorem put_kv_length (db : ProofDB) (h s : List Byte) :
    (db.Put h s).kv.length ≤ db.kv.length + 1 := by
  simp only [ProofDB.Put, List.length_cons]
  have := List.length_filter_le (fun e : List Byte × List Byte => decide (e.1 ≠ h)) db.kv
  omega

theorem proofPut_kv_length (L : Lib) (t : Node) (db db2 : ProofDB)
    (h : proofPut L t db = .ok db2) : db2.kv.length ≤ db.kv.length + 1 := by
  simp only [proofPut] at h
  cases hh : Hash L t with
  | error e => simp [hh] at h
  | ok hash =>
    cases hs : Serialize L t with
    | error e => simp [hh, hs] at h
    | ok serial =>
      simp only [hh, hs, Except.ok.injEq] at h
      rw [← h]
      exact put_kv_length db hash serial

theorem prove_kv_length (L : Lib) (t : Node) (n : List Nibble) (db db2 : ProofDB)
    (e : Option Err) (h : t.prove L n db = (some db2, e)) :
    db2.kv.length ≤ db.kv.length + (t.visited n).length := by
  induction t generalizing n db with
  | Empty => simp [Node.prove] at h
  | LeafNode p v =>
    simp only [Node.prove] at h
    cases hp : proofPut L (Node.LeafNode p v) db with
    | error e2 => simp [hp] at h
    | ok db1 =>
      simp only [hp] at h
      split_ifs at h
      · simp at h
      · simp only [Prod.mk.injEq, Option.some.injEq] at h
        rw [← h.1]
        simpa [Node.visited] using proofPut_kv_length L _ _ _ hp
  | BranchNode bs bv ih =>
    cases n with
    | nil =>
      simp only [Node.prove] at h
      cases hp : proofPut L (Node.BranchNode bs bv) db with
      | error e2 => simp [hp] at h
      | ok db1 =>
        simp only [hp] at h
        have hdb : db2 = db1 := by
          split_ifs at h <;> simp only [Prod.mk.injEq, Option.some.injEq] at h <;>
            exact h.1.symm
        rw [hdb]
        simpa [Node.visited] using proofPut_kv_length L _ _ _ hp
    | cons b r =>
      simp only [Node.prove] at h
      cases hp : proofPut L (Node.BranchNode bs bv) db with
      | error e2 => simp [hp] at h
      | ok db1 =>
        simp only [hp] at h
        have h1 := ih b r db1 h
        have h2 := proofPut_kv_length L _ _ _ hp
        simp only [Node.visited, List.length_cons]
        omega
  | ExtensionNode p next ih =>
    simp only [Node.prove] at h
    cases hp : proofPut L (Node.ExtensionNode p next) db with
    | error e2 => simp [hp] at h
    | ok db1 =>
      simp only [hp] at h
      split_ifs at h with hm
      · simp at h
      · have h1 := ih _ db1 h
        have h2 := proofPut_kv_length L _ _ _ hp
        simp only [Node.visited, hm, if_false, List.length_cons]
        omega

/-- C18: bounded traversal. On every trie built from `NewTrie` by puts and for every key of `b`
bytes, the walk of `Get` visits at most `2*b + 1` nodes; a successful `CreateProof` returns a list
of at most `2*b + 1` entries, and the store that `Prove` returns has at most `2*b + 1` entries. -/
theorem C18_bounded_traversal (ops : List (List Byte × Value)) (key : List Byte) :
    ((NewTrie.PutAll ops).root.visited (FromBytes key)).length ≤ 2 * key.length + 1 ∧
    (∀ (L : Lib) (proof : List (List Byte)),
      ((NewTrie.PutAll ops).CreateProof L key).2.2 = none →
      ((NewTrie.PutAll ops).CreateProof L key).1 = some proof →
      proof.length ≤ 2 * key.length + 1) ∧
    (∀ (L : Lib) (db : ProofDB), ((NewTrie.PutAll ops).Prove L key).1 = some db →
      db.kv.length ≤ 2 * key.length + 1) := by
  have hb : ((NewTrie.PutAll ops).root.visited (FromBytes key)).length ≤ 2 * key.length + 1 := by
    have := visited_le _ (FromBytes key) (PutAll_inv ops)
    rw [FromBytes_length] at this
    exact this
  refine ⟨hb, fun L proof hok hsome => ?_, fun L db hsome => ?_⟩
  · obtain ⟨proof2, path, hcp⟩ :=
      createProof_ok_shape L (NewTrie.PutAll ops).root (FromBytes key) [] (FromBytes key) hok
    have htr := createProof_trace L _ _ _ _ proof2 path hcp
    simp only [Trie.CreateProof] at hsome
    rw [hcp] at hsome
    simp only [Option.some.injEq] at hsome
    have hlen := congrArg List.length htr
    simp only [List.map_nil, List.nil_append, List.length_map] at hlen
    rw [← hsome, hlen]
    exact hb
  · have hp : (NewTrie.PutAll ops).root.prove L (FromBytes key) NewProofDB
        = (some db, ((NewTrie.PutAll ops).Prove L key).2) := by
      simp only [Trie.Prove] at hsome ⊢
      rw [← hsome]
    have := prove_kv_length L _ _ _ _ _ hp
    simp only [NewProofDB, List.length_nil, Nat.zero_add] at this
    omega

set_option maxRecDepth 100000 in
/-- The key "dog" (three bytes) on the four-key example trie: six nodes, at most seven. -/
theorem C18_witness :
    ((NewTrie.PutAll scenarioA).CreateProof sampleLib [0x64, 0x6f, 0x67]).2.2 = none ∧
    ∃ proof : List (List Byte),
      ((NewTrie.PutAll scenarioA).CreateProof sampleLib [0x64, 0x6f, 0x67]).1 = some proof ∧
      proof.length ≤ 2 * ([0x64, 0x6f, 0x67] : List Byte).length + 1 := by
  have hok : ((NewTrie.PutAll scenarioA).CreateProof sampleLib [0x64, 0x6f, 0x67]).2.2 = none := by
    rw [Trie.CreateProof, createProof_err _ _ _ _ _ (PutAll_inv _)]
    decide
  obtain ⟨proof, path, h⟩ := createProof_ok_shape sampleLib (NewTrie.PutAll scenarioA).root
    (FromBytes [0x64, 0x6f, 0x67]) [] (FromBytes [0x64, 0x6f, 0x67]) hok
  have h1 : ((NewTrie.PutAll scenarioA).CreateProof sampleLib [0x64, 0x6f, 0x67]).1
      = some proof := by
    simp only [Trie.CreateProof]
    rw [h]
  exact ⟨hok, proof, h1,
    (C18_bounded_traversal scenarioA [0x64, 0x6f, 0x67]).2.1 sampleLib proof hok h1⟩

theorem childRef_rule (L : Lib) (child : Node) (ref : RLP) (hne : child ≠ .Empty)
    (h : childRef L (child.Raw L) = .ok ref) : ChildRefRule L child ref := by
  have hie : IsEmptyNode child = false := by
    cases hb : IsEmptyNode child
    · rfl
    · exact absurd ((isEmptyNode_iff _).mp hb) hne
  cases hr : child.Raw L with
  | error e => simp [hr, childRef] at h
  | ok r =>
    have hs : Serialize L child = .ok (L.EncodeToBytes r) := by
      simp [Serialize, hie, hr]
    have hh : child.Hash L = .ok (L.Keccak256 (L.EncodeToBytes r)) := by
      cases child with
      | Empty => exact absurd rfl hne
      | LeafNode p v => simp [Node.Hash, hs]
      | BranchNode bs bv => simp [Node.Hash, hs]
      | ExtensionNode p x => simp [Node.Hash, hs]
    simp only [hr, childRef] at h
    refine ⟨_, hs, fun hlen => ?_, fun hlen => ?_⟩
    · rw [if_pos hlen] at h
      exact ⟨_, hh, (Except.ok.inj h).symm⟩
    · rw [if_neg (by omega)] at h
      have hrr := Except.ok.inj h
      subst hrr
      exact hr

theorem mapM_ok_inv {α : Type} (f : α → Except Err RLP) (xs : List α) (l : List RLP)
    (h : xs.mapM f = .ok l) :
    l = xs.map (fun x => match f x with | .ok r => r | .error _ => .bytes []) ∧
      ∀ x ∈ xs, f x = .ok (match f x with | .ok r => r | .error _ => .bytes []) := by
  induction xs generalizing l with
  | nil =>
    simp only [List.mapM_nil] at h
    cases h
    simp
  | cons x xs ih =>
    rw [List.mapM_cons] at h
    cases hx : f x with
    | error e =>
      rw [hx] at h
      cases h
    | ok y =>
      rw [hx] at h
      cases hxs : xs.mapM f with
      | error e =>
        rw [hxs] at h
        cases h
      | ok ys =>
        rw [hxs] at h
        obtain ⟨h1, h2⟩ := ih ys hxs
        have hl : l = y :: ys := by
          cases h
          rfl
        refine ⟨?_, ?_⟩
        · rw [hl, List.map_cons, hx, ← h1]
        · intro z hz
          rcases List.mem_cons.mp hz with hz | hz
          · rw [hz, hx]
          · exact h2 z hz

/-- C12: child reference rule. Whenever `Raw()` of an extension returns no error, the raw form is
the framed path followed by a reference to `Next` that obeys the rule; whenever `Raw()` of a
branch returns no error, the raw form is sixteen references followed by the value, where the
reference of an unset slot is the empty byte string and the reference of every other slot obeys
the rule: the child's hash when the child's serialization has at least 32 bytes, the child's own
raw value otherwise. On a trie built from `NewTrie` by puts, `Raw()` returns no error on any
node of the tree. -/
theorem C12_child_reference_rule (L : Lib) :
    (∀ (path : List Nibble) (next : Node) (raw : RLP),
      (Node.ExtensionNode path next).Raw L = .ok raw →
      ∃ ref, raw = .list [.bytes (ToBytes (ToPrefixed path false)), ref] ∧
        ChildRefRule L next ref) ∧
    (∀ (branches : Fin 16 → Node) (value : Value) (raw : RLP),
      (Node.BranchNode branches value).Raw L = .ok raw →
      ∃ refs : Fin 16 → RLP,
        raw = .list ((List.finRange 16).map refs ++ [.bytes (value.getD [])]) ∧
        ∀ i, (branches i = .Empty → refs i = EmptyNodeRaw) ∧
          (branches i ≠ .Empty → ChildRefRule L (branches i) (refs i))) ∧
    (∀ (ops : List (List Byte × Value)) (m : Node),
      Node.Within m (NewTrie.PutAll ops).root → m ≠ .Empty → ∃ raw, m.Raw L = .ok raw) := by
  refine ⟨?_, ?_, fun ops m hm hne =>
    ⟨_, Raw_eq L m (inv_within _ _ (PutAll_inv ops) hm) hne⟩⟩
  · intro path next raw h
    simp only [Node.Raw] at h
    cases hc : childRef L (next.Raw L) with
    | error e => simp [hc] at h
    | ok ref =>
      simp only [hc, Except.ok.injEq] at h
      have hne : next ≠ .Empty := by
        intro he
        simp [he, Node.Raw, childRef] at hc
      exact ⟨ref, h.symm, childRef_rule L next ref hne hc⟩
  · intro branches value raw h
    simp only [Node.Raw] at h
    split at h
    · rename_i hashes heq
      have hm : (List.finRange 16).mapM (fun i => if IsEmptyNode (branches i) then
          (Except.ok EmptyNodeRaw : Except Err RLP)
          else childRef L ((branches i).Raw L)) = .ok hashes := heq
      simp only [Except.ok.injEq] at h
      obtain ⟨h1, h2⟩ := mapM_ok_inv _ _ _ hm
      refine ⟨_, by rw [← h, h1], fun i => ⟨fun he => ?_, fun hne => ?_⟩⟩
      · simp [he, IsEmptyNode]
      · have hie : IsEmptyNode (branches i) = false := by
          cases hb : IsEmptyNode (branches i)
          · rfl
          · exact absurd ((isEmptyNode_iff _).mp hb) hne
        have h3 := h2 i (List.mem_finRange i)
        simp only [hie, Bool.false_eq_true, if_false] at h3 ⊢
        exact childRef_rule L (branches i) _ hne h3
    · cases h

/-- The root of the four-key example trie under the sample library instance: an extension whose
`Next` is referenced according to the rule. -/
theorem C12_witness :
    ∃ (next : Node) (raw : RLP),
      (Node.ExtensionNode [6] next).Raw sampleLib = .ok raw ∧
      ∃ ref, raw = .list [.bytes (ToBytes (ToPrefixed [6] false)), ref] ∧
        ChildRefRule sampleLib next ref :=
  ⟨_, _, (Raw_eq sampleLib (NewTrie.PutAll scenarioA).root (PutAll_inv scenarioA)
      (get_found_ne_empty _ (FromBytes [0x64, 0x6f]) (by decide)) :
        (Node.ExtensionNode [6] _).Raw sampleLib = .ok _),
    (C12_child_reference_rule sampleLib).1 [6] _ _
      (Raw_eq sampleLib (NewTrie.PutAll scenarioA).root (PutAll_inv scenarioA)
        (get_found_ne_empty _ (FromBytes [0x64, 0x6f]) (by decide)))⟩

theorem mem_put_kv (db : ProofDB) (h s : List Byte) (e : List Byte × List Byte)
    (he : e ∈ (db.Put h s).kv) : e = (h, s) ∨ e ∈ db.kv := by
  simp only [ProofDB.Put, List.mem_cons] at he
  rcases he with he | he
  · exact Or.inl he
  · exact Or.inr (List.mem_of_mem_filter he)

theorem proofPut_inv (L : Lib) (t : Node) (db db1 : ProofDB) (hne : t ≠ .Empty)
    (h : proofPut L t db = .ok db1) :
    ∃ s, Serialize L t = .ok s ∧ Hash L t = .ok (L.Keccak256 s) ∧
      db1 = db.Put (L.Keccak256 s) s := by
  have hie : IsEmptyNode t = false := by
    cases hb : IsEmptyNode t
    · rfl
    · exact absurd ((isEmptyNode_iff _).mp hb) hne
  cases hs : Serialize L t with
  | error e =>
    simp only [proofPut, hs] at h
    split at h <;> cases h
  | ok s =>
    have hh : Hash L t = .ok (L.Keccak256 s) := by
      cases t with
      | Empty => exact absurd rfl hne
      | LeafNode p v => simp [Hash, IsEmptyNode, Node.Hash, hs]
      | BranchNode bs bv => simp [Hash, IsEmptyNode, Node.Hash, hs]
      | ExtensionNode p x => simp [Hash, IsEmptyNode, Node.Hash, hs]
    simp only [proofPut, hh, hs, Except.ok.injEq] at h
    exact ⟨s, rfl, hh, h.symm⟩

theorem lookup_mem (l : List (List Byte × List Byte)) (k v : List Byte)
    (h : l.lookup k = some v) : (k, v) ∈ l := by
  induction l with
  | nil => simp at h
  | cons e l ih =>
    obtain ⟨a, b⟩ := e
    by_cases hk : k = a
    · subst hk
      simp only [List.lookup_cons, beq_self_eq_true, Option.some.injEq] at h
      simp [h]
    · have hka : (k == a) = false := by simpa using hk
      simp only [List.lookup_cons, hka] at h
      exact List.mem_cons_of_mem _ (ih h)

theorem get_mem_kv (db : ProofDB) (h s : List Byte) (hg : db.Get h = .ok s) :
    (h, s) ∈ db.kv := by
  apply lookup_mem
  simp only [ProofDB.Get] at hg
  split at hg
  · rename_i val hval
    rw [hval, Except.ok.inj hg]
  · cases hg

theorem put_keeps_key (db : ProofDB) (h s k : List Byte) (hk : ∃ x, db.Get k = .ok x) :
    ∃ x, (db.Put h s).Get k = .ok x := by
  by_cases he : k = h
  · rw [he]
    exact ⟨s, get_put_same _ _ _⟩
  · rw [get_put_other _ _ _ _ he]
    exact hk

/-- What the store holds after the walk of `Prove`, in terms of the store before it. -/
theorem prove_entries (L : Lib) (t : Node) (n : List Nibble) (db db2 : ProofDB)
    (e : Option Err) (hp : t.prove L n db = (some db2, e)) :
    (∀ k, (∃ x, db.Get k = .ok x) → ∃ x, db2.Get k = .ok x) ∧
      (∀ m ∈ t.visited n, ∃ s, Serialize L m = .ok s ∧ Hash L m = .ok (L.Keccak256 s) ∧
        ∃ x, db2.Get (L.Keccak256 s) = .ok x) ∧
      (∀ x ∈ db2.kv, x ∈ db.kv ∨
        ∃ m ∈ t.visited n, ∃ s, Serialize L m = .ok s ∧ x = (L.Keccak256 s, s)) := by
  induction t generalizing n db with
  | Empty => simp [Node.prove] at hp
  | LeafNode p v =>
    simp only [Node.prove] at hp
    cases hpp : proofPut L (Node.LeafNode p v) db with
    | error e2 => simp [hpp] at hp
    | ok db1 =>
      obtain ⟨s, hs, hh, hdb1⟩ := proofPut_inv L _ db db1 (by simp) hpp
      simp only [hpp] at hp
      split_ifs at hp
      · simp at hp
      · simp only [Prod.mk.injEq, Option.some.injEq] at hp
        rw [← hp.1, hdb1]
        refine ⟨fun k hk => put_keeps_key db _ _ k hk, ?_, ?_⟩
        · intro m hm
          simp only [Node.visited, List.mem_singleton] at hm
          rw [hm]
          exact ⟨s, hs, hh, s, get_put_same _ _ _⟩
        · intro x hx
          rcases mem_put_kv _ _ _ _ hx with hx | hx
          · exact Or.inr ⟨_, by simp [Node.visited], s, hs, hx⟩
          · exact Or.inl hx
  | BranchNode bs bv ih =>
    cases n with
    | nil =>
      simp only [Node.prove] at hp
      cases hpp : proofPut L (Node.BranchNode bs bv) db with
      | error e2 => simp [hpp] at hp
      | ok db1 =>
        obtain ⟨s, hs, hh, hdb1⟩ := proofPut_inv L _ db db1 (by simp) hpp
        simp only [hpp] at hp
        have hdb : db2 = db1 := by
          split_ifs at hp <;> simp only [Prod.mk.injEq, Option.some.injEq] at hp <;>
            exact hp.1.symm
        rw [hdb, hdb1]
        refine ⟨fun k hk => put_keeps_key db _ _ k hk, ?_, ?_⟩
        · intro m hm
          simp only [Node.visited, List.mem_singleton] at hm
          rw [hm]
          exact ⟨s, hs, hh, s, get_put_same _ _ _⟩
        · intro x hx
          rcases mem_put_kv _ _ _ _ hx with hx | hx
          · exact Or.inr ⟨_, by simp [Node.visited], s, hs, hx⟩
          · exact Or.inl hx
    | cons b r =>
      simp only [Node.prove] at hp
      cases hpp : proofPut L (Node.BranchNode bs bv) db with
      | error e2 => simp [hpp] at hp
      | ok db1 =>
        obtain ⟨s, hs, hh, hdb1⟩ := proofPut_inv L _ db db1 (by simp) hpp
        simp only [hpp] at hp
        rw [hdb1] at hp
        obtain ⟨h2, h3, h4⟩ := ih b r _ hp
        refine ⟨fun k hk => h2 k (put_keeps_key db _ _ k hk), ?_, ?_⟩
        · intro m hm
          simp only [Node.visited, List.mem_cons] at hm
          rcases hm with hm | hm
          · rw [hm]
            exact ⟨s, hs, hh, h2 _ ⟨s, get_put_same _ _ _⟩⟩
          · exact h3 m hm
        · intro x hx
          rcases h4 x hx with hx | ⟨m, hm, s2, hs2, hx2⟩
          · rcases mem_put_kv _ _ _ _ hx with hx | hx
            · exact Or.inr ⟨_, by simp [Node.visited], s, hs, hx⟩
            · exact Or.inl hx
          · exact Or.inr ⟨m, by simp [Node.visited, hm], s2, hs2, hx2⟩
  | ExtensionNode p next ih =>
    simp only [Node.prove] at hp
    cases hpp : proofPut L (Node.ExtensionNode p next) db with
    | error e2 => simp [hpp] at hp
    | ok db1 =>
      obtain ⟨s, hs, hh, hdb1⟩ := proofPut_inv L _ db db1 (by simp) hpp
      simp only [hpp] at hp
      split_ifs at hp with hm
      · simp at hp
      · rw [hdb1] at hp
        obtain ⟨h2, h3, h4⟩ := ih _ _ hp
        refine ⟨fun k hk => h2 k (put_keeps_key db _ _ k hk), ?_, ?_⟩
        · intro m hmem
          simp only [Node.visited, hm, if_false, List.mem_cons] at hmem
          rcases hmem with hmem | hmem
          · rw [hmem]
            exact ⟨s, hs, hh, h2 _ ⟨s, get_put_same _ _ _⟩⟩
          · exact h3 m hmem
        · intro x hx
          rcases h4 x hx with hx | ⟨m, hmem, s2, hs2, hx2⟩
          · rcases mem_put_kv _ _ _ _ hx with hx | hx
            · exact Or.inr ⟨_, by simp [Node.visited, hm], s, hs, hx⟩
            · exact Or.inl hx
          · exact Or.inr ⟨m, by simp [Node.visited, hm, hmem], s2, hs2, hx2⟩

/-- C11: verifiable proof content. On every trie and for every key for which `Prove` succeeds,
provided that no two nodes that `Get` visits for the key have different serializations with the
same hash, the returned store maps `Hash(n)` to `Serialize(n)` for every node `n` that `Get`
visits, the root and the terminal node among them, and every entry of the store is such a
pair. -/
theorem C11_store_content (L : Lib) (t : Trie) (key : List Byte) (db : ProofDB)
    (hp : t.Prove L key = (some db, none))
    (hcf : ∀ n1 ∈ t.root.visited (FromBytes key), ∀ n2 ∈ t.root.visited (FromBytes key),
      ∀ s1 s2, Serialize L n1 = .ok s1 → Serialize L n2 = .ok s2 →
        L.Keccak256 s1 = L.Keccak256 s2 → s1 = s2) :
    (∀ n ∈ t.root.visited (FromBytes key), ∃ hash serial,
      Hash L n = .ok hash ∧ Serialize L n = .ok serial ∧ db.Get hash = .ok serial) ∧
    (∀ x ∈ db.kv, ∃ n ∈ t.root.visited (FromBytes key),
      Hash L n = .ok x.1 ∧ Serialize L n = .ok x.2) ∧
    (t.root.visited (FromBytes key)).head? = some t.root ∧
    (∃ last ∈ (t.root.visited (FromBytes key)).getLast?, ∃ hash serial,
      Hash L last = .ok hash ∧ Serialize L last = .ok serial ∧ db.Get hash = .ok serial) := by
  obtain ⟨_, h3, h4⟩ := prove_entries L t.root (FromBytes key) NewProofDB db none hp
  have hne : t.root ≠ .Empty := by
    intro he
    simp [Trie.Prove, he, Node.prove] at hp
  have hhead := visited_head t.root (FromBytes key) hne
  have hall : ∀ n ∈ t.root.visited (FromBytes key), ∃ hash serial,
      Hash L n = .ok hash ∧ Serialize L n = .ok serial ∧ db.Get hash = .ok serial := by
    intro n hn
    obtain ⟨s, hs, hh, x, hg⟩ := h3 n hn
    refine ⟨_, s, hh, hs, ?_⟩
    rcases h4 _ (get_mem_kv db _ _ hg) with hx | ⟨m, hm, s2, hs2, hx2⟩
    · simp [NewProofDB] at hx
    · simp only [Prod.mk.injEq] at hx2
      have hss := hcf n hn m hm s s2 hs hs2 hx2.1
      rw [hg, hx2.2, hss]
  refine ⟨hall, fun x hx => ?_, hhead, ?_⟩
  · rcases h4 x hx with hx | ⟨m, hm, s, hs, hx2⟩
    · simp [NewProofDB] at hx
    · obtain ⟨s2, hs2, hh2, _⟩ := h3 m hm
      rw [hs] at hs2
      have hss := Except.ok.inj hs2
      subst hss
      rw [hx2]
      exact ⟨m, hm, hh2, hs⟩
  · cases hl : (t.root.visited (FromBytes key)).getLast? with
    | none =>
      rw [List.getLast?_eq_none_iff] at hl
      rw [hl] at hhead
      simp at hhead
    | some last =>
      exact ⟨last, rfl, hall last (List.mem_of_getLast?_eq_some hl)⟩

set_option maxRecDepth 20000 in
/-- The store of `Prove("a")` on the trie that holds "a" and "b", under the sample library
instance, whose hash function has no collision. -/
theorem C11_witness :
    ∃ db : ProofDB,
      (NewTrie.PutAll [([0x61], some [0x78]), ([0x62], some [0x79])]).Prove sampleLib [0x61]
        = (some db, none) ∧
      ∀ n ∈ (NewTrie.PutAll [([0x61], some [0x78]), ([0x62], some [0x79])]).root.visited
          (FromBytes [0x61]),
        ∃ hash serial, Hash sampleLib n = .ok hash ∧ Serialize sampleLib n = .ok serial ∧
          db.Get hash = .ok serial :=
  ⟨(((NewTrie.PutAll [([0x61], some [0x78]), ([0x62], some [0x79])]).Prove sampleLib
      [0x61]).1).getD NewProofDB, by decide,
    (C11_store_content sampleLib _ [0x61] _ (by decide)
      (fun _ _ _ _ _ _ _ _ h => sampleLib_keccak_injective h)).1⟩

theorem leafPut_split (P : List Nibble) (old : Value) (N : List Nibble) (v : Value)
    (h : ¬ (PrefixMatchedLen P N = P.length ∧ PrefixMatchedLen P N = N.length)) :
    LeafSplitSpec P old N v (leafPut P old N v) := by
  induction P generalizing N with
  | nil =>
    cases N with
    | nil => simp [PrefixMatchedLen] at h
    | cons b r =>
      refine ⟨Function.update (fun _ => Node.Empty) b (.LeafNode r v), old, ?_⟩
      simp only [PrefixMatchedLen, leafPut, NewBranchNode, Node.SetValue, Node.SetBranch]
      refine ⟨by simp, by simp, by simp, by simp, fun i => ⟨by simp, ?_, ?_⟩⟩
      · intro hi
        simp only [List.getElem?_cons_zero, Option.some.injEq] at hi
        subst hi
        simp
      · intro _ hi
        simp only [List.getElem?_cons_zero, ne_eq, Option.some.injEq] at hi
        simp [Function.update, Ne.symm hi]
  | cons a q ih =>
    cases N with
    | nil =>
      refine ⟨Function.update (fun _ => Node.Empty) a (.LeafNode q old), v, ?_⟩
      simp only [PrefixMatchedLen, leafPut, NewBranchNode, Node.SetValue, Node.SetBranch]
      refine ⟨by simp, by simp, by simp, by simp, fun i => ⟨?_, by simp, ?_⟩⟩
      · intro hi
        simp only [List.getElem?_cons_zero, Option.some.injEq] at hi
        subst hi
        simp
      · intro hi _
        simp only [List.getElem?_cons_zero, ne_eq, Option.some.injEq] at hi
        simp [Function.update, Ne.symm hi]
    | cons b r =>
      by_cases hab : a = b
      · subst hab
        have h2 : ¬ (PrefixMatchedLen q r = q.length ∧ PrefixMatchedLen q r = r.length) := by
          intro hc
          apply h
          exact ⟨by simp [PrefixMatchedLen, hc.1], by simp [PrefixMatchedLen, hc.2]⟩
        obtain ⟨bs, bv, hroot, h3, h4, h5, h6⟩ := ih r h2
        refine ⟨bs, bv, ?_⟩
        simp only [PrefixMatchedLen, leafPut, if_true, hroot]
        refine ⟨?_, ?_, ?_, ?_, ?_⟩
        · by_cases hm : PrefixMatchedLen q r = 0
          · simp [hm, Node.prepend]
          · simp [hm, Node.prepend]
        · intro hl
          exact h3 (by simpa using hl)
        · intro hl
          exact h4 (by simpa using hl)
        · intro hl1 hl2
          exact h5 (by simpa using hl1) (by simpa using hl2)
        · intro i
          simpa using h6 i
      · refine ⟨Function.update (Function.update (fun _ => Node.Empty) a (.LeafNode q old)) b
          (.LeafNode r v), none, ?_⟩
        simp only [PrefixMatchedLen, leafPut, hab, if_false, NewBranchNode, Node.SetValue,
          Node.SetBranch]
        refine ⟨by simp, by simp, by simp, by simp, fun i => ⟨?_, ?_, ?_⟩⟩
        · intro hi
          simp only [List.getElem?_cons_zero, Option.some.injEq] at hi
          subst hi
          simp [Function.update, hab]
        · intro hi
          simp only [List.getElem?_cons_zero, Option.some.injEq] at hi
          subst hi
          simp
        · intro hi1 hi2
          simp only [List.getElem?_cons_zero, ne_eq, Option.some.injEq] at hi1 hi2
          simp [Function.update, Ne.symm hi1, Ne.symm hi2]

/-- C16: leaf split. For a root `Leaf(P, old)` and a put of nibbles `N` with value `v` such that,
with `m` the shared-prefix length of `P` and `N`, not `m = len(P) = len(N)`, `Put` returns no
error and the new root is a branch `B` when `m = 0` and `Extension(P[:m], B)` when `m > 0`, where
`B` has value `old` if `m = len(P)`, value `v` if `m = len(N)`, slot `P[m] = Leaf(P[m+1:], old)`
if `m < len(P)`, slot `N[m] = Leaf(N[m+1:], v)` if `m < len(N)`, every other slot empty and no
value otherwise; `Trie.Put` on a trie with that root and a key with nibbles `N` gives that
root. -/
theorem C16_leaf_split (P : List Nibble) (old : Value) (N : List Nibble) (v : Value)
    (h : ¬ (PrefixMatchedLen P N = P.length ∧ PrefixMatchedLen P N = N.length)) :
    ∃ root, (Node.LeafNode P old).put N v = .ok root ∧ LeafSplitSpec P old N v root ∧
      ∀ (t : Trie) (key : List Byte), t.root = .LeafNode P old → FromBytes key = N →
        t.Put key v = (⟨root⟩, none) := by
  refine ⟨leafPut P old N v, put_leaf P old N v, leafPut_split P old N v h, ?_⟩
  intro t key ht hkey
  rw [trie_put_eq, ht, hkey, Node.putT]

/-- The put of "dog" on the trie that holds only "do": the shared prefix is the whole old path,
so the branch takes the old value and one new leaf. -/
theorem C16_witness :
    ¬ (PrefixMatchedLen (FromBytes [0x64, 0x6f]) (FromBytes [0x64, 0x6f, 0x67])
        = (FromBytes [0x64, 0x6f]).length ∧
      PrefixMatchedLen (FromBytes [0x64, 0x6f]) (FromBytes [0x64, 0x6f, 0x67])
        = (FromBytes [0x64, 0x6f, 0x67]).length) ∧
    ∃ root, (Node.LeafNode (FromBytes [0x64, 0x6f]) (some [0x76])).put
        (FromBytes [0x64, 0x6f, 0x67]) (some [0x70]) = .ok root ∧
      LeafSplitSpec (FromBytes [0x64, 0x6f]) (some [0x76]) (FromBytes [0x64, 0x6f, 0x67])
        (some [0x70]) root ∧
      ∀ (t : Trie) (key : List Byte), t.root = .LeafNode (FromBytes [0x64, 0x6f]) (some [0x76]) →
        FromBytes key = FromBytes [0x64, 0x6f, 0x67] → t.Put key (some [0x70]) = (⟨root⟩, none) :=
  ⟨by decide, C16_leaf_split _ _ _ _ (by decide)⟩

theorem extTail_eq (q : List Nibble) (next : Node) :
    extTail q next = (if q = [] then next else Node.ExtensionNode q next) := by
  cases q <;> simp [extTail]

theorem extPut_split (next : Node) (k : List Nibble → Node) (P N : List Nibble) (v : Value)
    (h : PrefixMatchedLen P N < P.length) : ExtSplitSpec P next N v (extPut next k P N v) := by
  induction P generalizing N with
  | nil => simp at h
  | cons a q ih =>
    cases N with
    | nil =>
      refine ⟨Function.update (fun _ => Node.Empty) a (extTail q next), v, ?_⟩
      simp only [PrefixMatchedLen, extPut, NewBranchNode, Node.SetValue, Node.SetBranch]
      refine ⟨by simp, by simp, by simp, fun i => ⟨?_, by simp, ?_⟩⟩
      · intro hi
        simp only [List.getElem?_cons_zero, Option.some.injEq] at hi
        subst hi
        simp [extTail_eq]
      · intro hi _
        simp only [List.getElem?_cons_zero, ne_eq, Option.some.injEq] at hi
        simp [Function.update, Ne.symm hi]
    | cons b r =>
      by_cases hab : a = b
      · subst hab
        have h2 : PrefixMatchedLen q r < q.length := by
          simpa [PrefixMatchedLen] using h
        obtain ⟨bs, bv, hroot, h3, h4, h5⟩ := ih r h2
        refine ⟨bs, bv, ?_⟩
        simp only [PrefixMatchedLen, extPut, if_true, hroot]
        refine ⟨?_, ?_, ?_, ?_⟩
        · by_cases hm : PrefixMatchedLen q r = 0
          · simp [hm, Node.prepend]
          · simp [hm, Node.prepend]
        · intro hl
          exact h3 (by simpa using hl)
        · intro hl
          exact h4 (by simpa using hl)
        · intro i
          simpa using h5 i
      · refine ⟨Function.update (Function.update (fun _ => Node.Empty) a (extTail q next)) b
          (.LeafNode r v), none, ?_⟩
        simp only [PrefixMatchedLen, extPut, hab, if_false, NewBranchNode, Node.SetValue,
          Node.SetBranch]
        refine ⟨by simp, by simp, by simp, fun i => ⟨?_, ?_, ?_⟩⟩
        · intro hi
          simp only [List.getElem?_cons_zero, Option.some.injEq] at hi
          subst hi
          simp [Function.update, hab, extTail_eq]
        · intro hi
          simp only [List.getElem?_cons_zero, Option.some.injEq] at hi
          subst hi
          simp
        · intro hi1 hi2
          simp only [List.getElem?_cons_zero, ne_eq, Option.some.injEq] at hi1 hi2
          simp [Function.update, Ne.symm hi1, Ne.symm hi2]

theorem extPut_full (next : Node) (k : List Nibble → Node) (P N : List Nibble) (v : Value)
    (h : PrefixMatchedLen P N = P.length) :
    extPut next k P N v = .ExtensionNode P (k (N.drop (PrefixMatchedLen P N))) := by
  induction P generalizing N with
  | nil => simp [extPut, PrefixMatchedLen]
  | cons a q ih =>
    cases N with
    | nil => simp [PrefixMatchedLen] at h
    | cons b r =>
      by_cases hab : a = b
      · subst hab
        have h2 : PrefixMatchedLen q r = q.length := by
          simpa [PrefixMatchedLen] using h
        simp [extPut, PrefixMatchedLen, ih r h2, Node.prepend]
      · simp [PrefixMatchedLen, hab] at h

/-- C17: extension split. For a root `Extension(P, next)` and a put of nibbles `N` with value
`v`, with `m` the shared-prefix length of `P` and `N`, `Put` returns no error, and: when
`m < len(P)` the new root is a branch `B` when `m = 0` and `Extension(P[:m], B)` when `m > 0`,
where slot `P[m]` of `B` is `next` itself if `P[m+1:]` is empty and `Extension(P[m+1:], next)`
otherwise, slot `N[m]` is `Leaf(N[m+1:], v)` if `m < len(N)`, the value of `B` is `v` if
`m = len(N)`, every other slot is empty, and the subtree `next` is unchanged; when `m = len(P)`
the new root is `Extension(P, next2)` where `next2` is what the put of `N[m:]` leaves in place
of `next`. `Trie.Put` on a trie with that root and a key with nibbles `N` gives that root. -/
theorem C17_extension_split (P : List Nibble) (next : Node) (N : List Nibble) (v : Value) :
    ∃ root, (Node.ExtensionNode P next).put N v = .ok root ∧
      (PrefixMatchedLen P N < P.length → ExtSplitSpec P next N v root) ∧
      (PrefixMatchedLen P N = P.length →
        ∃ next2, next.put (N.drop (PrefixMatchedLen P N)) v = .ok next2 ∧
          root = .ExtensionNode P next2) ∧
      ∀ (t : Trie) (key : List Byte), t.root = .ExtensionNode P next → FromBytes key = N →
        t.Put key v = (⟨root⟩, none) := by
  refine ⟨extPut next (fun r => next.putT r v) P N v,
    put_ext P next N v _ (fun r => put_eq next r v), extPut_split next _ P N v, ?_, ?_⟩
  · intro h
    exact ⟨_, put_eq next _ v, extPut_full next _ P N v h⟩
  · intro t key ht hkey
    rw [trie_put_eq, ht, hkey, Node.putT]

/-- The put of the nibbles `6 1` on `Extension(6 4, next)`: the shared prefix `6` is kept in an
extension above the new branch. -/
theorem C17_witness :
    PrefixMatchedLen ([6, 4] : List Nibble) [6, 1] < ([6, 4] : List Nibble).length ∧
    ∃ root, (Node.ExtensionNode [6, 4] (NewBranchNode.SetValue (some [0x76]))).put [6, 1]
        (some [0x70]) = .ok root ∧
      ExtSplitSpec [6, 4] (NewBranchNode.SetValue (some [0x76])) [6, 1] (some [0x70]) root :=
  ⟨by decide,
    match C17_extension_split [6, 4] (NewBranchNode.SetValue (some [0x76])) [6, 1]
      (some [0x70]) with
    | ⟨root, h1, h2, _⟩ => ⟨root, h1, h2 (by decide)⟩⟩

theorem occupied_ge (bs : Fin 16 → Node) (bv : Value) (h : TwoOccupied bs bv) :
    2 ≤ occupied bs bv := by
  have hmem : ∀ i, bs i ≠ .Empty →
      i ∈ (List.finRange 16).filter (fun i => !IsEmptyNode (bs i)) := by
    intro i hi
    have hb : IsEmptyNode (bs i) = false := by
      cases hc : IsEmptyNode (bs i)
      · rfl
      · exact absurd ((isEmptyNode_iff _).mp hc) hi
    simp [List.mem_filter, hb]
  rcases h with ⟨i, j, hij, hi, hj⟩ | ⟨hv, i, hi⟩
  · have hsub : List.Subperm [i, j] ((List.finRange 16).filter (fun i => !IsEmptyNode (bs i))) := by
      apply List.subperm_of_subset (by simp [hij])
      intro x hx
      simp only [List.mem_cons, List.mem_singleton, List.not_mem_nil, or_false] at hx
      rcases hx with hx | hx
      · rw [hx]
        exact hmem i hi
      · rw [hx]
        exact hmem j hj
    have hlen := hsub.length_le
    simp only [List.length_cons, List.length_nil] at hlen
    simp only [occupied]
    omega
  · have hlen := List.length_pos_of_mem (hmem i hi)
    have hhv : HasValue bv = true := by
      cases bv with
      | none => exact absurd rfl hv
      | some x => rfl
    simp only [occupied, hhv, if_true]
    omega

theorem twoOccupied_update (bs : Fin 16 → Node) (bv : Value) (b : Fin 16) (x : Node)
    (hx : x ≠ .Empty) (h : TwoOccupied bs bv) : TwoOccupied (Function.update bs b x) bv := by
  have hkeep : ∀ i, bs i ≠ .Empty → Function.update bs b x i ≠ .Empty := by
    intro i hi
    by_cases hib : i = b
    · subst hib
      simpa using hx
    · simpa [Function.update, hib] using hi
  rcases h with ⟨i, j, hij, hi, hj⟩ | ⟨hv, i, hi⟩
  · exact Or.inl ⟨i, j, hij, hkeep i hi, hkeep j hj⟩
  · exact Or.inr ⟨hv, i, hkeep i hi⟩

theorem nd_update (bs : Fin 16 → Node) (a : Nibble) (x : Node)
    (hbs : ∀ i, (bs i).NoDegenerate) (hx : x.NoDegenerate) :
    ∀ i, (Function.update bs a x i).NoDegenerate := by
  intro i
  by_cases hi : i = a
  · subst hi
    simpa using hx
  · simpa [Function.update, hi] using hbs i

theorem prepend_nd (a : Nibble) (t : Node) (ht : t.NoDegenerate) :
    (t.prepend a).NoDegenerate := by
  cases t <;> simp_all [Node.prepend, Node.NoDegenerate]

theorem leafPut_nd (p : List Nibble) (old : Value) (n : List Nibble) (v : Value)
    (hold : old ≠ none) (hv : v ≠ none) : (leafPut p old n v).NoDegenerate := by
  induction p generalizing n with
  | nil =>
    cases n with
    | nil => simpa [leafPut, Node.NoDegenerate] using hv
    | cons b r =>
      simp only [leafPut, NewBranchNode, Node.SetValue, Node.SetBranch, Node.NoDegenerate]
      exact ⟨Or.inr ⟨hold, b, by simp⟩,
        nd_update _ _ _ (fun _ => by simp [Node.NoDegenerate])
          (by simpa [Node.NoDegenerate] using hv)⟩
  | cons a q ih =>
    cases n with
    | nil =>
      simp only [leafPut, NewBranchNode, Node.SetValue, Node.SetBranch, Node.NoDegenerate]
      exact ⟨Or.inr ⟨hv, a, by simp⟩,
        nd_update _ _ _ (fun _ => by simp [Node.NoDegenerate])
          (by simpa [Node.NoDegenerate] using hold)⟩
    | cons b r =>
      by_cases hab : a = b
      · simpa [leafPut, hab] using prepend_nd b _ (ih r)
      · simp only [leafPut, hab, if_false, NewBranchNode, Node.SetBranch, Node.NoDegenerate]
        exact ⟨Or.inl ⟨a, b, hab, by simp [Function.update, hab], by simp⟩,
          nd_update _ _ _
            (nd_update _ _ _ (fun _ => by simp [Node.NoDegenerate])
              (by simpa [Node.NoDegenerate] using hold))
            (by simpa [Node.NoDegenerate] using hv)⟩

theorem extTail_nd (q : List Nibble) (next : Node) (hn : next.NoDegenerate) :
    (extTail q next).NoDegenerate := by
  cases q with
  | nil => simpa [extTail] using hn
  | cons a q => simpa [extTail, Node.NoDegenerate] using hn

theorem extTail_ne_empty (q : List Nibble) (next : Node) (hn : next ≠ .Empty) :
    extTail q next ≠ .Empty := by
  cases q with
  | nil => simpa [extTail] using hn
  | cons a q => simp [extTail]

theorem extPut_nd (next : Node) (k : List Nibble → Node) (p n : List Nibble) (v : Value)
    (hn : next.NoDegenerate) (hne : next ≠ .Empty) (hv : v ≠ none)
    (hk : ∀ r, (k r).NoDegenerate) : (extPut next k p n v).NoDegenerate := by
  induction p generalizing n with
  | nil => simpa [extPut, Node.NoDegenerate] using hk n
  | cons a q ih =>
    cases n with
    | nil =>
      simp only [extPut, NewBranchNode, Node.SetValue, Node.SetBranch, Node.NoDegenerate]
      exact ⟨Or.inr ⟨hv, a, by simpa using extTail_ne_empty q next hne⟩,
        nd_update _ _ _ (fun _ => by simp [Node.NoDegenerate]) (extTail_nd q next hn)⟩
    | cons b r =>
      by_cases hab : a = b
      · simpa [extPut, hab] using prepend_nd b _ (ih r)
      · simp only [extPut, hab, if_false, NewBranchNode, Node.SetBranch, Node.NoDegenerate]
        exact ⟨Or.inl ⟨a, b, hab,
            by simpa [Function.update, hab] using extTail_ne_empty q next hne, by simp⟩,
          nd_update _ _ _
            (nd_update _ _ _ (fun _ => by simp [Node.NoDegenerate]) (extTail_nd q next hn))
            (by simpa [Node.NoDegenerate] using hv)⟩

theorem putT_nd (t : Node) (n : List Nibble) (v : Value) (ht : t.NoDegenerate) (hi : t.Inv)
    (hv : v ≠ none) : (t.putT n v).NoDegenerate := by
  induction t generalizing n with
  | Empty => simpa [Node.putT, Node.NoDegenerate] using hv
  | LeafNode p old =>
    simp only [Node.NoDegenerate] at ht
    simpa [Node.putT] using leafPut_nd p old n v ht hv
  | BranchNode bs bv ih =>
    simp only [Node.NoDegenerate] at ht
    cases n with
    | nil =>
      simp only [Node.putT, Node.NoDegenerate]
      refine ⟨?_, ht.2⟩
      rcases ht.1 with ⟨i, j, hij, h1, h2⟩ | ⟨_, i, h1⟩
      · exact Or.inl ⟨i, j, hij, h1, h2⟩
      · exact Or.inr ⟨hv, i, h1⟩
    | cons b r =>
      simp only [Node.putT, Node.NoDegenerate]
      exact ⟨twoOccupied_update _ _ _ _ (putT_ne_empty _ _ _) ht.1,
        nd_update _ _ _ ht.2 (ih b r (ht.2 b) (inv_child bs bv hi b))⟩
  | ExtensionNode p next ih =>
    simp only [Node.NoDegenerate] at ht
    simp only [Node.putT]
    simp only [Node.Inv] at hi
    exact extPut_nd next _ p n v ht (isBranch_ne_empty _ hi.2.1) hv (fun r => ih r ht hi.2.2)

theorem PutAll_nd (ops : List (List Byte × Value)) (h : ∀ kv ∈ ops, kv.2 ≠ none) :
    (NewTrie.PutAll ops).root.NoDegenerate := by
  induction ops using List.reverseRecOn with
  | nil => simp [Trie.PutAll, NewTrie, Node.NoDegenerate]
  | append_singleton ops kv ih =>
    rw [putAll_snoc, trie_put_eq]
    exact putT_nd _ _ _ (ih (fun x hx => h x (by simp [hx]))) (PutAll_inv ops) (h kv (by simp))

theorem nd_within (m t : Node) (ht : t.NoDegenerate) (h : Node.Within m t) :
    m.NoDegenerate := by
  induction h with
  | here => exact ht
  | child bs bv i _ ih =>
    simp only [Node.NoDegenerate] at ht
    exact ih (ht.2 i)
  | next p x _ ih =>
    simp only [Node.NoDegenerate] at ht
    exact ih ht

/-- C20: no degenerate branch. In every trie reachable from `NewTrie` by puts of non-nil values,
every Branch node anywhere in the tree has at least two occupied entries among its 16 child slots
and its value: two children, or one child and a value. -/
theorem C20_no_degenerate_branch (ops : List (List Byte × Value))
    (hops : ∀ kv ∈ ops, kv.2 ≠ none) (branches : Fin 16 → Node) (value : Value)
    (h : Node.Within (.BranchNode branches value) (NewTrie.PutAll ops).root) :
    2 ≤ occupied branches value ∧
      ((∃ i j, i ≠ j ∧ branches i ≠ .Empty ∧ branches j ≠ .Empty) ∨
        (HasValue value = true ∧ ∃ i, branches i ≠ .Empty)) := by
  have hnd := nd_within _ _ (PutAll_nd ops hops) h
  simp only [Node.NoDegenerate] at hnd
  refine ⟨occupied_ge _ _ hnd.1, ?_⟩
  rcases hnd.1 with h1 | ⟨hv, h2⟩
  · exact Or.inl h1
  · refine Or.inr ⟨?_, h2⟩
    cases value with
    | none => exact absurd rfl hv
    | some x => rfl

/-- The branch below the root extension of the trie that holds "a" and "b" has two children. -/
theorem C20_witness :
    (∀ kv ∈ [(([0x61] : List Byte), (some [0x78] : Value)), ([0x62], some [0x79])],
      kv.2 ≠ none) ∧
    ∃ (branches : Fin 16 → Node) (value : Value),
      Node.Within (.BranchNode branches value)
        (NewTrie.PutAll [([0x61], some [0x78]), ([0x62], some [0x79])]).root ∧
      2 ≤ occupied branches value :=
  ⟨by decide, _, _,
    (Node.Within.next _ _ Node.Within.here :
      Node.Within _ (NewTrie.PutAll [([0x61], some [0x78]), ([0x62], some [0x79])]).root),
    (C20_no_degenerate_branch [([0x61], some [0x78]), ([0x62], some [0x79])] (by decide) _ _
      (Node.Within.next _ _ Node.Within.here :
        Node.Within _ (NewTrie.PutAll [([0x61], some [0x78]), ([0x62], some [0x79])]).root)).1⟩

end MPT
